import Mathlib

/-
Verification development for the Pdf-Compare repository.

Shallow embedding conventions used throughout this file:
  * Python strings are modelled as `List Char`; `String.data` converts literals.
  * Python's Unicode-aware character classes are modelled on the character
    domain the program actually processes (ASCII plus the Hangul syllable
    block 가-힣 and the Hangul compatibility jamo ㄱ-ㅎ / ㅏ-ㅣ):
      - `str.isdigit` / regex `\d`  : ASCII digits,
      - `str.isalnum`               : ASCII alphanumerics plus Hangul,
      - regex `\w`                  : alphanumerics (as above) plus `_`,
      - regex `\s` / `str.isspace`  : the six ASCII whitespace characters,
      - `str.lower`                 : ASCII case folding (Hangul has no case).
  * Python floats are modelled as exact rationals (`ℚ`).  Every comparison
    against a threshold appearing in a concrete theorem of this file is far
    from the region where binary floating point rounding could flip it.
  * Python dicts keyed by int with insertion-order iteration are modelled as
    association lists extended at the end.
-/

namespace PyStr

/-- Python `str.isspace` / regex `\s` on the modelled character domain. -/
def pyIsSpace (c : Char) : Bool :=
  c = ' ' || c = '\t' || c = '\n' || c = '\r' || c = '\x0b' || c = '\x0c'

/-- Regex `\d` / `str.isdigit` (ASCII digits). -/
def pyIsDigit (c : Char) : Bool := decide ('0' ≤ c ∧ c ≤ '9')

/-- A Hangul syllable, the range 가-힣 used by the sources' regexes. -/
def isHangulSyl (c : Char) : Bool := decide ('가' ≤ c ∧ c ≤ '힣')

/-- Hangul compatibility jamo, the ranges ㄱ-ㅎ and ㅏ-ㅣ used by `is_korean`. -/
def isHangulJamo (c : Char) : Bool :=
  decide ('ㄱ' ≤ c ∧ c ≤ 'ㅎ') || decide ('ㅏ' ≤ c ∧ c ≤ 'ㅣ')

/-- An ASCII letter. -/
def isAsciiAlpha (c : Char) : Bool :=
  decide ('a' ≤ c ∧ c ≤ 'z') || decide ('A' ≤ c ∧ c ≤ 'Z')

/-- Python `str.isalnum` on the modelled character domain. -/
def pyIsAlnum (c : Char) : Bool := isAsciiAlpha c || isHangulSyl c || isHangulJamo c || pyIsDigit c

/-- Regex `\w` on the modelled character domain. -/
def isWordChar (c : Char) : Bool := pyIsAlnum c || c = '_'

/-- A character that survives `re.sub(r'[^\w\s가-힣]', '', ·)`. -/
def keepChar (c : Char) : Bool := isWordChar c || pyIsSpace c || isHangulSyl c

/-- Python `str.lower` (ASCII case folding; identity on Hangul and digits). -/
def asciiLower (c : Char) : Char :=
  if decide ('A' ≤ c ∧ c ≤ 'Z') then Char.ofNat (c.toNat + 32) else c

/-- Python `str.strip()`: drop whitespace from both ends. -/
def pyStrip (s : List Char) : List Char :=
  ((s.dropWhile pyIsSpace).reverse.dropWhile pyIsSpace).reverse

/-- Worker for `collapseWs`; the flag records whether we are inside a
whitespace run whose single replacement `' '` has already been emitted. -/
def collapseGo : Bool → List Char → List Char
  | _, [] => []
  | inRun, c :: cs =>
    if pyIsSpace c then
      if inRun then collapseGo true cs else ' ' :: collapseGo true cs
    else c :: collapseGo false cs

/-- Python `re.sub(r'\s+', ' ', ·)`: each maximal whitespace run becomes one space. -/
def collapseWs (s : List Char) : List Char := collapseGo false s

/-- Python `pat in s`: substring test. -/
def isSubstrOf (pat s : List Char) : Bool := s.tails.any (fun t => pat.isPrefixOf t)

/-- Decimal value of a list of ASCII digits, as Python `int(...)`. -/
def digitsToNat (s : List Char) : Nat := s.foldl (fun n c => n * 10 + (c.toNat - 48)) 0

/-- Python `str(n)` for a non-negative integer. -/
def natToChars (n : Nat) : List Char := (Nat.repr n).data

/-- Worker for `replaceAll`.  The fuel bounds the number of steps; each step
consumes at least one character, so `s.length` suffices and the `0` case is
never reached on a non-empty list. -/
def replaceAllGo (pat rep : List Char) : Nat → List Char → List Char
  | _, [] => []
  | 0, s => s
  | fuel + 1, c :: cs =>
    if pat ≠ [] ∧ pat.isPrefixOf (c :: cs) then
      rep ++ replaceAllGo pat rep fuel ((c :: cs).drop pat.length)
    else c :: replaceAllGo pat rep fuel cs

/-- Python `s.replace(pat, rep)`: replace every (left-to-right, non-overlapping)
occurrence.  The sources only call it with a non-empty `pat`. -/
def replaceAll (pat rep s : List Char) : List Char := replaceAllGo pat rep s.length s

/-- `String` literal to the `List Char` model. -/
def ofStr (s : String) : List Char := s.data

end PyStr

namespace Posid

/- Embeddings from `src/pdf_text_compare_posid.py` (the word-level comparison
tool): `is_meaningless_word`, `normalize_korean_number`, `split_by_comma`,
`normalize_word` and `compare_with_resync`. -/

open PyStr

/-- The `url_patterns` list of `is_meaningless_word`. -/
def urlPatterns : List (List Char) :=
  [ofStr "http", ofStr "https", ofStr "www.", ofStr ".com", ofStr ".net",
   ofStr ".org", ofStr ".go.kr", ofStr ".kr", ofStr "ftp://"]

/-- The `bullet_points` list of `is_meaningless_word`. -/
def bulletPoints : List (List Char) :=
  [ofStr "o", ofStr "O",
   ofStr "•", ofStr "●", ofStr "○", ofStr "◦", ofStr "⦿", ofStr "⦾",
   ofStr "■", ofStr "□", ofStr "▪", ofStr "▫", ofStr "◾", ofStr "◽",
   ofStr "◆", ofStr "◇", ofStr "◈",
   ofStr "▶", ofStr "▷", ofStr "►", ofStr "▸",
   ofStr "※", ofStr "★", ofStr "☆", ofStr "✓", ofStr "✔", ofStr "✕", ofStr "✖",
   ofStr "-", ofStr "–", ofStr "—", ofStr "―",
   ofStr "→", ofStr "←", ofStr "↑", ofStr "↓",
   ofStr "①", ofStr "②", ofStr "③", ofStr "④", ofStr "⑤",
   ofStr "⑥", ofStr "⑦", ofStr "⑧", ofStr "⑨", ofStr "⑩"]

/-- `is_korean` of the source: Hangul syllable or compatibility jamo. -/
def isKoreanChar (c : Char) : Bool := isHangulSyl c || isHangulJamo c

/-- Python `str.isdigit` on a whole string (empty string is not a digit string). -/
def pyStrIsDigit (s : List Char) : Bool := !s.isEmpty && s.all pyIsDigit

/-- `is_meaningless_word`: URL fragments, bullet glyphs, single non-alphanumeric
non-Hangul characters, and bare one/two digit numbers are meaningless. -/
def isMeaninglessWord (w : List Char) : Bool :=
  let lw := w.map asciiLower
  let st := pyStrip w
  (urlPatterns.any (fun p => isSubstrOf p lw)) ||
  (bulletPoints.contains st) ||
  (match st with
   | [c] => !(pyIsAlnum c || isKoreanChar c)
   | _ => false) ||
  (pyStrIsDigit st && decide (st.length ≤ 2))

/-- The `units` dict of `normalize_korean_number`, in insertion order. -/
def koreanUnits : List (Char × Nat) :=
  [('조', 1000000000000), ('억', 100000000), ('만', 10000)]

/-- The character class `[0-9,]`. -/
def isNumComma (c : Char) : Bool := pyIsDigit c || c = ','

/-- `re.search(r'([0-9,]+)' + unit, text)`: the leftmost maximal `[0-9,]` run
immediately followed by the unit character; returns the run (group 1).
The scan may restart inside a failed run: every suffix of that run has the
same run end, so this is equivalent to skipping the whole run, which is what
the leftmost-match regex search does. -/
def knSearch (u : Char) : List Char → Option (List Char)
  | [] => none
  | c :: cs =>
    if isNumComma c then
      match List.dropWhile isNumComma (c :: cs) with
      | u' :: _ =>
        if u' = u then some (List.takeWhile isNumComma (c :: cs)) else knSearch u cs
      | [] => none
    else knSearch u cs

/-- One iteration of the unit loop in `normalize_korean_number`.  An empty
digit string makes Python's `int` raise, which the source catches and ignores
(`except: pass`), leaving the text unchanged. -/
def knApplyUnit (text : List Char) (u : Char) (mult : Nat) : List Char :=
  if text.contains u then
    match knSearch u text with
    | some run =>
      let digits := run.filter (fun c => c ≠ ',')
      if digits.isEmpty then text
      else replaceAll (run ++ [u]) (natToChars (digitsToNat digits * mult)) text
    | none => text
  else text

/-- `normalize_korean_number`: expand `조`/`억`/`만` magnitude units, then
remove remaining commas (`text.replace(',', '')`). -/
def normalizeKoreanNumber (text : List Char) : List Char :=
  let t := koreanUnits.foldl (fun acc p => knApplyUnit acc p.1 p.2) text
  t.filter (fun c => c ≠ ',')

/-- Python `str.split(',')`. -/
def splitCommaRaw : List Char → List (List Char)
  | [] => [[]]
  | c :: cs =>
    let r := splitCommaRaw cs
    if c = ',' then [] :: r
    else
      match r with
      | h :: t => (c :: h) :: t
      | [] => [[c]]

/-- `split_by_comma`: split at commas, strip each part, keep non-empty parts;
if nothing remains, return the original word. -/
def splitByComma (w : List Char) : List (List Char) :=
  let result := ((splitCommaRaw w).map pyStrip).filter (fun p => !p.isEmpty)
  if result.isEmpty then [w] else result

/-- `normalize_word`: meaninglessness filter, Korean magnitude-unit expansion,
punctuation stripping, whitespace collapse, lower casing, strip. -/
def normalizeWord (w : List Char) : List Char :=
  if isMeaninglessWord w then []
  else
    let w1 := normalizeKoreanNumber w
    let w2 := w1.filter keepChar
    let w3 := collapseWs w2
    let w4 := w3.map asciiLower
    pyStrip w4

end Posid

namespace Posid

/-- A word as handed to `compare_with_resync` (a normalized token). -/
abbrev Word : Type := List Char

/-- One entry of the `differences` list of `compare_with_resync`:
`('delete', i, None)`, `('insert', None, j)` or `('replace', i, j)`. -/
inductive DiffOp : Type
  | del (leftIdx : Nat)
  | ins (rightIdx : Nat)
  | rep (leftIdx rightIdx : Nat)
deriving DecidableEq, Repr

/-- Element access `ws[n]` (all uses are in range; the default is irrelevant). -/
def wAt (ws : List Word) (n : Nat) : Word := ws.getD n []

/-- `[lo, lo+1, ..., hi-1]`, Python's `range(lo, hi)`. -/
def rangeList (lo hi : Nat) : List Nat := (List.range (hi - lo)).map (lo + ·)

/-- Worker for `firstInRange`: scan `n` values upward from `k`. -/
def firstInRangeAux (p : Nat → Bool) : Nat → Nat → Option Nat
  | _, 0 => none
  | k, n + 1 => if p k then some k else firstInRangeAux p (k + 1) n

/-- The first `k` with `lo ≤ k < hi` and `p k`, mirroring a Python
`for k in range(lo, hi)` loop that `break`s at the first hit. -/
def firstInRange (lo hi : Nat) (p : Nat → Bool) : Option Nat :=
  firstInRangeAux p lo (hi - lo)

/-- The merge check of `compare_with_resync`: the first `k` in
`range(1, min(5, len(ws) - start))` with `''.join(ws[start:start+k+1])`
equal to `target`. -/
def mergeFind (ws : List Word) (start : Nat) (target : Word) : Option Nat :=
  firstInRange 1 (min 5 (ws.length - start))
    (fun k => decide (((ws.drop start).take (k + 1)).flatten = target))

/-- Inner `k2` loop of the joint-lookahead scan (step 3):
keep the pair minimizing `k1 + k2`, strictly-better-only updates. -/
def jointInner (p : Nat → Nat → Bool) (k1 : Nat) :
    Nat → Nat → Option (Nat × Nat × Nat) → Option (Nat × Nat × Nat)
  | _, 0, acc => acc
  | k2, n + 1, acc =>
    jointInner p k1 (k2 + 1) n
      (if p k1 k2 then
        match acc with
        | none => some (k1 + k2, k1, k2)
        | some (d, b1, b2) =>
          if k1 + k2 < d then some (k1 + k2, k1, k2) else some (d, b1, b2)
      else acc)

/-- Outer `k1` loop of the joint-lookahead scan. -/
def jointOuter (p : Nat → Nat → Bool) (h2 : Nat) :
    Nat → Nat → Option (Nat × Nat × Nat) → Option (Nat × Nat × Nat)
  | _, 0, acc => acc
  | k1, n + 1, acc => jointOuter p h2 (k1 + 1) n (jointInner p k1 1 (h2 - 1) acc)

/-- Best `(k1, k2)` with `k1 ∈ range(1, h1)`, `k2 ∈ range(1, h2)`, `p k1 k2`,
minimizing `k1 + k2` (ties: first in scan order), with the distance attached. -/
def jointBest (p : Nat → Nat → Bool) (h1 h2 : Nat) : Option (Nat × Nat × Nat) :=
  jointOuter p h2 1 (h1 - 1) none


/-- The merge check of the mismatch branch (step 0): if one current word is
strictly shorter, try to read the other current word as the separator-free
concatenation of up to 5 consecutive words; on success return the advanced
pointer pair (no diff record is emitted — the source's [BUG FIX]). -/
def resyncMerge (wl wr : List Word) (i j : Nat) : Option (Nat × Nat) :=
  let lw := wAt wl i
  let rw := wAt wr j
  if lw.length < rw.length then
    (mergeFind wl i rw).map (fun k => (i + k + 1, j + 1))
  else if rw.length < lw.length then
    (mergeFind wr j lw).map (fun k => (i + 1, j + k + 1))
  else none

/-- The body of `compare_with_resync` for the case where both pointers are in
range and `words_left[i] != words_right[j]`: merge check, then the three
resynchronization attempts, else a `replace`.  Returns the emitted diff
records and the new pointer pair. -/
def resyncStep (wl wr : List Word) (la : Nat) (i j : Nat) :
    List DiffOp × Nat × Nat :=
  match resyncMerge wl wr i j with
  | some (i', j') => ([], i', j')
  | none =>
    match firstInRange 1 (min (la + 1) (wl.length - i))
        (fun k => decide (wAt wl (i + k) = wAt wr j)) with
    | some k => ((rangeList i (i + k)).map DiffOp.del, i + k, j)
    | none =>
      match firstInRange 1 (min (la + 1) (wr.length - j))
          (fun k => decide (wAt wl i = wAt wr (j + k))) with
      | some k => ((rangeList j (j + k)).map DiffOp.ins, i, j + k)
      | none =>
        match jointBest (fun k1 k2 => decide (wAt wl (i + k1) = wAt wr (j + k2)))
            (min (la + 1) (wl.length - i)) (min (la + 1) (wr.length - j)) with
        | some (_, k1, k2) =>
          ((rangeList i (i + k1)).map DiffOp.del ++
            (rangeList j (j + k2)).map DiffOp.ins, i + k1, j + k2)
        | none => ([DiffOp.rep i j], i + 1, j + 1)

theorem firstInRangeAux_some_spec (p : Nat → Bool) :
    ∀ n k m, firstInRangeAux p k n = some m → k ≤ m ∧ m < k + n ∧ p m = true := by
  intro n
  induction n with
  | zero => intro k m h; simp [firstInRangeAux] at h
  | succ n ih =>
    intro k m h
    simp only [firstInRangeAux] at h
    by_cases hp : p k
    · simp [hp] at h; subst h; exact ⟨le_refl _, by omega, hp⟩
    · simp [hp] at h
      obtain ⟨h1, h2, h3⟩ := ih (k + 1) m h
      exact ⟨by omega, by omega, h3⟩

theorem firstInRange_some_spec (lo hi : Nat) (p : Nat → Bool) (m : Nat)
    (h : firstInRange lo hi p = some m) : lo ≤ m ∧ m < hi ∧ p m = true := by
  obtain ⟨h1, h2, h3⟩ := firstInRangeAux_some_spec p (hi - lo) lo m h
  exact ⟨h1, by omega, h3⟩

theorem jointInner_bounds (p : Nat → Nat → Bool) (k1 lo1 hi1 hi2 : Nat)
    (hk1a : lo1 ≤ k1) (hk1b : k1 < hi1) :
    ∀ n k2 acc,
      (k2 + n ≤ hi2 ∨ n = 0) →
      (∀ d b1 b2, acc = some (d, b1, b2) → lo1 ≤ b1 ∧ b1 < hi1 ∧ b2 < hi2) →
      (∀ d b1 b2, jointInner p k1 k2 n acc = some (d, b1, b2) →
        lo1 ≤ b1 ∧ b1 < hi1 ∧ b2 < hi2) := by
  intro n
  induction n with
  | zero => intro k2 acc _ hacc; exact hacc
  | succ n ih =>
    intro k2 acc hle hacc
    simp only [jointInner]
    have hk2 : k2 < hi2 := by omega
    apply ih (k2 + 1) _ (by omega)
    intro d b1 b2 h
    by_cases hp : p k1 k2
    · simp only [hp, if_true] at h
      match hacceq : acc with
      | none =>
        simp at h
        obtain ⟨_, h2, h3⟩ := h
        exact ⟨by omega, by omega, by omega⟩
      | some (d0, c1, c2) =>
        by_cases hlt : k1 + k2 < d0
        · simp [hlt] at h
          obtain ⟨_, h2, h3⟩ := h
          exact ⟨by omega, by omega, by omega⟩
        · simp [hlt] at h
          obtain ⟨h1, h2, h3⟩ := h
          obtain ⟨g1, g2, g3⟩ := hacc d0 c1 c2 rfl
          exact ⟨by omega, by omega, by omega⟩
    · simp only [hp, if_false] at h
      exact hacc d b1 b2 h

theorem jointOuter_bounds (p : Nat → Nat → Bool) (hi1 hi2 : Nat) :
    ∀ n k1 acc,
      (k1 + n ≤ hi1 ∨ n = 0) → 1 ≤ k1 →
      (∀ d b1 b2, acc = some (d, b1, b2) → 1 ≤ b1 ∧ b1 < hi1 ∧ b2 < hi2) →
      (∀ d b1 b2, jointOuter p hi2 k1 n acc = some (d, b1, b2) →
        1 ≤ b1 ∧ b1 < hi1 ∧ b2 < hi2) := by
  intro n
  induction n with
  | zero => intro k1 acc _ _ hacc; exact hacc
  | succ n ih =>
    intro k1 acc hle h1 hacc
    simp only [jointOuter]
    have hk1 : k1 < hi1 := by omega
    refine ih (k1 + 1) _ (by omega) (by omega) ?_
    intro d b1 b2 h
    refine jointInner_bounds p k1 1 hi1 hi2 h1 hk1 (hi2 - 1) 1 acc (by omega) hacc d b1 b2 h

theorem jointBest_bounds (p : Nat → Nat → Bool) (h1 h2 d k1 k2 : Nat)
    (h : jointBest p h1 h2 = some (d, k1, k2)) :
    1 ≤ k1 ∧ k1 < h1 ∧ k2 < h2 := by
  exact jointOuter_bounds p h1 h2 (h1 - 1) 1 none (by omega) (by omega)
    (by intro d b1 b2 hc; simp at hc) d k1 k2 h

theorem mergeFind_some_spec (ws : List Word) (start : Nat) (target : Word) (k : Nat)
    (h : mergeFind ws start target = some k) :
    1 ≤ k ∧ k < min 5 (ws.length - start) ∧
      ((ws.drop start).take (k + 1)).flatten = target := by
  obtain ⟨h1, h2, h3⟩ := firstInRange_some_spec _ _ _ _ h
  exact ⟨h1, h2, by simpa using h3⟩

theorem resyncMerge_some_spec (wl wr : List Word) (i j i' j' : Nat)
    (hi : i < wl.length) (hj : j < wr.length)
    (h : resyncMerge wl wr i j = some (i', j')) :
    i < i' ∧ j < j' ∧ i' ≤ wl.length ∧ j' ≤ wr.length := by
  unfold resyncMerge at h
  by_cases hml : (wAt wl i).length < (wAt wr j).length
  · rw [if_pos hml] at h
    match hmf : mergeFind wl i (wAt wr j) with
    | none => rw [hmf] at h; simp at h
    | some k =>
      rw [hmf] at h
      obtain ⟨hk1, hk2, _⟩ := mergeFind_some_spec _ _ _ _ hmf
      simp at h
      omega
  · rw [if_neg hml] at h
    by_cases hmr : (wAt wr j).length < (wAt wl i).length
    · rw [if_pos hmr] at h
      match hmf : mergeFind wr j (wAt wl i) with
      | none => rw [hmf] at h; simp at h
      | some k =>
        rw [hmf] at h
        obtain ⟨hk1, hk2, _⟩ := mergeFind_some_spec _ _ _ _ hmf
        simp at h
        omega
    · rw [if_neg hmr] at h
      simp at h

theorem resyncStep_progress (wl wr : List Word) (la : Nat) (i j : Nat)
    (hi : i < wl.length) (hj : j < wr.length) :
    i ≤ (resyncStep wl wr la i j).2.1 ∧ j ≤ (resyncStep wl wr la i j).2.2 ∧
    i + j < (resyncStep wl wr la i j).2.1 + (resyncStep wl wr la i j).2.2 ∧
    (resyncStep wl wr la i j).2.1 ≤ wl.length ∧
    (resyncStep wl wr la i j).2.2 ≤ wr.length := by
  match hm : resyncMerge wl wr i j with
  | some (i', j') =>
    obtain ⟨h1, h2, h3, h4⟩ := resyncMerge_some_spec wl wr i j i' j' hi hj hm
    simp only [resyncStep, hm]
    exact ⟨by omega, by omega, by omega, h3, h4⟩
  | none =>
    match hf1 : firstInRange 1 (min (la + 1) (wl.length - i))
        (fun k => decide (wAt wl (i + k) = wAt wr j)) with
    | some k =>
      obtain ⟨hk1, hk2, _⟩ := firstInRange_some_spec _ _ _ _ hf1
      simp only [resyncStep, hm, hf1]
      exact ⟨by omega, by omega, by omega, by omega, by omega⟩
    | none =>
      match hf2 : firstInRange 1 (min (la + 1) (wr.length - j))
          (fun k => decide (wAt wl i = wAt wr (j + k))) with
      | some k =>
        obtain ⟨hk1, hk2, _⟩ := firstInRange_some_spec _ _ _ _ hf2
        simp only [resyncStep, hm, hf1, hf2]
        exact ⟨by omega, by omega, by omega, by omega, by omega⟩
      | none =>
        match hjb : jointBest
            (fun k1 k2 => decide (wAt wl (i + k1) = wAt wr (j + k2)))
            (min (la + 1) (wl.length - i)) (min (la + 1) (wr.length - j)) with
        | some (d, k1, k2) =>
          obtain ⟨hb1, hb2, hb3⟩ := jointBest_bounds _ _ _ _ _ _ hjb
          simp only [resyncStep, hm, hf1, hf2, hjb]
          exact ⟨by omega, by omega, by omega, by omega, by omega⟩
        | none =>
          simp only [resyncStep, hm, hf1, hf2, hjb]
          exact ⟨by omega, by omega, by omega, by omega, by omega⟩

/-- The main loop of `compare_with_resync`, from pointer state `(i, j)`.
The fuel bounds the iteration count: every iteration strictly increases
`i + j` (see `resyncStep_progress`) while keeping `i ≤ len(wl)` and
`j ≤ len(wr)`, so `(len(wl) - i) + (len(wr) - j)` fuel suffices, and when
the fuel hits `0` both pointers are exhausted and the loop would stop
anyway. -/
def resyncGo (wl wr : List Word) (la : Nat) : Nat → Nat → Nat → List DiffOp
  | 0, _, _ => []
  | fuel + 1, i, j =>
    if i < wl.length ∧ j < wr.length then
      if wAt wl i = wAt wr j then resyncGo wl wr la fuel (i + 1) (j + 1)
      else
        (resyncStep wl wr la i j).1 ++
          resyncGo wl wr la fuel (resyncStep wl wr la i j).2.1 (resyncStep wl wr la i j).2.2
    else if i < wl.length then DiffOp.del i :: resyncGo wl wr la fuel (i + 1) j
    else if j < wr.length then DiffOp.ins j :: resyncGo wl wr la fuel i (j + 1)
    else []

/-- `compare_with_resync(words_left, words_right)` with the default
`lookahead=5`. -/
def compareWithResync (wl wr : List Word) : List DiffOp :=
  resyncGo wl wr 5 (wl.length + wr.length) 0 0

end Posid

namespace PyFloat

/- Python float values arising in the sources are finite exact fractions
(similarity ratios in [0, 1] and fixed threshold/bonus constants), so they
are modelled exactly.  `Rat` normalizes through `Nat.gcd`, which the Lean
kernel cannot evaluate, so the embedding computes with unnormalized
fractions and the proofs translate to `ℚ` through `Frac.val`.  All
denominators constructed by the embedding are positive. -/

/-- An unnormalized fraction `num / den`. -/
structure Frac : Type where
  num : Int
  den : Nat
deriving DecidableEq, Repr

/-- The rational value of a fraction. -/
def Frac.val (x : Frac) : ℚ := (x.num : ℚ) / (x.den : ℚ)

/-- Fraction addition (no normalization). -/
def Frac.add (x y : Frac) : Frac := ⟨x.num * y.den + y.num * x.den, x.den * y.den⟩

/-- `x < y` by cross multiplication (valid for positive denominators). -/
def Frac.blt (x y : Frac) : Bool := decide (x.num * y.den < y.num * x.den)

/-- `x ≤ y` by cross multiplication (valid for positive denominators). -/
def Frac.ble (x y : Frac) : Bool := decide (x.num * y.den ≤ y.num * x.den)

theorem Frac.val_add {x y : Frac} (hx : 0 < x.den) (hy : 0 < y.den) :
    (x.add y).val = x.val + y.val := by
  have hx' : (x.den : ℚ) ≠ 0 := Nat.cast_ne_zero.mpr hx.ne'
  have hy' : (y.den : ℚ) ≠ 0 := Nat.cast_ne_zero.mpr hy.ne'
  simp only [Frac.add, Frac.val]
  push_cast
  field_simp

theorem Frac.blt_iff {x y : Frac} (hx : 0 < x.den) (hy : 0 < y.den) :
    x.blt y = true ↔ x.val < y.val := by
  have hx' : (0 : ℚ) < (x.den : ℚ) := by exact_mod_cast hx
  have hy' : (0 : ℚ) < (y.den : ℚ) := by exact_mod_cast hy
  simp only [Frac.blt, decide_eq_true_eq, Frac.val, div_lt_div_iff hx' hy']
  constructor
  · intro h; exact_mod_cast h
  · intro h; exact_mod_cast h

theorem Frac.ble_iff {x y : Frac} (hx : 0 < x.den) (hy : 0 < y.den) :
    x.ble y = true ↔ x.val ≤ y.val := by
  have hx' : (0 : ℚ) < (x.den : ℚ) := by exact_mod_cast hx
  have hy' : (0 : ℚ) < (y.den : ℚ) := by exact_mod_cast hy
  simp only [Frac.ble, decide_eq_true_eq, Frac.val, div_le_div_iff hx' hy']
  constructor
  · intro h; exact_mod_cast h
  · intro h; exact_mod_cast h

end PyFloat

namespace Difflib

/- Embedding of Python's `difflib.SequenceMatcher` as used by the sources:
always constructed as `SequenceMatcher(None, a, b)`, i.e. `isjunk=None` and
`autojunk=True`.  With `isjunk=None` the junk set `bjunk` is empty, so the
two junk-extension `while` loops of `find_longest_match` never run and the
`not isbjunk(...)` conjuncts of the other two are always true; they are
therefore omitted here.  Autojunk ("popular" elements) only affects `b2j`. -/

variable {α : Type} [DecidableEq α]

/-- Number of occurrences of `c` in `b` (the length of `b2j[c]` before purging). -/
def occCount (b : List α) (c : α) : Nat := (b.filter (fun x => decide (x = c))).length

/-- difflib autojunk: when `len(b) >= 200`, elements occurring more than
`len(b) // 100 + 1` times are popular and are removed from `b2j`.
(They are recorded in `bpopular`, not `bjunk`.) -/
def isPopular (b : List α) (c : α) : Bool :=
  decide (200 ≤ b.length) && decide (b.length / 100 + 1 < occCount b c)

/-- `self.b2j.get(c, [])`: ascending indices of `c` in `b`; empty for popular `c`. -/
def b2j (b : List α) (c : α) : List Nat :=
  if isPopular b c then []
  else (List.range b.length).filter (fun j => decide (b.get? j = some c))

/-- Inner `j` loop of `find_longest_match`'s dynamic program, over the
ascending index list `b2j b c`, with Python's `continue` below `blo` and
`break` at `bhi`.  `old` is the previous row `j2len` and `newRow` the row
being built; `0` encodes an absent key, matching `j2len.get(j-1, 0)` (the
key `-1` is never present, so reading `old (j-1)` guarded by `j = 0` is
faithful).  `i + 1 - k` equals Python's `i - k + 1`: a chain ending at
column `j` of row `i` has length at most `min (i+1) (j+1)`. -/
def flmInner (blo bhi i : Nat) (old : Nat → Nat) :
    List Nat → ((Nat × Nat × Nat) × (Nat → Nat)) → ((Nat × Nat × Nat) × (Nat → Nat))
  | [], st => st
  | j :: js, (best, newRow) =>
    if j < blo then flmInner blo bhi i old js (best, newRow)
    else if bhi ≤ j then (best, newRow)
    else
      let k := (if j = 0 then 0 else old (j - 1)) + 1
      let newRow' := fun m => if m = j then k else newRow m
      let best' := if best.2.2 < k then (i + 1 - k, j + 1 - k, k) else best
      flmInner blo bhi i old js (best', newRow')

/-- Outer `i` loop of the dynamic program (`for i in range(alo, ahi)`),
running `cnt` iterations from `i`; each iteration starts a fresh row.
(`a.get? i = none` cannot occur in difflib's calls, where `ahi ≤ len(a)`.) -/
def flmOuter (a b : List α) (blo bhi : Nat) :
    Nat → Nat → ((Nat × Nat × Nat) × (Nat → Nat)) → (Nat × Nat × Nat)
  | _, 0, st => st.1
  | i, cnt + 1, (best, row) =>
    match a.get? i with
    | some c => flmOuter a b blo bhi (i + 1) cnt (flmInner blo bhi i row (b2j b c) (best, fun _ => 0))
    | none => flmOuter a b blo bhi (i + 1) cnt (best, fun _ => 0)

/-- The first (non-junk) extension loop: while `besti > alo and bestj > blo
and a[besti-1] == b[bestj-1]`, grow the match backwards (structural
recursion on `besti`, which each iteration decrements). -/
def extendBack (a b : List α) (alo blo : Nat) : Nat → Nat → Nat → Nat × Nat × Nat
  | 0, bestj, bestsize => (0, bestj, bestsize)
  | besti + 1, bestj, bestsize =>
    if alo < besti + 1 ∧ blo < bestj ∧ a.get? besti = b.get? (bestj - 1) then
      extendBack a b alo blo besti (bestj - 1) (bestsize + 1)
    else (besti + 1, bestj, bestsize)

/-- Worker for `extendFwd`; the fuel is `ahi - (besti + bestsize)`, which each
iteration keeps in lockstep with the loop condition, so reaching `0` means
the condition is false. -/
def extendFwdGo (a b : List α) (ahi bhi besti bestj : Nat) : Nat → Nat → Nat
  | 0, bestsize => bestsize
  | fuel + 1, bestsize =>
    if besti + bestsize < ahi ∧ bestj + bestsize < bhi ∧
        a.get? (besti + bestsize) = b.get? (bestj + bestsize) then
      extendFwdGo a b ahi bhi besti bestj fuel (bestsize + 1)
    else bestsize

/-- The second (non-junk) extension loop: while `besti+bestsize < ahi and
bestj+bestsize < bhi and a[besti+bestsize] == b[bestj+bestsize]`, grow the
match forwards; returns the final size. -/
def extendFwd (a b : List α) (ahi bhi : Nat) (besti bestj bestsize : Nat) : Nat :=
  extendFwdGo a b ahi bhi besti bestj (ahi - (besti + bestsize)) bestsize

/-- `find_longest_match(alo, ahi, blo, bhi)` for `isjunk=None`: the dynamic
program over `b2j`, then the two extension loops. -/
def findLongestMatch (a b : List α) (alo ahi blo bhi : Nat) : Nat × Nat × Nat :=
  let dp := flmOuter a b blo bhi alo (ahi - alo) ((alo, blo, 0), fun _ => 0)
  let e1 := extendBack a b alo blo dp.1 dp.2.1 dp.2.2
  (e1.1, e1.2.1, extendFwd a b ahi bhi e1.1 e1.2.1 e1.2.2)

/-- The recursive region decomposition of `get_matching_blocks`.  difflib
drives it with an explicit LIFO queue and sorts the collected list
afterwards; each queued region is processed independently of the order, so
the collected set is the one this recursion produces, and the in-order
traversal already lists it sorted (every block of the left subregion lies
strictly left of the current match, which lies strictly left of every block
of the right subregion).  The fuel is an upper bound on the recursion depth;
`ahi - alo` suffices because each subregion is strictly smaller. -/
def matchBlocksAux (a b : List α) : Nat → Nat → Nat → Nat → Nat → List (Nat × Nat × Nat)
  | 0, _, _, _, _ => []
  | fuel + 1, alo, ahi, blo, bhi =>
    let x := findLongestMatch a b alo ahi blo bhi
    if x.2.2 = 0 then []
    else
      (if alo < x.1 ∧ blo < x.2.1 then matchBlocksAux a b fuel alo x.1 blo x.2.1 else []) ++
      x ::
      (if x.1 + x.2.2 < ahi ∧ x.2.1 + x.2.2 < bhi then
        matchBlocksAux a b fuel (x.1 + x.2.2) ahi (x.2.1 + x.2.2) bhi else [])

/-- All raw matching blocks of the two sequences (sorted, unmerged). -/
def matchingBlocksCore (a b : List α) : List (Nat × Nat × Nat) :=
  matchBlocksAux a b a.length 0 a.length 0 b.length

/-- The adjacency-merging second phase of `get_matching_blocks`. -/
def nonAdjacentGo : (Nat × Nat × Nat) → List (Nat × Nat × Nat) → List (Nat × Nat × Nat)
  | (i1, j1, k1), [] => if k1 ≠ 0 then [(i1, j1, k1)] else []
  | (i1, j1, k1), (i2, j2, k2) :: rest =>
    if i1 + k1 = i2 ∧ j1 + k1 = j2 then nonAdjacentGo (i1, j1, k1 + k2) rest
    else if k1 ≠ 0 then (i1, j1, k1) :: nonAdjacentGo (i2, j2, k2) rest
    else nonAdjacentGo (i2, j2, k2) rest

/-- `get_matching_blocks()`: merged adjacent blocks plus the
`(len(a), len(b), 0)` terminator. -/
def getMatchingBlocks (a b : List α) : List (Nat × Nat × Nat) :=
  nonAdjacentGo (0, 0, 0) (matchingBlocksCore a b) ++ [(a.length, b.length, 0)]

/-- `sum(triple[-1] for triple in self.get_matching_blocks())`. -/
def matchesTotal (a b : List α) : Nat :=
  ((getMatchingBlocks a b).map (fun t => t.2.2)).sum

/-- `_calculate_ratio(matches, length)`: `2.0 * matches / length`, or `1.0`
for two empty sequences. -/
def calculateRatio (m total : Nat) : PyFloat.Frac :=
  if total ≠ 0 then ⟨2 * m, total⟩ else ⟨1, 1⟩

/-- `SequenceMatcher(None, a, b).ratio()`. -/
def ratio (a b : List α) : PyFloat.Frac :=
  calculateRatio (matchesTotal a b) (a.length + b.length)

/-- Worker for `get_opcodes`, walking the matching blocks. -/
def opcodesGo : Nat → Nat → List (Nat × Nat × Nat) → List (String × Nat × Nat × Nat × Nat)
  | _, _, [] => []
  | i, j, (ai, bj, size) :: rest =>
    (if i < ai ∧ j < bj then [("replace", i, ai, j, bj)]
     else if i < ai then [("delete", i, ai, j, bj)]
     else if j < bj then [("insert", i, ai, j, bj)]
     else []) ++
    (if size ≠ 0 then [("equal", ai, ai + size, bj, bj + size)] else []) ++
    opcodesGo (ai + size) (bj + size) rest

/-- `SequenceMatcher(None, a, b).get_opcodes()`. -/
def getOpcodes (a b : List α) : List (String × Nat × Nat × Nat × Nat) :=
  opcodesGo 0 0 (getMatchingBlocks a b)

/-- Invariant of the `find_longest_match` best triple: it lies inside the
region and is a genuine common run of `a` and `b`. -/
def FlmBest (a b : List α) (alo ahi blo bhi : Nat) (t : Nat × Nat × Nat) : Prop :=
  alo ≤ t.1 ∧ t.1 + t.2.2 ≤ ahi ∧ blo ≤ t.2.1 ∧ t.2.1 + t.2.2 ≤ bhi ∧
  ∀ d, d < t.2.2 → a.get? (t.1 + d) = b.get? (t.2.1 + d)

/-- Invariant of a completed `j2len` row for outer index `i`: every stored
chain length is bounded by the region offsets and describes a genuine common
run ending at `(i, j)`. -/
def FlmRow (a b : List α) (alo blo i : Nat) (row : Nat → Nat) : Prop :=
  ∀ j, row j ≤ i + 1 - alo ∧ row j ≤ j + 1 - blo ∧
    ∀ d, d < row j → a.get? (i - d) = b.get? (j - d)

/-- The same invariant seen from the next outer iteration, where the row is
the `j2len` of row `i - 1` (trivially true of the all-zero initial row). -/
def FlmOld (a b : List α) (alo blo i : Nat) (old : Nat → Nat) : Prop :=
  ∀ j, old j ≤ i - alo ∧ old j ≤ j + 1 - blo ∧
    ∀ d, d < old j → a.get? (i - 1 - d) = b.get? (j - d)

/-- The cell condition of the dynamic program when both sequences are the
same list `a`: row `i` hits column `j` iff both indices are in range, the
elements agree, and the element is not autojunk-popular. -/
def selfCond (a : List α) (i j : Nat) : Bool :=
  match a.get? i, a.get? j with
  | some ci, some cj => decide (ci = cj) && !(isPopular a ci)
  | _, _ => false

/-- The chain length stored at cell `(i, j)` of the dynamic program when both
sequences are `a` and the region is the whole of `a`. -/
def cellv (a : List α) : Nat → Nat → Nat
  | 0, j => if selfCond a 0 j then 1 else 0
  | i + 1, j =>
    if selfCond a (i + 1) j then
      (match j with
       | 0 => 1
       | j' + 1 => cellv a i j' + 1)
    else 0

/-- The `j2len` row that row `i` of the self-comparison DP reads as `old`:
the all-zero row for `i = 0`, otherwise row `i - 1` of the chain table. -/
def prevRowFun (a : List α) : Nat → Nat → Nat
  | 0, _ => 0
  | i + 1, j => cellv a i j

end Difflib

namespace TextComparator

/- Embedding of `src/insurance_compare/text_comparator.py`. -/

open PyStr

/-- A text block as consumed by `TextComparator` (a dict with keys `page`,
`bbox`, `text` and optionally `section_type`; `dict.get('section_type')`
yields `None` when absent, modelled by `Option`). -/
structure TBlock : Type where
  page : Nat
  bbox : ℚ × ℚ × ℚ × ℚ
  text : List Char
  sectionType : Option (List Char) := none
deriving DecidableEq, Repr

/-- `TextComparator.SIMILARITY_THRESHOLD`. -/
def similarityThreshold : PyFloat.Frac := ⟨6, 10⟩

/-- `normalize_text`: whitespace collapse, punctuation removal, strip, lower. -/
def normalizeText (t : List Char) : List Char :=
  ((collapseWs t).filter keepChar |> pyStrip).map asciiLower

/-- The manual character loop of `tokenize_words`, splitting at whitespace;
`cur` is `current_word`. -/
def tokGo : List Char → List Char → List (List Char)
  | [], cur => if cur.isEmpty then [] else [cur]
  | c :: cs, cur =>
    if pyIsSpace c then
      if cur.isEmpty then tokGo cs [] else cur :: tokGo cs []
    else tokGo cs (cur ++ [c])

/-- `tokenize_words`: collapse and strip whitespace, then split into words. -/
def tokenizeWords (t : List Char) : List (List Char) :=
  tokGo (pyStrip (collapseWs t)) []

/-- The candidate loop of `find_best_match`.  Python initializes
`best_score = -1` and `best_index = -1`; every computed score is
nonnegative, so the first non-skipped candidate always replaces the initial
state, which `Option` models. -/
def fbmGo (tnorm : List Char) (ttype : Option (List Char)) :
    List TBlock → Nat → Option (Nat × PyFloat.Frac) → Option (Nat × PyFloat.Frac)
  | [], _, best => best
  | blk :: rest, i, best =>
    let snorm := normalizeText blk.text
    if snorm.isEmpty then fbmGo tnorm ttype rest (i + 1) best
    else
      let bonus : PyFloat.Frac := if ttype = blk.sectionType then ⟨1, 10⟩ else ⟨0, 1⟩
      let score := (Difflib.ratio tnorm snorm).add bonus
      let best' :=
        match best with
        | none => some (i, score)
        | some (bi, bsc) => if bsc.blt score then some (i, score) else some (bi, bsc)
      fbmGo tnorm ttype rest (i + 1) best'

/-- `find_best_match(target_block, source_blocks)`: best similarity (plus
section-type bonus) over all candidates, accepted at `SIMILARITY_THRESHOLD`. -/
def findBestMatch (target : TBlock) (sources : List TBlock) :
    Option (Nat × PyFloat.Frac) :=
  let tnorm := normalizeText target.text
  if tnorm.isEmpty then none
  else
    match fbmGo tnorm target.sectionType sources 0 none with
    | some (bi, bsc) => if similarityThreshold.ble bsc then some (bi, bsc) else none
    | none => none

/-- The result dict of `compare_word_level` (`'type'`, `'added'`, `'deleted'`;
the `same` case carries empty lists, and `text_a`/`text_b` are recoverable
from the call site, so they are not duplicated here). -/
structure WDiff : Type where
  isModified : Bool
  added : List (List Char)
  deleted : List (List Char)
deriving DecidableEq, Repr

/-- Collect the per-side lines of `difflib.Differ().compare(words_a, words_b)`
that `compare_word_level` keeps: words of `b` inside `insert`/`replace`
opcode ranges become `'+ '` lines (`added`), words of `a` inside
`delete`/`replace` ranges become `'- '` lines (`deleted`), both in
sequence order.  `Differ._fancy_replace` emits exactly the same multiset of
`'- '`/`'+ '` lines as `_plain_replace`, in ascending order on each side
(its refinement only interleaves them differently and adds `'? '` hint
lines, which `compare_word_level` ignores), so collecting per side from the
opcodes is faithful. -/
def differCollect (wa wb : List (List Char)) :
    List (List Char) × List (List Char) :=
  (Difflib.getOpcodes wa wb).foldl
    (fun acc op =>
      match op with
      | (tag, alo, ahi, blo, bhi) =>
        ((if tag = "insert" ∨ tag = "replace" then
            acc.1 ++ ((wb.drop blo).take (bhi - blo)) else acc.1),
         (if tag = "delete" ∨ tag = "replace" then
            acc.2 ++ ((wa.drop alo).take (ahi - alo)) else acc.2)))
    ([], [])

/-- `compare_word_level(text_a, text_b)`. -/
def compareWordLevel (ta tb : List Char) : WDiff :=
  let wa := tokenizeWords ta
  let wb := tokenizeWords tb
  if wa = wb then ⟨false, [], []⟩
  else
    let c := differCollect wa wb
    if ¬c.1.isEmpty ∨ ¬c.2.isEmpty then ⟨true, c.1, c.2⟩
    else ⟨false, [], []⟩

/-- One entry of a page-keyed highlight list: `(bbox, color, detail)`. -/
structure Highlight : Type where
  bbox : ℚ × ℚ × ℚ × ℚ
  color : List Char
  detail : List Char
deriving DecidableEq, Repr

/-- Append to a Python dict of lists (`results['...'][page].append(...)`,
creating the key at the end in insertion order). -/
def appendAt (m : List (Nat × List Highlight)) (key : Nat) (v : Highlight) :
    List (Nat × List Highlight) :=
  match m with
  | [] => [(key, [v])]
  | (k, vs) :: rest =>
    if k = key then (k, vs ++ [v]) :: rest else (k, vs) :: appendAt rest key v

/-- An entry of `results['modified']`. -/
structure MEntry : Type where
  indexA : Nat
  indexB : Nat
  blockA : TBlock
  blockB : TBlock
  wordDiff : WDiff
deriving DecidableEq, Repr

/-- An entry of `results['deleted']`. -/
structure DEntry : Type where
  indexA : Nat
  blockA : TBlock
deriving DecidableEq, Repr

/-- An entry of `results['added']`. -/
structure AEntry : Type where
  indexB : Nat
  blockB : TBlock
deriving DecidableEq, Repr

/-- The `results` dict of `compare_blocks`, plus the `matched_b_indices` set
(kept as the list of claimed indices in claim order). -/
structure CBState : Type where
  modified : List MEntry
  deleted : List DEntry
  added : List AEntry
  syncMap : List (Nat × Nat)
  hlA : List (Nat × List Highlight)
  hlB : List (Nat × List Highlight)
  matchedB : List Nat
deriving DecidableEq, Repr

/-- `_format_diff_detail(word_diff, side)`. -/
def formatDiffDetail (wd : WDiff) (sideA : Bool) : List Char :=
  if sideA then
    if ¬wd.deleted.isEmpty then
      ofStr "[변경/삭제] " ++ (wd.deleted.intersperse (ofStr " ")).flatten
    else ofStr "[변경됨]"
  else
    if ¬wd.added.isEmpty then
      ofStr "[변경/추가] " ++ (wd.added.intersperse (ofStr " ")).flatten
    else ofStr "[변경됨]"

/-- The body of the A-side loop of `compare_blocks` for block `i`. -/
def cbStep (bbs : List TBlock) (blockA : TBlock) (i : Nat) (st : CBState) : CBState :=
  match findBestMatch blockA bbs with
  | some (j, _) =>
    if st.matchedB.contains j then st
    else
      let blockB := bbs.getD j ⟨0, (0, 0, 0, 0), [], none⟩
      let wd := compareWordLevel blockA.text blockB.text
      let st1 : CBState :=
        { st with matchedB := st.matchedB ++ [j], syncMap := st.syncMap ++ [(i, j)] }
      if wd.isModified then
        { st1 with
          modified := st1.modified ++ [⟨i, j, blockA, blockB, wd⟩],
          hlA := appendAt st1.hlA blockA.page
            ⟨blockA.bbox, ofStr "yellow", formatDiffDetail wd true⟩,
          hlB := appendAt st1.hlB blockB.page
            ⟨blockB.bbox, ofStr "yellow", formatDiffDetail wd false⟩ }
      else st1
  | none =>
    { st with
      deleted := st.deleted ++ [⟨i, blockA⟩],
      hlA := appendAt st.hlA blockA.page
        ⟨blockA.bbox, ofStr "red", ofStr "[삭제됨] " ++ blockA.text⟩ }

/-- The A-side loop of `compare_blocks`. -/
def cbGoA (bbs : List TBlock) : List TBlock → Nat → CBState → CBState
  | [], _, st => st
  | b :: rest, i, st => cbGoA bbs rest (i + 1) (cbStep bbs b i st)

/-- The B-side loop of `compare_blocks`: every never-claimed B block is added. -/
def cbGoB : List TBlock → Nat → CBState → CBState
  | [], _, st => st
  | b :: rest, j, st =>
    cbGoB rest (j + 1)
      (if st.matchedB.contains j then st
       else
         { st with
           added := st.added ++ [⟨j, b⟩],
           hlB := appendAt st.hlB b.page
             ⟨b.bbox, ofStr "green", ofStr "[추가됨] " ++ b.text⟩ })

/-- `compare_blocks(blocks_a, blocks_b)`. -/
def compareBlocks (bas bbs : List TBlock) : CBState :=
  cbGoB bbs 0 (cbGoA bbs bas 0 ⟨[], [], [], [], [], [], []⟩)

end TextComparator

namespace PDdiff

/- Embedding of `src/PDdiff.py`: the placeholder pattern library,
`is_placeholder_diff`, `compare_text_blocks`, `find_best_match` and
`perform_comparison`. -/

open PyStr

/-- A pattern matcher: all possible remainders of the input after consuming a
match at its start.  `re.search(p, s)` succeeds iff some suffix of `s` has a
nonempty remainder set; for the pure existence test this nondeterministic
semantics coincides with Python's backtracking semantics. -/
def PM : Type := List Char → List (List Char)

/-- A literal character sequence. -/
def pmStr (cs : List Char) : PM := fun s => if cs.isPrefixOf s then [s.drop cs.length] else []

/-- Sequential composition. -/
def pmSeq (m1 m2 : PM) : PM := fun s => (m1 s).flatMap m2

/-- Remainders after consuming 1, 2, 3, ... leading characters of class `p`
(up to the maximal run). -/
def clsRests (p : Char → Bool) : List Char → List (List Char)
  | [] => []
  | c :: t => if p c then t :: clsRests p t else []

/-- A character class with counted repetition `p{lo,hi}` (`1 ≤ lo ≤ hi`). -/
def pmCls (p : Char → Bool) (lo hi : Nat) : PM :=
  fun s => ((clsRests p s).take hi).drop (lo - 1)

/-- `p*` for a character class (e.g. `\s*`): zero or more. -/
def pmStarCh (p : Char → Bool) : PM := fun s => s :: clsRests p s

/-- Bounded iteration for a group star such as `(,\d{3})*`: up to `n`
iterations of the body.  With fuel `|s|` this is exhaustive for any body
that consumes at least one character per iteration (as all uses here do). -/
def pmStarIter (m : PM) : Nat → PM
  | 0 => fun s => [s]
  | n + 1 => fun s => s :: (m s).flatMap (pmStarIter m n)

/-- `(body)*` with input-length fuel. -/
def pmStarG (m : PM) : PM := fun s => pmStarIter m s.length s

/-- `re.search(m, s)`: does any suffix position admit a match? -/
def reSearch (m : PM) (s : List Char) : Bool :=
  s.tails.any (fun t => !(m t).isEmpty)

/-- Chain a list of matchers in sequence. -/
def pmChain : List PM → PM
  | [] => fun s => [s]
  | m :: ms => pmSeq m (pmChain ms)

/-- The `placeholder_patterns` list of `is_placeholder_diff`, in source order.
Each Python regex is translated to a matcher:
`\d` is `pyIsDigit`, `\s` is `pyIsSpace`, `[가-힣]` is `isHangulSyl`,
`[A-Z]` is an ASCII capital, `(,\d{3})*` is a group star;
all other characters are literals (`\.`, `\%`, `\[`, `\]` are escapes). -/
def placeholderPatterns : List PM :=
  [ pmStr (ofStr "○○○"),
    pmStr (ofStr "xxx"),
    pmStr (ofStr "x.xx%"),
    pmStr (ofStr "××세"),
    pmStr (ofStr "××××"),
    pmStr (ofStr "O / O"),
    pmStr (ofStr "OOOOOOOOOOOO"),
    pmChain [pmStr (ofStr "["), pmStarCh pyIsSpace, pmStr (ofStr "보장성보험"),
             pmStarCh pyIsSpace, pmStr (ofStr "]")],
    pmChain [pmStr (ofStr "["), pmStarCh pyIsSpace, pmStr (ofStr "표준형"),
             pmStarCh pyIsSpace, pmStr (ofStr "]")],
    pmChain [pmStr (ofStr "["), pmStarCh pyIsSpace, pmStr (ofStr "해약환급금"),
             pmStarCh pyIsSpace, pmStr (ofStr "50%"), pmStarCh pyIsSpace,
             pmStr (ofStr "지급형"), pmStarCh pyIsSpace, pmStr (ofStr "]")],
    pmChain [pmCls pyIsDigit 4 4, pmStr (ofStr "년"), pmStarCh pyIsSpace,
             pmCls pyIsDigit 2 2, pmStr (ofStr "월"), pmStarCh pyIsSpace,
             pmCls pyIsDigit 2 2, pmStr (ofStr "일"), pmStarCh pyIsSpace,
             pmCls pyIsDigit 2 2, pmStr (ofStr ":"), pmCls pyIsDigit 2 2],
    pmChain [pmCls pyIsDigit 3 3, pmStr (ofStr "-"), pmCls pyIsDigit 4 4,
             pmStr (ofStr "-"), pmCls pyIsDigit 4 4],
    pmChain [pmCls pyIsDigit 1 2, pmStr (ofStr "/"), pmCls pyIsDigit 1 2],
    pmChain [pmCls pyIsDigit 1 2, pmStr (ofStr "세")],
    pmCls isHangulSyl 2 4,
    pmChain [pmCls pyIsDigit 1 3,
             pmStarG (pmChain [pmStr (ofStr ","), pmCls pyIsDigit 3 3]),
             pmStr (ofStr "원")],
    pmChain [pmCls pyIsDigit 1 2, pmStr (ofStr "."), pmCls pyIsDigit 2 2,
             pmStr (ofStr "%")],
    pmChain [pmCls pyIsDigit 1 3,
             pmStarG (pmChain [pmStr (ofStr ","), pmCls pyIsDigit 3 3]),
             pmStarCh pyIsSpace, pmStr (ofStr "만원")],
    pmChain [pmCls pyIsDigit 1 3,
             pmStarG (pmChain [pmStr (ofStr ","), pmCls pyIsDigit 3 3]),
             pmStarCh pyIsSpace, pmStr (ofStr "원")],
    pmChain [pmCls pyIsDigit 1 2, pmStr (ofStr "."), pmCls pyIsDigit 2 2],
    pmCls pyIsDigit 1 4,
    pmCls (fun c => decide ('A' ≤ c ∧ c ≤ 'Z')) 4 6 ]

/-- `is_placeholder_diff(text_a, text_b)`: text A contains some placeholder
pattern and the stripped texts differ.  (The source also computes
`is_b_placeholder` but its use is commented out.) -/
def isPlaceholderDiff (ta tb : List Char) : Bool :=
  let isA := placeholderPatterns.any (fun p => reSearch p ta)
  isA && decide (pyStrip ta ≠ pyStrip tb)

/-- A text block of `PDdiff.py` (`extract_text_blocks` output: `page`, `bbox`,
`text`, `normalized_text`). -/
structure PBlock : Type where
  page : Nat
  bbox : ℚ × ℚ × ℚ × ℚ
  text : List Char
  normalizedText : List Char
deriving DecidableEq, Repr

/-- The classification result of `compare_text_blocks`. -/
inductive DiffType : Type
  | same
  | placeholder
  | modified
deriving DecidableEq, Repr

/-- `compare_text_blocks(block_a, block_b)`. -/
def compareTextBlocks (ba bb : PBlock) : DiffType :=
  if ba.text = bb.text then DiffType.same
  else if isPlaceholderDiff ba.text bb.text then DiffType.placeholder
  else DiffType.modified

/-- The candidate loop of `PDdiff.find_best_match`: plain argmax of
`SequenceMatcher(None, target_norm, source_norm).ratio()` over all source
blocks (no claimed-guard, no empty-text skip), strict improvement only.
Python starts from `best_score = -1`/`best_match = None`; ratios are
nonnegative, so the first candidate always replaces the initial state. -/
def pdFbmGo (tnorm : List Char) :
    List PBlock → Option (PBlock × PyFloat.Frac) → Option (PBlock × PyFloat.Frac)
  | [], best => best
  | blk :: rest, best =>
    let score := Difflib.ratio tnorm blk.normalizedText
    let best' :=
      match best with
      | none => some (blk, score)
      | some (bb, bsc) => if bsc.blt score then some (blk, score) else some (bb, bsc)
    pdFbmGo tnorm rest best'

/-- `PDdiff.find_best_match(target_block, source_blocks)`, accepting at 0.8. -/
def pdFindBestMatch (target : PBlock) (sources : List PBlock) : Option PBlock :=
  match pdFbmGo target.normalizedText sources none with
  | some (bb, bsc) => if (PyFloat.Frac.mk 8 10).ble bsc then some bb else none
  | none => none

/-- Python `list.index(x)` for a present element (first equal entry). -/
def firstIdx (xs : List PBlock) (b : PBlock) : Nat :=
  match xs with
  | [] => 0
  | x :: t => if x = b then 0 else 1 + firstIdx t b

/-- A `(bbox, color_name)` entry of the `diff_data_a`/`diff_data_b` dicts. -/
structure PCHighlight : Type where
  bbox : ℚ × ℚ × ℚ × ℚ
  color : List Char
deriving DecidableEq, Repr

/-- The accumulated result of `perform_comparison`: the two page-keyed
highlight dicts, the claimed-index set and the sync map. -/
structure PCState : Type where
  diffA : List (Nat × List PCHighlight)
  diffB : List (Nat × List PCHighlight)
  matchedB : List Nat
  syncMap : List (Nat × Nat)
deriving DecidableEq, Repr

/-- `dict.setdefault(page, []).append(entry)` for the highlight dicts. -/
def pcAppendAt (m : List (Nat × List PCHighlight)) (key : Nat) (v : PCHighlight) :
    List (Nat × List PCHighlight) :=
  match m with
  | [] => [(key, [v])]
  | (k, vs) :: rest =>
    if k = key then (k, vs ++ [v]) :: rest else (k, vs) :: pcAppendAt rest key v

/-- The body of the A-side loop of `perform_comparison` for flat index `i`. -/
def pcStep (flatB : List PBlock) (blockA : PBlock) (i : Nat) (st : PCState) : PCState :=
  match pdFindBestMatch blockA flatB with
  | some bm =>
    let j := firstIdx flatB bm
    let st1 := { st with matchedB := st.matchedB ++ [j], syncMap := st.syncMap ++ [(i, j)] }
    if compareTextBlocks blockA bm = DiffType.modified then
      { st1 with
        diffA := pcAppendAt st1.diffA blockA.page ⟨blockA.bbox, ofStr "yellow"⟩,
        diffB := pcAppendAt st1.diffB bm.page ⟨bm.bbox, ofStr "yellow"⟩ }
    else st1
  | none =>
    { st with diffA := pcAppendAt st.diffA blockA.page ⟨blockA.bbox, ofStr "red"⟩ }

/-- The A-side loop of `perform_comparison`. -/
def pcGoA (flatB : List PBlock) : List PBlock → Nat → PCState → PCState
  | [], _, st => st
  | b :: rest, i, st => pcGoA flatB rest (i + 1) (pcStep flatB b i st)

/-- The B-side loop of `perform_comparison`: unclaimed B blocks are `added`. -/
def pcGoB : List PBlock → Nat → PCState → PCState
  | [], _, st => st
  | b :: rest, j, st =>
    pcGoB rest (j + 1)
      (if st.matchedB.contains j then st
       else { st with diffB := pcAppendAt st.diffB b.page ⟨b.bbox, ofStr "green"⟩ })

/-- `perform_comparison(blocks_a, blocks_b)` on per-page block lists
(flattened first, as in the source). -/
def performComparison (blocksA blocksB : List (List PBlock)) : PCState :=
  let flatA := blocksA.flatten
  let flatB := blocksB.flatten
  pcGoB flatB 0 (pcGoA flatB flatA 0 ⟨[], [], [], []⟩)

end PDdiff

open PyStr

/-- C6 counterexample: normalizing `"1,000만원"` and `"10000000"` does NOT
produce equal strings — the Korean magnitude-unit expansion keeps the
trailing `원`, giving `"10000000원"` on the left. -/
theorem C6_unit_expansion_counterexample :
    Posid.normalizeWord (ofStr "1,000만원") ≠ Posid.normalizeWord (ofStr "10000000") ∧
    Posid.normalizeWord (ofStr "1,000만원") = ofStr "10000000원" := by
  decide

/-- C6 amended: the unit expansion rewrites `"1,000만"` (no `원` suffix) to
`"10000000"`, equal to the normalization of `"10000000"`, and the word
aligner reports no difference for the token pair `["금액", "1,000만"]` vs
`["금액", "10000000"]`; for `"1,000만원"` the expansion keeps the `원`
suffix, producing `"10000000원"`, and the aligner reports a `replace` for
the spec's pair. -/
theorem C6_unit_expansion_amended :
    Posid.normalizeWord (ofStr "1,000만") = ofStr "10000000" ∧
    Posid.normalizeWord (ofStr "10000000") = ofStr "10000000" ∧
    Posid.compareWithResync
      [Posid.normalizeWord (ofStr "금액"), Posid.normalizeWord (ofStr "1,000만")]
      [Posid.normalizeWord (ofStr "금액"), Posid.normalizeWord (ofStr "10000000")] = [] ∧
    Posid.compareWithResync
      [Posid.normalizeWord (ofStr "금액"), Posid.normalizeWord (ofStr "1,000만원")]
      [Posid.normalizeWord (ofStr "금액"), Posid.normalizeWord (ofStr "10000000")] =
      [Posid.DiffOp.rep 1 1] := by
  decide

/-- C5 counterexample: `"12."` is not split by the comma rule, yet
`normalize_word` is not idempotent on it: `normalize_word("12.") = "12"`,
and `"12"` is a bare two-digit number, which the meaninglessness filter of
a second application maps to the empty string. -/
theorem C5_idempotence_counterexample :
    Posid.splitByComma (ofStr "12.") = [ofStr "12."] ∧
    Posid.normalizeWord (Posid.normalizeWord (ofStr "12.")) ≠
      Posid.normalizeWord (ofStr "12.") := by
  decide

/-- C7: the matched pair with A-text `"보험기간: ××세"` and B-text
`"보험기간: 30세"` is classified `placeholder` (suppressed): the A text
matches the `××세` pattern (and others) and the stripped texts differ. -/
theorem C7_placeholder_suppression :
    PDdiff.compareTextBlocks
      ⟨0, (0, 0, 0, 0), ofStr "보험기간: ××세", ofStr "보험기간 세"⟩
      ⟨0, (0, 0, 0, 0), ofStr "보험기간: 30세", ofStr "보험기간 30세"⟩ =
      PDdiff.DiffType.placeholder := by
  decide

/-- C2 counterexample: `words_b = ["t","x","t"]` is `W = ["x","t"]` with the
single token `"t"` inserted at position 0, but `compare_with_resync`
returns `[delete 0, insert 1, insert 2]`, not exactly one insert at 0: the
delete-lookahead (step 1) fires before the insert-lookahead because the
inserted token also occurs inside the lookahead window of `W`. -/
theorem C2_single_insert_counterexample :
    (List.take 0 [ofStr "x", ofStr "t"] ++ [ofStr "t"] ++
        List.drop 0 [ofStr "x", ofStr "t"] = [ofStr "t", ofStr "x", ofStr "t"]) ∧
    Posid.compareWithResync [ofStr "x", ofStr "t"] [ofStr "t", ofStr "x", ofStr "t"] =
      [Posid.DiffOp.del 0, Posid.DiffOp.ins 1, Posid.DiffOp.ins 2] ∧
    Posid.compareWithResync [ofStr "x", ofStr "t"] [ofStr "t", ofStr "x", ofStr "t"] ≠
      [Posid.DiffOp.ins 0] := by
  decide

/-- C1 counterexample: a single block whose text `"!"` is non-empty but
normalizes to the empty string; comparing the document with itself yields a
`deleted` record, an `added` record, and an empty (non-identity) sync map. -/
theorem C1_self_compare_counterexample :
    (ofStr "!" ≠ []) ∧
    (TextComparator.compareBlocks
      [⟨0, (0, 0, 0, 0), ofStr "!", none⟩] [⟨0, (0, 0, 0, 0), ofStr "!", none⟩]).deleted ≠ [] ∧
    (TextComparator.compareBlocks
      [⟨0, (0, 0, 0, 0), ofStr "!", none⟩] [⟨0, (0, 0, 0, 0), ofStr "!", none⟩]).syncMap ≠
      [(0, 0)] := by
  decide

/-- C8 counterexample: with `blocks_a = [A, A]` and `blocks_b = [A]`, the
second A-block's best match (index 0) is already claimed by the first, and
the `continue` drops it: index 1 appears neither as a key of the sync map
nor among the deleted entries. -/
theorem C8_partition_counterexample :
    1 < (([⟨0, (0, 0, 0, 0), ofStr "abab", none⟩,
           ⟨0, (0, 0, 0, 0), ofStr "abab", none⟩] : List TextComparator.TBlock)).length ∧
    ((TextComparator.compareBlocks
        [⟨0, (0, 0, 0, 0), ofStr "abab", none⟩, ⟨0, (0, 0, 0, 0), ofStr "abab", none⟩]
        [⟨0, (0, 0, 0, 0), ofStr "abab", none⟩]).syncMap.all (fun p => p.1 ≠ 1)) ∧
    ((TextComparator.compareBlocks
        [⟨0, (0, 0, 0, 0), ofStr "abab", none⟩, ⟨0, (0, 0, 0, 0), ofStr "abab", none⟩]
        [⟨0, (0, 0, 0, 0), ofStr "abab", none⟩]).deleted.all (fun e => e.indexA ≠ 1)) := by
  decide

/-- C9 counterexample: the blocks `"abc"` / `"abxy"` are matched
(`mapping[0] = 0`) because the score `4/7 + 1/10 ≥ 3/5` includes the
section-type bonus (both `section_type`s are absent, and `None == None`),
yet the normalized-text similarity alone is `4/7 < 3/5`. -/
theorem C9_threshold_counterexample :
    (TextComparator.compareBlocks
      [⟨0, (0, 0, 0, 0), ofStr "abc", none⟩] [⟨0, (0, 0, 0, 0), ofStr "abxy", none⟩]).syncMap =
      [(0, 0)] ∧
    (Difflib.ratio (TextComparator.normalizeText (ofStr "abc"))
      (TextComparator.normalizeText (ofStr "abxy"))).val <
      TextComparator.similarityThreshold.val := by
  refine ⟨by decide, ?_⟩
  have h : Difflib.ratio (TextComparator.normalizeText (ofStr "abc"))
      (TextComparator.normalizeText (ofStr "abxy")) = ⟨4, 7⟩ := by decide
  rw [h]
  norm_num [PyFloat.Frac.val, TextComparator.similarityThreshold]

/-- C3 counterexample: `PDdiff.perform_comparison` has no claimed-guard when
recording matches; with two identical A-blocks and one B-block the sync map
is `{0: 0, 1: 0}` — not injective on the B side. -/
theorem C3_injectivity_counterexample :
    (PDdiff.performComparison
      [[⟨0, (0, 0, 0, 0), ofStr "ab", ofStr "ab"⟩, ⟨0, (0, 0, 0, 0), ofStr "ab", ofStr "ab"⟩]]
      [[⟨0, (0, 0, 0, 0), ofStr "ab", ofStr "ab"⟩]]).syncMap = [(0, 0), (1, 0)] ∧
    (0 : Nat) ≠ 1 := by
  decide

/-- C4: whenever the merge check succeeds (the longer current word equals the
separator-free concatenation of `k+1 ≤ 5` consecutive words of the other
sequence), `compare_with_resync` advances both pointers past the whole
merged group (`i + k + 1` / `j + k + 1` on the consumed side, one word on
the other) and emits no diff record: the step yields the empty record list
and the loop simply continues from the advanced pointers. -/
theorem C4_merge_check_no_record (wl wr : List Posid.Word) (i j fuel : Nat)
    (hi : i < wl.length) (hj : j < wr.length)
    (hne : Posid.wAt wl i ≠ Posid.wAt wr j) :
    ((Posid.wAt wl i).length < (Posid.wAt wr j).length →
      ∀ k, Posid.mergeFind wl i (Posid.wAt wr j) = some k →
        Posid.resyncStep wl wr 5 i j = ([], i + k + 1, j + 1) ∧
        Posid.resyncGo wl wr 5 (fuel + 1) i j =
          Posid.resyncGo wl wr 5 fuel (i + k + 1) (j + 1)) ∧
    ((Posid.wAt wr j).length < (Posid.wAt wl i).length →
      ∀ k, Posid.mergeFind wr j (Posid.wAt wl i) = some k →
        Posid.resyncStep wl wr 5 i j = ([], i + 1, j + k + 1) ∧
        Posid.resyncGo wl wr 5 (fuel + 1) i j =
          Posid.resyncGo wl wr 5 fuel (i + 1) (j + k + 1)) := by
  constructor
  · intro hlt k hmf
    have hmerge : Posid.resyncMerge wl wr i j = some (i + k + 1, j + 1) := by
      unfold Posid.resyncMerge
      rw [if_pos hlt, hmf]
      rfl
    have hstep : Posid.resyncStep wl wr 5 i j = ([], i + k + 1, j + 1) := by
      unfold Posid.resyncStep
      rw [hmerge]
    refine ⟨hstep, ?_⟩
    show Posid.resyncGo wl wr 5 (fuel + 1) i j = _
    rw [Posid.resyncGo, if_pos ⟨hi, hj⟩, if_neg hne, hstep]
    simp
  · intro hlt k hmf
    have hne' : ¬(Posid.wAt wl i).length < (Posid.wAt wr j).length := by omega
    have hmerge : Posid.resyncMerge wl wr i j = some (i + 1, j + k + 1) := by
      unfold Posid.resyncMerge
      rw [if_neg hne', if_pos hlt, hmf]
      rfl
    have hstep : Posid.resyncStep wl wr 5 i j = ([], i + 1, j + k + 1) := by
      unfold Posid.resyncStep
      rw [hmerge]
    refine ⟨hstep, ?_⟩
    show Posid.resyncGo wl wr 5 (fuel + 1) i j = _
    rw [Posid.resyncGo, if_pos ⟨hi, hj⟩, if_neg hne, hstep]
    simp

/-- Witness for C4 at `words_a = ["ab", "cd"]`, `words_b = ["abcd"]`:
the merge at `(0, 0)` consumes both left words and the single right word,
emitting nothing. -/
theorem C4_merge_check_no_record_witness :
    Posid.resyncStep [ofStr "ab", ofStr "cd"] [ofStr "abcd"] 5 0 0 = ([], 2, 1) ∧
    Posid.resyncGo [ofStr "ab", ofStr "cd"] [ofStr "abcd"] 5 3 0 0 =
      Posid.resyncGo [ofStr "ab", ofStr "cd"] [ofStr "abcd"] 5 2 2 1 := by
  have h := (C4_merge_check_no_record [ofStr "ab", ofStr "cd"] [ofStr "abcd"] 0 0 2
    (by decide) (by decide) (by decide)).1 (by decide) 1 (by decide)
  simpa using h

theorem reSearch_of_suffix {m : PDdiff.PM} {s t : List Char}
    (hsuf : t <:+ s) (hm : m t ≠ []) : PDdiff.reSearch m s = true := by
  unfold PDdiff.reSearch
  rw [List.any_eq_true]
  refine ⟨t, (List.mem_tails t s).mpr hsuf, ?_⟩
  simpa using hm

theorem hangulPair_pattern_matches {c1 c2 : Char} {r : List Char}
    (h1 : isHangulSyl c1 = true) (h2 : isHangulSyl c2 = true) :
    PDdiff.pmCls isHangulSyl 2 4 (c1 :: c2 :: r) ≠ [] := by
  simp only [PDdiff.pmCls, PDdiff.clsRests, h1, h2, if_true]
  simp

theorem digit_pattern_matches {c : Char} {r : List Char}
    (h : pyIsDigit c = true) :
    PDdiff.pmCls pyIsDigit 1 4 (c :: r) ≠ [] := by
  simp only [PDdiff.pmCls, PDdiff.clsRests, h, if_true]
  simp

/-- C10: placeholder over-suppression at the public classification interface.
For every pair of block texts whose stripped forms differ, if `text_a`
contains two adjacent Hangul syllables (so some run of 2–4 syllables) or
any ASCII digit (so some 1–4 digit number), then `is_placeholder_diff`
returns true, and `compare_text_blocks` classifies the pair as
`placeholder` (suppressed) instead of `modified`. -/
theorem C10_pattern_library_over_suppression (pa pb : PDdiff.PBlock)
    (hdiff : pyStrip pa.text ≠ pyStrip pb.text)
    (hpat : (∃ l r c1 c2, pa.text = l ++ c1 :: c2 :: r ∧
              isHangulSyl c1 = true ∧ isHangulSyl c2 = true) ∨
            (∃ l r c, pa.text = l ++ c :: r ∧ pyIsDigit c = true)) :
    PDdiff.isPlaceholderDiff pa.text pb.text = true ∧
    PDdiff.compareTextBlocks pa pb = PDdiff.DiffType.placeholder := by
  have hA : (PDdiff.placeholderPatterns.any (fun p => PDdiff.reSearch p pa.text)) = true := by
    rw [List.any_eq_true]
    rcases hpat with ⟨l, r, c1, c2, heq, h1, h2⟩ | ⟨l, r, c, heq, hc⟩
    · refine ⟨PDdiff.pmCls isHangulSyl 2 4, by simp [PDdiff.placeholderPatterns], ?_⟩
      exact reSearch_of_suffix (heq ▸ List.suffix_append l (c1 :: c2 :: r))
        (hangulPair_pattern_matches h1 h2)
    · refine ⟨PDdiff.pmCls pyIsDigit 1 4, by simp [PDdiff.placeholderPatterns], ?_⟩
      exact reSearch_of_suffix (heq ▸ List.suffix_append l (c :: r))
        (digit_pattern_matches hc)
  have hipd : PDdiff.isPlaceholderDiff pa.text pb.text = true := by
    unfold PDdiff.isPlaceholderDiff
    simp only [hA, Bool.true_and, decide_eq_true_eq]
    exact hdiff
  refine ⟨hipd, ?_⟩
  unfold PDdiff.compareTextBlocks
  have hne : pa.text ≠ pb.text := fun h => hdiff (h ▸ rfl)
  rw [if_neg hne, if_pos hipd]

/-- Witness for C10: A-text `"가나"` (two adjacent Hangul syllables) against
B-text `"x"`. -/
theorem C10_pattern_library_over_suppression_witness :
    PDdiff.isPlaceholderDiff (ofStr "가나") (ofStr "x") = true ∧
    PDdiff.compareTextBlocks ⟨0, (0, 0, 0, 0), ofStr "가나", ofStr "가나"⟩
      ⟨0, (0, 0, 0, 0), ofStr "x", ofStr "x"⟩ = PDdiff.DiffType.placeholder := by
  exact C10_pattern_library_over_suppression
    ⟨0, (0, 0, 0, 0), ofStr "가나", ofStr "가나"⟩ ⟨0, (0, 0, 0, 0), ofStr "x", ofStr "x"⟩
    (by decide) (Or.inl ⟨[], [], '가', '나', by decide, by decide, by decide⟩)

namespace Posid

theorem firstInRangeAux_none (p : Nat → Bool) :
    ∀ n k, (∀ m, k ≤ m → m < k + n → p m = false) → firstInRangeAux p k n = none := by
  intro n
  induction n with
  | zero => intro k _; rfl
  | succ n ih =>
    intro k h
    simp only [firstInRangeAux]
    rw [h k (le_refl k) (by omega)]
    simp only [Bool.false_eq_true, if_false]
    exact ih (k + 1) (fun m h1 h2 => h m (by omega) (by omega))

theorem firstInRange_none (lo hi : Nat) (p : Nat → Bool)
    (h : ∀ m, lo ≤ m → m < hi → p m = false) : firstInRange lo hi p = none :=
  firstInRangeAux_none p (hi - lo) lo (fun m h1 h2 => h m h1 (by omega))

theorem firstInRange_first (lo hi : Nat) (p : Nat → Bool)
    (hlt : lo < hi) (hp : p lo = true) : firstInRange lo hi p = some lo := by
  unfold firstInRange
  match h : hi - lo with
  | 0 => omega
  | n + 1 => simp [firstInRangeAux, hp]

theorem rangeList_self_succ (n : Nat) : rangeList n (n + 1) = [n] := by
  simp [rangeList, List.range_succ]

/-- The word list `W` with `t` inserted at position `p`. -/
def insertAt (W : List Word) (t : Word) (p : Nat) : List Word :=
  W.take p ++ t :: W.drop p

theorem insertAt_length (W : List Word) (t : Word) (p : Nat) (hp : p ≤ W.length) :
    (insertAt W t p).length = W.length + 1 := by
  simp [insertAt]
  omega

theorem wAt_insertAt_lt (W : List Word) (t : Word) (p m : Nat) (hm : m < p)
    (hp : p ≤ W.length) : wAt (insertAt W t p) m = wAt W m := by
  simp only [insertAt, wAt, List.getD_eq_getElem?_getD, List.getElem?_append,
    List.length_take, min_eq_left hp]
  rw [if_pos (by omega), List.getElem?_take, if_pos hm]

theorem wAt_insertAt_self (W : List Word) (t : Word) (p : Nat) (hp : p ≤ W.length) :
    wAt (insertAt W t p) p = t := by
  simp only [insertAt, wAt, List.getD_eq_getElem?_getD, List.getElem?_append,
    List.length_take, min_eq_left hp]
  rw [if_neg (by omega), Nat.sub_self]
  simp

theorem wAt_insertAt_ge (W : List Word) (t : Word) (p m : Nat) (hm : p ≤ m)
    (hp : p ≤ W.length) : wAt (insertAt W t p) (m + 1) = wAt W m := by
  simp only [insertAt, wAt, List.getD_eq_getElem?_getD, List.getElem?_append,
    List.length_take, min_eq_left hp]
  rw [if_neg (by omega)]
  have h1 : m + 1 - p = (m - p) + 1 := by omega
  rw [h1]
  simp only [List.getElem?_cons_succ, List.getElem?_drop]
  rw [show p + (m - p) = m by omega]

theorem drop_insertAt (W : List Word) (t : Word) (p : Nat) (hp : p ≤ W.length) :
    (insertAt W t p).drop p = t :: W.drop p := by
  have h : (W.take p).length = p := by simp [min_eq_left hp]
  calc (insertAt W t p).drop p
      = (W.take p ++ t :: W.drop p).drop (W.take p).length := by rw [insertAt, h]
    _ = t :: W.drop p := List.drop_left _ _

theorem resyncStep_at_insert (W : List Word) (t : Word) (p : Nat)
    (hpW : p < W.length)
    (h1 : wAt W p ≠ t) (h2 : t ≠ [])
    (h3 : ∀ k, 1 ≤ k → k < min 5 (W.length - p) →
      ((W.drop p).take (k + 1)).flatten ≠ t)
    (h4 : ∀ k, 1 ≤ k → k < min 6 (W.length - p) → wAt W (p + k) ≠ t) :
    resyncStep W (insertAt W t p) 5 p p = ([DiffOp.ins p], p, p + 1) := by
  have hp : p ≤ W.length := le_of_lt hpW
  have hBp : wAt (insertAt W t p) p = t := wAt_insertAt_self W t p hp
  have hlenB : (insertAt W t p).length = W.length + 1 := insertAt_length W t p hp
  have hmerge : resyncMerge W (insertAt W t p) p p = none := by
    unfold resyncMerge
    rw [hBp]
    by_cases hml : (wAt W p).length < t.length
    · rw [if_pos hml]
      have : mergeFind W p t = none := by
        apply firstInRange_none
        intro m hm1 hm2
        simp only [decide_eq_false_iff_not]
        exact h3 m hm1 hm2
      rw [this]
      rfl
    · rw [if_neg hml]
      by_cases hmr : t.length < (wAt W p).length
      · rw [if_pos hmr]
        have : mergeFind (insertAt W t p) p (wAt W p) = none := by
          apply firstInRange_none
          intro m hm1 hm2
          simp only [decide_eq_false_iff_not]
          intro hcontra
          have hdrop : (insertAt W t p).drop p = t :: W.drop p := drop_insertAt W t p hp
          rw [hdrop] at hcontra
          have hWdrop : W.drop p = wAt W p :: W.drop (p + 1) := by
            have := List.drop_eq_getElem_cons hpW
            rw [this]
            simp [wAt, List.getD_eq_getElem?_getD, List.getElem?_eq_getElem hpW]
          rw [hWdrop] at hcontra
          obtain ⟨mm, rfl⟩ : ∃ mm, m = mm + 1 := ⟨m - 1, by omega⟩
          rw [List.take_succ_cons, List.take_succ_cons] at hcontra
          have hlen := congrArg List.length hcontra
          simp only [List.flatten_cons, List.length_append] at hlen
          have ht : 1 ≤ t.length := by
            rcases t with _ | _
            · exact absurd rfl h2
            · simp
          omega
        rw [this]
        rfl
      · rw [if_neg hmr]
  have hf1 : firstInRange 1 (min (5 + 1) (W.length - p))
      (fun k => decide (wAt W (p + k) = wAt (insertAt W t p) p)) = none := by
    apply firstInRange_none
    intro m hm1 hm2
    simp only [hBp, decide_eq_false_iff_not]
    exact h4 m hm1 hm2
  have hf2 : firstInRange 1 (min (5 + 1) ((insertAt W t p).length - p))
      (fun k => decide (wAt W p = wAt (insertAt W t p) (p + k))) = none → False := by
    intro hcontra
    rw [firstInRange_first] at hcontra
    · exact Option.noConfusion hcontra
    · rw [hlenB]; omega
    · simp only [decide_eq_true_eq]
      exact (wAt_insertAt_ge W t p p (le_refl p) hp).symm
  have hf2' : firstInRange 1 (min (5 + 1) ((insertAt W t p).length - p))
      (fun k => decide (wAt W p = wAt (insertAt W t p) (p + k))) = some 1 := by
    apply firstInRange_first
    · rw [hlenB]; omega
    · simp only [decide_eq_true_eq]
      exact (wAt_insertAt_ge W t p p (le_refl p) hp).symm
  unfold resyncStep
  simp only [hmerge, hf1, hf2', rangeList_self_succ, List.map_cons, List.map_nil]

theorem resyncGo_insert_tail (W : List Word) (t : Word) (p : Nat)
    (hp : p ≤ W.length) :
    ∀ fuel i, p ≤ i → resyncGo W (insertAt W t p) 5 fuel i (i + 1) = [] := by
  intro fuel
  induction fuel with
  | zero => intro i _; rfl
  | succ f ih =>
    intro i hpi
    have hlenB : (insertAt W t p).length = W.length + 1 := insertAt_length W t p hp
    by_cases hiW : i < W.length
    · have heq : wAt W i = wAt (insertAt W t p) (i + 1) :=
        (wAt_insertAt_ge W t p i hpi hp).symm
      rw [resyncGo, if_pos ⟨hiW, by omega⟩, if_pos heq]
      exact ih (i + 1) (by omega)
    · rw [resyncGo, if_neg (by omega), if_neg (by omega), if_neg (by omega)]

/-- C2 amended: if `words_b` is `W` with one non-empty token `t` inserted at a
valid position `p`, then `compare_with_resync` returns exactly one `insert`
at `p` — provided (when `p < |W|`) `t` differs from `W[p]`, `t` is not the
separator-free concatenation of 2–5 consecutive words of `W` starting at
`p` (which would trigger the merge check), and `t` does not occur among the
next 5 words of `W` after `p` (which would trigger the delete-lookahead
first).  The counterexample shows the last guard is necessary. -/
theorem C2_single_insert_amended (W : List Posid.Word) (t : Posid.Word) (p : Nat)
    (hp : p ≤ W.length)
    (h1 : ∀ h : p < W.length, Posid.wAt W p ≠ t)
    (h2 : t ≠ [])
    (h3 : ∀ k, 1 ≤ k → k < min 5 (W.length - p) →
      ((W.drop p).take (k + 1)).flatten ≠ t)
    (h4 : ∀ k, 1 ≤ k → k < min 6 (W.length - p) → Posid.wAt W (p + k) ≠ t) :
    Posid.compareWithResync W (Posid.insertAt W t p) = [Posid.DiffOp.ins p] := by
  have hlenB : (Posid.insertAt W t p).length = W.length + 1 :=
    Posid.insertAt_length W t p hp
  have main : ∀ fuel i, i ≤ p → p - i + 1 ≤ fuel →
      Posid.resyncGo W (Posid.insertAt W t p) 5 fuel i i = [Posid.DiffOp.ins p] := by
    intro fuel
    induction fuel with
    | zero => intro i _ hf; omega
    | succ f ih =>
      intro i hip hf
      by_cases hip' : i < p
      · have hiW : i < W.length := by omega
        have heq : Posid.wAt W i = Posid.wAt (Posid.insertAt W t p) i :=
          (Posid.wAt_insertAt_lt W t p i hip' hp).symm
        rw [Posid.resyncGo, if_pos ⟨hiW, by omega⟩, if_pos heq]
        exact ih (i + 1) (by omega) (by omega)
      · have hip0 : i = p := by omega
        subst hip0
        by_cases hpW : i < W.length
        · have hne : Posid.wAt W i ≠ Posid.wAt (Posid.insertAt W t i) i := by
            rw [Posid.wAt_insertAt_self W t i hp]
            exact h1 hpW
          have hstep := Posid.resyncStep_at_insert W t i hpW (h1 hpW) h2 h3 h4
          rw [Posid.resyncGo, if_pos ⟨hpW, by omega⟩, if_neg hne, hstep]
          rw [Posid.resyncGo_insert_tail W t i hp f i (le_refl i)]
          rfl
        · rw [Posid.resyncGo, if_neg (by omega), if_neg (by omega), if_pos (by omega)]
          rw [Posid.resyncGo_insert_tail W t i hp f i (le_refl i)]
  exact main (W.length + (Posid.insertAt W t p).length) 0 (by omega) (by omega)

end Posid

/-- Witness for the amended C2 at `W = ["a"]`, `t = "b"`, `p = 0`. -/
theorem C2_single_insert_amended_witness :
    Posid.compareWithResync [ofStr "a"] (Posid.insertAt [ofStr "a"] (ofStr "b") 0) =
      [Posid.DiffOp.ins 0] :=
  Posid.C2_single_insert_amended [ofStr "a"] (ofStr "b") 0 (by decide)
    (fun _ => by decide) (by decide)
    (fun k hk1 hk2 => by simp at hk2; omega)
    (fun k hk1 hk2 => by simp at hk2; omega)

namespace PyStr

theorem upper_range_iff (c : Char) : ('A' ≤ c ∧ c ≤ 'Z') ↔ (65 ≤ c.toNat ∧ c.toNat ≤ 90) := by
  rw [Char.le_def, Char.le_def]
  exact Iff.rfl

theorem asciiLower_toNat_of_upper {c : Char} (h : 65 ≤ c.toNat ∧ c.toNat ≤ 90) :
    (asciiLower c).toNat = c.toNat + 32 := by
  unfold asciiLower
  rw [if_pos (decide_eq_true ((upper_range_iff c).mpr h))]
  have hv : (c.toNat + 32).isValidChar := Or.inl (by omega)
  unfold Char.ofNat
  rw [dif_pos hv]
  rfl

theorem asciiLower_eq_self {c : Char} (h : ¬(65 ≤ c.toNat ∧ c.toNat ≤ 90)) :
    asciiLower c = c := by
  unfold asciiLower
  rw [if_neg]
  simp only [decide_eq_true_eq]
  rw [upper_range_iff]
  exact h

theorem char_toNat_ne {c d : Char} (h : c.toNat ≠ d.toNat) : c ≠ d :=
  fun he => h (congrArg Char.toNat he)

theorem asciiLower_idem (c : Char) : asciiLower (asciiLower c) = asciiLower c := by
  by_cases h : 65 ≤ c.toNat ∧ c.toNat ≤ 90
  · have h1 := asciiLower_toNat_of_upper h
    apply asciiLower_eq_self
    omega
  · rw [asciiLower_eq_self h, asciiLower_eq_self h]

theorem pyIsSpace_false_of_ge {c : Char} (h : 65 ≤ c.toNat) : pyIsSpace c = false := by
  have h1 : c ≠ ' ' := char_toNat_ne (by have : (' ' : Char).toNat = 32 := rfl; omega)
  have h2 : c ≠ '\t' := char_toNat_ne (by have : ('\t' : Char).toNat = 9 := rfl; omega)
  have h3 : c ≠ '\n' := char_toNat_ne (by have : ('\n' : Char).toNat = 10 := rfl; omega)
  have h4 : c ≠ '\r' := char_toNat_ne (by have : ('\r' : Char).toNat = 13 := rfl; omega)
  have h5 : c ≠ '\x0b' := char_toNat_ne (by have : ('\x0b' : Char).toNat = 11 := rfl; omega)
  have h6 : c ≠ '\x0c' := char_toNat_ne (by have : ('\x0c' : Char).toNat = 12 := rfl; omega)
  simp [pyIsSpace, h1, h2, h3, h4, h5, h6]

theorem pyIsSpace_asciiLower (c : Char) : pyIsSpace (asciiLower c) = pyIsSpace c := by
  by_cases h : 65 ≤ c.toNat ∧ c.toNat ≤ 90
  · have h1 := asciiLower_toNat_of_upper h
    rw [pyIsSpace_false_of_ge (by omega), pyIsSpace_false_of_ge (by omega)]
  · rw [asciiLower_eq_self h]

theorem lower_range_keep {d : Char} (h : 97 ≤ d.toNat ∧ d.toNat ≤ 122) :
    keepChar d = true := by
  unfold keepChar isWordChar pyIsAlnum isAsciiAlpha
  have : 'a' ≤ d ∧ d ≤ 'z' := by
    rw [Char.le_def, Char.le_def]
    exact h
  simp [decide_eq_true this.1, decide_eq_true this.2]

theorem keepChar_asciiLower {c : Char} (h : keepChar c = true) :
    keepChar (asciiLower c) = true := by
  by_cases hu : 65 ≤ c.toNat ∧ c.toNat ≤ 90
  · exact lower_range_keep (by have := asciiLower_toNat_of_upper hu; omega)
  · rw [asciiLower_eq_self hu]; exact h

end PyStr

namespace PyStr

/-- Every whitespace character is the plain space `' '`. -/
def SpacesOk (l : List Char) : Prop := ∀ c ∈ l, pyIsSpace c = true → c = ' '

/-- No two adjacent whitespace characters. -/
def NoAdjSpace (l : List Char) : Prop :=
  List.Chain' (fun a b => ¬(pyIsSpace a = true ∧ pyIsSpace b = true)) l

theorem collapseGo_mem : ∀ (flag : Bool) (z : List Char) (c : Char),
    c ∈ collapseGo flag z → c = ' ' ∨ c ∈ z := by
  intro flag z
  induction z generalizing flag with
  | nil => intro c hc; simp [collapseGo] at hc
  | cons d cs ih =>
    intro c hc
    simp only [collapseGo] at hc
    by_cases hd : pyIsSpace d
    · rw [if_pos hd] at hc
      by_cases hflag : flag
      · rw [if_pos hflag] at hc
        rcases ih true c hc with h | h
        · exact Or.inl h
        · exact Or.inr (List.mem_cons_of_mem d h)
      · rw [if_neg hflag] at hc
        rcases List.mem_cons.mp hc with h | h
        · exact Or.inl h
        · rcases ih true c h with h' | h'
          · exact Or.inl h'
          · exact Or.inr (List.mem_cons_of_mem d h')
    · rw [if_neg hd] at hc
      rcases List.mem_cons.mp hc with h | h
      · exact Or.inr (h ▸ List.mem_cons_self d cs)
      · rcases ih false c h with h' | h'
        · exact Or.inl h'
        · exact Or.inr (List.mem_cons_of_mem d h')

theorem collapseGo_spacesOk : ∀ (flag : Bool) (z : List Char), SpacesOk (collapseGo flag z) := by
  intro flag z
  induction z generalizing flag with
  | nil => intro c hc; simp [collapseGo] at hc
  | cons d cs ih =>
    intro c hc hcs
    simp only [collapseGo] at hc
    by_cases hd : pyIsSpace d
    · rw [if_pos hd] at hc
      by_cases hflag : flag
      · rw [if_pos hflag] at hc; exact ih true c hc hcs
      · rw [if_neg hflag] at hc
        rcases List.mem_cons.mp hc with h | h
        · exact h
        · exact ih true c h hcs
    · rw [if_neg hd] at hc
      rcases List.mem_cons.mp hc with h | h
      · exact absurd (h ▸ hcs) (by simp [hd])
      · exact ih false c h hcs

theorem collapseGo_true_head : ∀ (z : List Char) (c : Char),
    (collapseGo true z).head? = some c → pyIsSpace c = false := by
  intro z
  induction z with
  | nil => intro c hc; simp [collapseGo] at hc
  | cons d cs ih =>
    intro c hc
    by_cases hd : pyIsSpace d
    · rw [show collapseGo true (d :: cs) = collapseGo true cs by
        simp [collapseGo, hd]] at hc
      exact ih c hc
    · rw [show collapseGo true (d :: cs) = d :: collapseGo false cs by
        simp [collapseGo, hd]] at hc
      simp only [List.head?_cons, Option.some.injEq] at hc
      rw [← hc]
      simpa using hd

theorem collapseGo_noAdj : ∀ (flag : Bool) (z : List Char), NoAdjSpace (collapseGo flag z) := by
  intro flag z
  induction z generalizing flag with
  | nil => simp [collapseGo, NoAdjSpace]
  | cons d cs ih =>
    simp only [collapseGo]
    by_cases hd : pyIsSpace d
    · rw [if_pos hd]
      by_cases hflag : flag
      · rw [if_pos hflag]; exact ih true
      · rw [if_neg hflag]
        unfold NoAdjSpace
        rw [List.chain'_cons']
        refine ⟨?_, ih true⟩
        intro y hy
        intro hcontra
        have := collapseGo_true_head cs y hy
        rw [this] at hcontra
        exact Bool.false_ne_true hcontra.2
    · rw [if_neg hd]
      unfold NoAdjSpace
      rw [List.chain'_cons']
      refine ⟨?_, ih false⟩
      intro y _ hcontra
      have hd' : pyIsSpace d = false := by simpa using hd
      rw [hd'] at hcontra
      exact Bool.false_ne_true hcontra.1

theorem collapseGo_true_of_head (z : List Char)
    (h : ∀ c, z.head? = some c → pyIsSpace c = false) :
    collapseGo true z = collapseGo false z := by
  match z with
  | [] => rfl
  | d :: cs =>
    have hd : pyIsSpace d = false := h d rfl
    simp only [collapseGo, hd]
    simp

theorem collapseWs_fix : ∀ z : List Char, SpacesOk z → NoAdjSpace z → collapseWs z = z := by
  intro z
  unfold collapseWs
  induction z with
  | nil => intro _ _; rfl
  | cons d cs ih =>
    intro hok hadj
    have hok' : SpacesOk cs := fun c hc => hok c (List.mem_cons_of_mem d hc)
    have hadj' : NoAdjSpace cs := (List.chain'_cons'.mp hadj).2
    simp only [collapseGo]
    by_cases hd : pyIsSpace d
    · rw [if_pos hd]
      have hds : d = ' ' := hok d (List.mem_cons_self d cs) hd
      have hhead : ∀ c, cs.head? = some c → pyIsSpace c = false := by
        intro c hc
        have := (List.chain'_cons'.mp hadj).1 c hc
        by_cases hsp : pyIsSpace c
        · exact absurd ⟨hd, hsp⟩ this
        · simpa using hsp
      rw [collapseGo_true_of_head cs hhead, ih hok' hadj', hds]
      simp
    · rw [if_neg hd, ih hok' hadj']

theorem dropWhile_head_not (p : Char → Bool) (l : List Char) :
    ∀ c, (l.dropWhile p).head? = some c → p c = false := by
  intro c hc
  have := List.head?_dropWhile_not p l
  rw [hc] at this
  exact this

theorem dropWhile_eq_self_of_head (p : Char → Bool) (l : List Char)
    (h : ∀ c, l.head? = some c → p c = false) : l.dropWhile p = l := by
  match l with
  | [] => rfl
  | d :: cs =>
    rw [List.dropWhile_cons, if_neg]
    rw [h d rfl]
    simp

theorem getLast?_of_suffix {l1 l2 : List Char} (h : l1 <:+ l2) (hne : l1 ≠ []) :
    l1.getLast? = l2.getLast? := by
  obtain ⟨u, rfl⟩ := h
  rw [List.getLast?_append]
  match hl : l1.getLast? with
  | some c => rfl
  | none => exact absurd (List.getLast?_eq_none_iff.mp hl) hne

theorem head?_reverse_eq_getLast? (l : List Char) : l.reverse.head? = l.getLast? := by
  rw [← List.getLast?_reverse, List.reverse_reverse]

theorem pyStrip_strip_again (l : List Char) : pyStrip (pyStrip l) = pyStrip l := by
  unfold pyStrip
  set A := l.dropWhile pyIsSpace with hA
  set R := A.reverse.dropWhile pyIsSpace with hR
  have hAhead : ∀ c, A.head? = some c → pyIsSpace c = false := dropWhile_head_not _ l
  have hRhead : ∀ c, R.head? = some c → pyIsSpace c = false := dropWhile_head_not _ A.reverse
  have hRrevHead : ∀ c, R.reverse.head? = some c → pyIsSpace c = false := by
    intro c hc
    rw [head?_reverse_eq_getLast?] at hc
    have hRne : R ≠ [] := by
      intro h0
      rw [h0] at hc
      simp at hc
    have hsuf : R <:+ A.reverse := hR ▸ List.dropWhile_suffix _
    rw [getLast?_of_suffix hsuf hRne] at hc
    rw [List.getLast?_reverse] at hc
    exact hAhead c hc
  rw [dropWhile_eq_self_of_head _ _ hRrevHead, List.reverse_reverse,
    dropWhile_eq_self_of_head _ _ hRhead]

theorem pyStrip_within (l : List Char) : pyStrip l <:+: l := by
  unfold pyStrip
  have h1 : l.dropWhile pyIsSpace <:+ l := List.dropWhile_suffix _
  have h2 : (l.dropWhile pyIsSpace).reverse.dropWhile pyIsSpace <:+
      (l.dropWhile pyIsSpace).reverse := List.dropWhile_suffix _
  have h3 : ((l.dropWhile pyIsSpace).reverse.dropWhile pyIsSpace).reverse <+:
      (l.dropWhile pyIsSpace) := by
    have h4 := List.reverse_prefix.mpr h2
    rwa [List.reverse_reverse] at h4
  exact h3.isInfix.trans h1.isInfix

end PyStr

/-- C5 amended: `normalize_word` is idempotent on every input whose
normalization is neither classified meaningless nor changed by the Korean
magnitude-unit expansion.  (The counterexample `"12."` shows the first
guard is necessary — its normalization `"12"` is a bare two-digit number —
and `"1만2만"`, whose normalization `"100002만"` still contains a
digit-unit substring, shows the second.) -/
theorem C5_idempotence_amended (x : List Char)
    (hm : Posid.isMeaninglessWord (Posid.normalizeWord x) = false)
    (hk : Posid.normalizeKoreanNumber (Posid.normalizeWord x) = Posid.normalizeWord x) :
    Posid.normalizeWord (Posid.normalizeWord x) = Posid.normalizeWord x := by
  by_cases hmx : Posid.isMeaninglessWord x
  · have hy : Posid.normalizeWord x = [] := by
      unfold Posid.normalizeWord
      rw [if_pos hmx]
    rw [hy]
    decide
  · have hy : Posid.normalizeWord x =
        pyStrip ((collapseWs ((Posid.normalizeKoreanNumber x).filter keepChar)).map
          asciiLower) := by
      unfold Posid.normalizeWord
      rw [if_neg hmx]
  -- abbreviations for the pipeline stages
    set w3 := collapseWs ((Posid.normalizeKoreanNumber x).filter keepChar) with hw3
    set w4 := w3.map asciiLower with hw4
    set y := Posid.normalizeWord x with hyy
    have hy4 : y = pyStrip w4 := hy
    have hsub : ∀ c ∈ y, c ∈ w4 := by
      intro c hc
      exact ((pyStrip_within w4).sublist).mem (hy4 ▸ hc)
    have hF1 : ∀ c ∈ y, keepChar c = true := by
      intro c hc
      obtain ⟨d, hd, hdc⟩ := List.mem_map.mp (hsub c hc)
      have hkd : keepChar d = true := by
        rcases collapseGo_mem false _ d hd with h | h
        · rw [h]; decide
        · exact (List.mem_filter.mp h).2
      exact hdc ▸ keepChar_asciiLower hkd
    have hF2 : SpacesOk y := by
      intro c hc hcs
      obtain ⟨d, hd, hdc⟩ := List.mem_map.mp (hsub c hc)
      have hds : pyIsSpace d = true := by
        rw [← pyIsSpace_asciiLower d, hdc]; exact hcs
      have := collapseGo_spacesOk false _ d hd hds
      rw [← hdc, this]
      rfl
    have hF3 : NoAdjSpace y := by
      have h3 : NoAdjSpace w3 := collapseGo_noAdj false _
      have h4 : NoAdjSpace w4 := by
        unfold NoAdjSpace
        rw [hw4, List.chain'_map]
        apply h3.imp
        intro a b hab
        rw [pyIsSpace_asciiLower, pyIsSpace_asciiLower]
        exact hab
      exact h4.infix (hy4 ▸ pyStrip_within w4)
    have hF4 : pyStrip y = y := by rw [hy4]; exact pyStrip_strip_again w4
    have hF5 : y.map asciiLower = y := by
      have hall : ∀ c ∈ y, asciiLower c = c := by
        intro c hc
        obtain ⟨d, _, hdc⟩ := List.mem_map.mp (hsub c hc)
        rw [← hdc]
        exact asciiLower_idem d
      calc y.map asciiLower = y.map id := List.map_congr_left hall
        _ = y := List.map_id y
    have hF6 : y.filter keepChar = y := List.filter_eq_self.mpr hF1
    have hF7 : collapseWs y = y := collapseWs_fix y hF2 hF3
    unfold Posid.normalizeWord
    rw [if_neg (by rw [hm]; exact Bool.false_ne_true), hk]
    simp only [hF6, hF7, hF5, hF4]

/-- Witness for the amended C5 at `x = "Hello!"`, which normalizes to
`"hello"`: neither meaningless nor unit-expandable. -/
theorem C5_idempotence_amended_witness :
    Posid.normalizeWord (Posid.normalizeWord (ofStr "Hello!")) =
      Posid.normalizeWord (ofStr "Hello!") :=
  C5_idempotence_amended (ofStr "Hello!") (by decide) (by decide)

namespace TextComparator

/-- The default block used for out-of-range `getD` (never hit in the sources). -/
def dfltBlock : TBlock := ⟨0, (0, 0, 0, 0), [], none⟩

/-- The score `find_best_match` computes for source index `j`. -/
def scoreOf (tnorm : List Char) (ttype : Option (List Char)) (srcs : List TBlock)
    (j : Nat) : PyFloat.Frac :=
  (Difflib.ratio tnorm (normalizeText (srcs.getD j dfltBlock).text)).add
    (if ttype = (srcs.getD j dfltBlock).sectionType then ⟨1, 10⟩ else ⟨0, 1⟩)

/-- What the candidate-loop state guarantees about a recorded best. -/
def FbmOk (tnorm : List Char) (ttype : Option (List Char)) (srcs : List TBlock)
    (best : Option (Nat × PyFloat.Frac)) : Prop :=
  ∀ bi bsc, best = some (bi, bsc) →
    bi < srcs.length ∧ bsc = scoreOf tnorm ttype srcs bi ∧
    normalizeText (srcs.getD bi dfltBlock).text ≠ []

theorem fbmGo_ok (tnorm : List Char) (ttype : Option (List Char)) (srcs : List TBlock) :
    ∀ (rest : List TBlock) (i0 : Nat) (best : Option (Nat × PyFloat.Frac)),
      rest = srcs.drop i0 → FbmOk tnorm ttype srcs best →
      FbmOk tnorm ttype srcs (fbmGo tnorm ttype rest i0 best) := by
  intro rest
  induction rest with
  | nil => intro i0 best _ hok; exact hok
  | cons blk rest' ih =>
    intro i0 best hdrop hok
    have hi0 : i0 < srcs.length := by
      by_contra hcon
      rw [List.drop_eq_nil_of_le (by omega)] at hdrop
      exact List.noConfusion hdrop
    have hblk : srcs.getD i0 dfltBlock = blk := by
      have h1 : srcs[i0]? = some blk := by
        rw [← List.head?_drop, ← hdrop]
        rfl
      rw [List.getD_eq_getElem?_getD, h1]
      rfl
    have hdrop' : rest' = srcs.drop (i0 + 1) := by
      have : srcs.drop (i0 + 1) = (srcs.drop i0).drop 1 := by
        rw [List.drop_drop]
      rw [this, ← hdrop]
      rfl
    simp only [fbmGo]
    by_cases hempty : (normalizeText blk.text).isEmpty
    · rw [if_pos hempty]
      exact ih (i0 + 1) best hdrop' hok
    · rw [if_neg hempty]
      apply ih (i0 + 1) _ hdrop'
      intro bi bsc hbest
      match hb : best with
      | none =>
        simp only [Option.some.injEq, Prod.mk.injEq] at hbest
        refine ⟨hbest.1 ▸ hi0, ?_, ?_⟩
        · rw [← hbest.1, ← hbest.2, scoreOf, hblk]
        · rw [← hbest.1, hblk]
          simpa using hempty
      | some (b0, s0) =>
        have hbest' : (if s0.blt ((Difflib.ratio tnorm (normalizeText blk.text)).add
            (if ttype = blk.sectionType then ⟨1, 10⟩ else ⟨0, 1⟩)) then
            some (i0, (Difflib.ratio tnorm (normalizeText blk.text)).add
              (if ttype = blk.sectionType then ⟨1, 10⟩ else ⟨0, 1⟩))
          else some (b0, s0)) = some (bi, bsc) := hbest
        by_cases hblt : s0.blt ((Difflib.ratio tnorm (normalizeText blk.text)).add
            (if ttype = blk.sectionType then ⟨1, 10⟩ else ⟨0, 1⟩))
        · rw [if_pos hblt] at hbest'
          simp only [Option.some.injEq, Prod.mk.injEq] at hbest'
          refine ⟨hbest'.1 ▸ hi0, ?_, ?_⟩
          · rw [← hbest'.1, ← hbest'.2, scoreOf, hblk]
          · rw [← hbest'.1, hblk]
            simpa using hempty
        · rw [if_neg hblt] at hbest'
          simp only [Option.some.injEq, Prod.mk.injEq] at hbest'
          obtain ⟨g1, g2, g3⟩ := hok b0 s0 rfl
          exact ⟨hbest'.1 ▸ g1, hbest'.1 ▸ hbest'.2 ▸ g2, hbest'.1 ▸ g3⟩

/-- The acceptance lemma for `find_best_match`: a returned `(j, s)` indexes a
real B block, carries exactly the similarity-plus-bonus score of that block,
meets the threshold, and both normalized texts are non-empty. -/
theorem findBestMatch_spec (t : TBlock) (srcs : List TBlock) (j : Nat)
    (s : PyFloat.Frac) (h : findBestMatch t srcs = some (j, s)) :
    j < srcs.length ∧
    s = scoreOf (normalizeText t.text) t.sectionType srcs j ∧
    similarityThreshold.ble s = true ∧
    normalizeText t.text ≠ [] ∧
    normalizeText ((srcs.getD j dfltBlock).text) ≠ [] := by
  unfold findBestMatch at h
  by_cases hempty : (normalizeText t.text).isEmpty
  · rw [if_pos hempty] at h
    exact absurd h (by simp)
  · rw [if_neg hempty] at h
    have hok := fbmGo_ok (normalizeText t.text) t.sectionType srcs srcs 0 none rfl
      (by intro bi bsc hc; exact absurd hc (by simp))
    match hfb : fbmGo (normalizeText t.text) t.sectionType srcs 0 none with
    | none =>
      simp only [hfb] at h
      exact Option.noConfusion h
    | some (bi, bsc) =>
      simp only [hfb] at h
      obtain ⟨g1, g2, g3⟩ := hok bi bsc hfb
      by_cases hth : similarityThreshold.ble bsc
      · rw [if_pos hth] at h
        simp only [Option.some.injEq, Prod.mk.injEq] at h
        refine ⟨h.1 ▸ g1, h.1 ▸ h.2 ▸ g2, h.2 ▸ hth, by simpa using hempty, h.1 ▸ g3⟩
      · rw [if_neg hth] at h
        exact absurd h (by simp)

end TextComparator

namespace TextComparator

theorem cbStep_cases (bbs : List TBlock) (b : TBlock) (i : Nat) (st : CBState) :
    (∃ j s, findBestMatch b bbs = some (j, s) ∧ st.matchedB.contains j = false ∧
      (cbStep bbs b i st).syncMap = st.syncMap ++ [(i, j)] ∧
      (cbStep bbs b i st).matchedB = st.matchedB ++ [j] ∧
      (cbStep bbs b i st).deleted = st.deleted) ∨
    (∃ j s, findBestMatch b bbs = some (j, s) ∧ st.matchedB.contains j = true ∧
      cbStep bbs b i st = st) ∨
    (findBestMatch b bbs = none ∧
      (cbStep bbs b i st).syncMap = st.syncMap ∧
      (cbStep bbs b i st).matchedB = st.matchedB ∧
      (cbStep bbs b i st).deleted = st.deleted ++ [⟨i, b⟩]) := by
  match hfb : findBestMatch b bbs with
  | none =>
    refine Or.inr (Or.inr ⟨rfl, ?_, ?_, ?_⟩) <;> · simp only [cbStep, hfb]
  | some (j, s) =>
    by_cases hcont : st.matchedB.contains j
    · refine Or.inr (Or.inl ⟨j, s, rfl, hcont, ?_⟩)
      simp only [cbStep, hfb]
      rw [if_pos hcont]
    · refine Or.inl ⟨j, s, rfl, by simpa using hcont, ?_, ?_, ?_⟩ <;>
      · simp only [cbStep, hfb]
        rw [if_neg hcont]
        split <;> rfl

theorem cbGoB_fields : ∀ (bs : List TBlock) (j : Nat) (st : CBState),
    (cbGoB bs j st).syncMap = st.syncMap ∧
    (cbGoB bs j st).matchedB = st.matchedB ∧
    (cbGoB bs j st).deleted = st.deleted := by
  intro bs
  induction bs with
  | nil => intro j st; exact ⟨rfl, rfl, rfl⟩
  | cons b rest ih =>
    intro j st
    simp only [cbGoB]
    by_cases hc : st.matchedB.contains j
    · rw [if_pos hc]; exact ih (j + 1) st
    · rw [if_neg hc]
      have h := ih (j + 1)
        { st with
          added := st.added ++ [⟨j, b⟩],
          hlB := appendAt st.hlB b.page
            ⟨b.bbox, PyStr.ofStr "green", PyStr.ofStr "[추가됨] " ++ b.text⟩ }
      simpa using h

/-- The main loop invariant of `compare_blocks`' A-side pass: matched indices
mirror the sync map's B side and stay duplicate-free, sync-map keys stay
below the running index, existing entries persist, and every processed
A index is matched, deleted, or dropped because its best match was already
claimed by a different A index. -/
theorem cbGoA_main (bbs : List TBlock) :
    ∀ (bs : List TBlock) (idx : Nat) (st : CBState),
      st.syncMap.map Prod.snd = st.matchedB →
      st.matchedB.Nodup →
      (∀ pr ∈ st.syncMap, pr.1 < idx) →
      (∀ pr ∈ st.syncMap, pr ∈ (cbGoA bbs bs idx st).syncMap) ∧
      (∀ e ∈ st.deleted, e ∈ (cbGoA bbs bs idx st).deleted) ∧
      ((cbGoA bbs bs idx st).syncMap.map Prod.snd = (cbGoA bbs bs idx st).matchedB) ∧
      (cbGoA bbs bs idx st).matchedB.Nodup ∧
      (∀ pr ∈ (cbGoA bbs bs idx st).syncMap, pr.1 < idx + bs.length) ∧
      (∀ m, m < bs.length →
        (∃ j, (idx + m, j) ∈ (cbGoA bbs bs idx st).syncMap) ∨
        (∃ e ∈ (cbGoA bbs bs idx st).deleted, e.indexA = idx + m) ∨
        (∃ j s, findBestMatch (bs.getD m dfltBlock) bbs = some (j, s) ∧
          ∃ i', i' ≠ idx + m ∧ (i', j) ∈ (cbGoA bbs bs idx st).syncMap)) := by
  intro bs
  induction bs with
  | nil =>
    intro idx st h1 h2 h3
    exact ⟨fun pr hpr => hpr, fun e he => he, h1, h2,
      by simpa using h3, fun m hm => absurd hm (by simp)⟩
  | cons b rest ih =>
    intro idx st h1 h2 h3
    have hstep := cbStep_cases bbs b idx st
    have hgo : cbGoA bbs (b :: rest) idx st = cbGoA bbs rest (idx + 1) (cbStep bbs b idx st) :=
      rfl
    rcases hstep with ⟨j, s, hfb, hcont, hsy, hmb, hde⟩ | ⟨j, s, hfb, hcont, heq⟩ |
      ⟨hfb, hsy, hmb, hde⟩
    · -- fresh match: entry (idx, j) appended
      have hjnotmem : j ∉ st.matchedB := fun hmem =>
        Bool.false_ne_true (hcont ▸ List.elem_iff.mpr hmem)
      have g1 : (cbStep bbs b idx st).syncMap.map Prod.snd = (cbStep bbs b idx st).matchedB := by
        rw [hsy, hmb, List.map_append, h1]
        rfl
      have g2 : (cbStep bbs b idx st).matchedB.Nodup := by
        rw [hmb]
        refine List.Nodup.append h2 (by simp) ?_
        intro x hx hxj
        rw [List.mem_singleton.mp hxj] at hx
        exact hjnotmem hx
      have g3 : ∀ pr ∈ (cbStep bbs b idx st).syncMap, pr.1 < idx + 1 := by
        intro pr hpr
        rw [hsy] at hpr
        rcases List.mem_append.mp hpr with h | h
        · exact Nat.lt_succ_of_lt (h3 pr h)
        · rw [List.mem_singleton.mp h]
          exact Nat.lt_succ_self idx
      obtain ⟨c1, c2, c3, c4, c5, c6⟩ := ih (idx + 1) (cbStep bbs b idx st) g1 g2 g3
      rw [hgo]
      refine ⟨?_, ?_, c3, c4, ?_, ?_⟩
      · intro pr hpr
        exact c1 pr (by rw [hsy]; exact List.mem_append_left _ hpr)
      · intro e he
        exact c2 e (by rw [hde]; exact he)
      · intro pr hpr
        have := c5 pr hpr
        simpa [Nat.add_assoc, Nat.add_comm 1 rest.length] using this
      · intro m hm
        match m with
        | 0 =>
          left
          exact ⟨j, c1 (idx, j) (by rw [hsy]; exact List.mem_append_right _ (by simp))⟩
        | m' + 1 =>
          have := c6 m' (by simpa using hm)
          rcases this with ⟨j', hj'⟩ | ⟨e, he, hei⟩ | ⟨j', s', hfb', i', hne, hmem⟩
          · exact Or.inl ⟨j', by rw [show idx + (m' + 1) = idx + 1 + m' by omega]; exact hj'⟩
          · exact Or.inr (Or.inl ⟨e, he, by omega⟩)
          · refine Or.inr (Or.inr ⟨j', s', by simpa using hfb', i', by omega, hmem⟩)
    · -- best match already claimed: the A block is silently dropped
      have g3 : ∀ pr ∈ (cbStep bbs b idx st).syncMap, pr.1 < idx + 1 := by
        rw [heq]
        exact fun pr hpr => Nat.lt_succ_of_lt (h3 pr hpr)
      obtain ⟨c1, c2, c3, c4, c5, c6⟩ := ih (idx + 1) (cbStep bbs b idx st)
        (by rw [heq]; exact h1) (by rw [heq]; exact h2) g3
      rw [hgo]
      refine ⟨?_, ?_, c3, c4, ?_, ?_⟩
      · intro pr hpr
        exact c1 pr (by rw [heq]; exact hpr)
      · intro e he
        exact c2 e (by rw [heq]; exact he)
      · intro pr hpr
        have := c5 pr hpr
        simpa [Nat.add_assoc, Nat.add_comm 1 rest.length] using this
      · intro m hm
        match m with
        | 0 =>
          -- j is claimed: some earlier (i', j) is in the sync map
          right; right
          refine ⟨j, s, by simpa using hfb, ?_⟩
          have hjm : j ∈ st.matchedB := List.elem_iff.mp hcont
          rw [← h1] at hjm
          obtain ⟨pr, hpr, hprj⟩ := List.mem_map.mp hjm
          refine ⟨pr.1, by have := h3 pr hpr; omega, ?_⟩
          have : pr = (pr.1, j) := by
            rcases pr with ⟨a, b'⟩
            simp at hprj
            rw [hprj]
          exact this ▸ c1 pr (by rw [heq]; exact hpr)
        | m' + 1 =>
          have := c6 m' (by simpa using hm)
          rcases this with ⟨j', hj'⟩ | ⟨e, he, hei⟩ | ⟨j', s', hfb', i', hne, hmem⟩
          · exact Or.inl ⟨j', by rw [show idx + (m' + 1) = idx + 1 + m' by omega]; exact hj'⟩
          · exact Or.inr (Or.inl ⟨e, he, by omega⟩)
          · exact Or.inr (Or.inr ⟨j', s', by simpa using hfb', i', by omega, hmem⟩)
    · -- no match: deleted entry appended
      have g3 : ∀ pr ∈ (cbStep bbs b idx st).syncMap, pr.1 < idx + 1 := by
        rw [hsy]
        exact fun pr hpr => Nat.lt_succ_of_lt (h3 pr hpr)
      obtain ⟨c1, c2, c3, c4, c5, c6⟩ := ih (idx + 1) (cbStep bbs b idx st)
        (by rw [hsy, hmb]; exact h1) (by rw [hmb]; exact h2) g3
      rw [hgo]
      refine ⟨?_, ?_, c3, c4, ?_, ?_⟩
      · intro pr hpr
        exact c1 pr (by rw [hsy]; exact hpr)
      · intro e he
        exact c2 e (by rw [hde]; exact List.mem_append_left _ he)
      · intro pr hpr
        have := c5 pr hpr
        simpa [Nat.add_assoc, Nat.add_comm 1 rest.length] using this
      · intro m hm
        match m with
        | 0 =>
          right; left
          exact ⟨⟨idx, b⟩, c2 ⟨idx, b⟩ (by rw [hde]; exact List.mem_append_right _ (by simp)),
            rfl⟩
        | m' + 1 =>
          have := c6 m' (by simpa using hm)
          rcases this with ⟨j', hj'⟩ | ⟨e, he, hei⟩ | ⟨j', s', hfb', i', hne, hmem⟩
          · exact Or.inl ⟨j', by rw [show idx + (m' + 1) = idx + 1 + m' by omega]; exact hj'⟩
          · exact Or.inr (Or.inl ⟨e, he, by omega⟩)
          · exact Or.inr (Or.inr ⟨j', s', by simpa using hfb', i', by omega, hmem⟩)

end TextComparator

namespace TextComparator

/-- Every sync-map entry originates from a successful `find_best_match` call
on the A block at its key. -/
theorem cbGoA_provenance (bbs : List TBlock) :
    ∀ (bs : List TBlock) (idx : Nat) (st : CBState) (pr : Nat × Nat),
      pr ∈ (cbGoA bbs bs idx st).syncMap →
      pr ∈ st.syncMap ∨
      ∃ m, m < bs.length ∧ pr.1 = idx + m ∧
        ∃ s, findBestMatch (bs.getD m dfltBlock) bbs = some (pr.2, s) := by
  intro bs
  induction bs with
  | nil => intro idx st pr hpr; exact Or.inl hpr
  | cons b rest ih =>
    intro idx st pr hpr
    have hgo : cbGoA bbs (b :: rest) idx st = cbGoA bbs rest (idx + 1) (cbStep bbs b idx st) :=
      rfl
    rw [hgo] at hpr
    rcases ih (idx + 1) (cbStep bbs b idx st) pr hpr with hstep | ⟨m, hm, hpr1, s, hs⟩
    · rcases cbStep_cases bbs b idx st with ⟨j, s, hfb, _, hsy, _, _⟩ |
        ⟨j, s, _, _, heq⟩ | ⟨_, hsy, _, _⟩
      · rw [hsy] at hstep
        rcases List.mem_append.mp hstep with h | h
        · exact Or.inl h
        · rw [List.mem_singleton.mp h]
          exact Or.inr ⟨0, by simp, by simp, s, by simpa using hfb⟩
      · rw [heq] at hstep
        exact Or.inl hstep
      · rw [hsy] at hstep
        exact Or.inl hstep
    · exact Or.inr ⟨m + 1, by simpa using hm, by omega, s, by simpa using hs⟩

/-- Positive denominators of the embedding's fractions. -/
theorem ratio_den_pos {α : Type} [DecidableEq α] (a b : List α) :
    0 < (Difflib.ratio a b).den := by
  unfold Difflib.ratio Difflib.calculateRatio
  by_cases h : a.length + b.length ≠ 0
  · rw [if_pos h]; simpa using Nat.pos_of_ne_zero h
  · rw [if_neg h]; simp

theorem scoreOf_den_pos (tnorm : List Char) (ttype : Option (List Char))
    (srcs : List TBlock) (j : Nat) : 0 < (scoreOf tnorm ttype srcs j).den := by
  have h1 := ratio_den_pos tnorm (normalizeText (srcs.getD j dfltBlock).text)
  unfold scoreOf
  by_cases h : ttype = (srcs.getD j dfltBlock).sectionType
  · rw [if_pos h]
    simp only [PyFloat.Frac.add]
    omega
  · rw [if_neg h]
    simp only [PyFloat.Frac.add]
    omega

end TextComparator

/-- C3 amended: `TextComparator.compare_blocks` produces a sync map injective
on the B side — the `matched_b_indices` guard never lets a B index be
claimed twice.  (`PDdiff.perform_comparison`, which lacks the guard,
violates this; see the counterexample.) -/
theorem C3_injectivity_amended (bas bbs : List TextComparator.TBlock) (i1 i2 j : Nat)
    (h1 : (i1, j) ∈ (TextComparator.compareBlocks bas bbs).syncMap)
    (h2 : (i2, j) ∈ (TextComparator.compareBlocks bas bbs).syncMap) : i1 = i2 := by
  have hB := TextComparator.cbGoB_fields bbs 0
    (TextComparator.cbGoA bbs bas 0 ⟨[], [], [], [], [], [], []⟩)
  have hmain := TextComparator.cbGoA_main bbs bas 0 ⟨[], [], [], [], [], [], []⟩
    rfl List.nodup_nil (by intro pr hpr; exact absurd hpr (by simp))
  obtain ⟨_, _, c3, c4, _, _⟩ := hmain
  have hnodup : ((TextComparator.cbGoA bbs bas 0
      ⟨[], [], [], [], [], [], []⟩).syncMap.map Prod.snd).Nodup := c3 ▸ c4
  have h1' : (i1, j) ∈ (TextComparator.cbGoA bbs bas 0
      ⟨[], [], [], [], [], [], []⟩).syncMap := by
    have : (TextComparator.compareBlocks bas bbs).syncMap = _ := hB.1
    rw [← this]; exact h1
  have h2' : (i2, j) ∈ (TextComparator.cbGoA bbs bas 0
      ⟨[], [], [], [], [], [], []⟩).syncMap := by
    have : (TextComparator.compareBlocks bas bbs).syncMap = _ := hB.1
    rw [← this]; exact h2
  have := List.inj_on_of_nodup_map hnodup h1' h2' rfl
  exact congrArg Prod.fst this

/-- Witness for the amended C3: in the one-block self-match both claimants of
B index 0 coincide. -/
theorem C3_injectivity_amended_witness : (0 : Nat) = 0 :=
  C3_injectivity_amended [⟨0, (0, 0, 0, 0), ofStr "ab", none⟩]
    [⟨0, (0, 0, 0, 0), ofStr "ab", none⟩] 0 0 0 (by decide) (by decide)

/-- C8 amended: after `compare_blocks` every A-block index is a key of the
sync map, or appears among the deleted entries, or its best match is a B
index already claimed by a different A index (the `continue` case, in which
the A block is silently dropped). -/
theorem C8_partition_amended (bas bbs : List TextComparator.TBlock) (i : Nat)
    (hi : i < bas.length) :
    (∃ j, (i, j) ∈ (TextComparator.compareBlocks bas bbs).syncMap) ∨
    (∃ e ∈ (TextComparator.compareBlocks bas bbs).deleted, e.indexA = i) ∨
    (∃ j s, TextComparator.findBestMatch (bas.getD i TextComparator.dfltBlock) bbs =
        some (j, s) ∧
      ∃ i', i' ≠ i ∧ (i', j) ∈ (TextComparator.compareBlocks bas bbs).syncMap) := by
  have hB := TextComparator.cbGoB_fields bbs 0
    (TextComparator.cbGoA bbs bas 0 ⟨[], [], [], [], [], [], []⟩)
  have hmain := TextComparator.cbGoA_main bbs bas 0 ⟨[], [], [], [], [], [], []⟩
    rfl List.nodup_nil (by intro pr hpr; exact absurd hpr (by simp))
  obtain ⟨_, _, _, _, _, c6⟩ := hmain
  have hsync : (TextComparator.compareBlocks bas bbs).syncMap = _ := hB.1
  have hdel : (TextComparator.compareBlocks bas bbs).deleted = _ := hB.2.2
  rcases c6 i hi with ⟨j, hj⟩ | ⟨e, he, hei⟩ | ⟨j, s, hfb, i', hne, hmem⟩
  · exact Or.inl ⟨j, by rw [hsync]; simpa using hj⟩
  · rw [Nat.zero_add] at hei
    exact Or.inr (Or.inl ⟨e, by rw [hdel]; exact he, hei⟩)
  · rw [Nat.zero_add] at hne
    exact Or.inr (Or.inr ⟨j, s, hfb, i', hne, by rw [hsync]; exact hmem⟩)

/-- Witness for the amended C8 at `blocks_a = [A, A]`, `blocks_b = [A]`,
`i = 1` (the dropped block hits the third disjunct). -/
theorem C8_partition_amended_witness :
    (∃ j, (1, j) ∈ (TextComparator.compareBlocks
      [⟨0, (0, 0, 0, 0), ofStr "abab", none⟩, ⟨0, (0, 0, 0, 0), ofStr "abab", none⟩]
      [⟨0, (0, 0, 0, 0), ofStr "abab", none⟩]).syncMap) ∨
    (∃ e ∈ (TextComparator.compareBlocks
      [⟨0, (0, 0, 0, 0), ofStr "abab", none⟩, ⟨0, (0, 0, 0, 0), ofStr "abab", none⟩]
      [⟨0, (0, 0, 0, 0), ofStr "abab", none⟩]).deleted, e.indexA = 1) ∨
    (∃ j s, TextComparator.findBestMatch
        (([⟨0, (0, 0, 0, 0), ofStr "abab", none⟩, ⟨0, (0, 0, 0, 0), ofStr "abab", none⟩] :
          List TextComparator.TBlock).getD 1 TextComparator.dfltBlock)
        [⟨0, (0, 0, 0, 0), ofStr "abab", none⟩] = some (j, s) ∧
      ∃ i', i' ≠ 1 ∧ (i', j) ∈ (TextComparator.compareBlocks
        [⟨0, (0, 0, 0, 0), ofStr "abab", none⟩, ⟨0, (0, 0, 0, 0), ofStr "abab", none⟩]
        [⟨0, (0, 0, 0, 0), ofStr "abab", none⟩]).syncMap) :=
  C8_partition_amended
    [⟨0, (0, 0, 0, 0), ofStr "abab", none⟩, ⟨0, (0, 0, 0, 0), ofStr "abab", none⟩]
    [⟨0, (0, 0, 0, 0), ofStr "abab", none⟩] 1 (by decide)

/-- C9 amended: every recorded mapping `i -> j` was accepted with
`ratio + section-type bonus >= 0.6`; the bonus is `0.1` exactly when the two
`section_type` values are equal (including both absent), so the similarity
alone may be below the threshold. -/
theorem C9_threshold_amended (bas bbs : List TextComparator.TBlock) (i j : Nat)
    (h : (i, j) ∈ (TextComparator.compareBlocks bas bbs).syncMap) :
    j < bbs.length ∧
    TextComparator.similarityThreshold.val ≤
      (Difflib.ratio
          (TextComparator.normalizeText ((bas.getD i TextComparator.dfltBlock).text))
          (TextComparator.normalizeText ((bbs.getD j TextComparator.dfltBlock).text))).val +
        (if (bas.getD i TextComparator.dfltBlock).sectionType =
            (bbs.getD j TextComparator.dfltBlock).sectionType
          then (1 : ℚ) / 10 else 0) := by
  have hB := TextComparator.cbGoB_fields bbs 0
    (TextComparator.cbGoA bbs bas 0 ⟨[], [], [], [], [], [], []⟩)
  have h' : (i, j) ∈ (TextComparator.cbGoA bbs bas 0
      ⟨[], [], [], [], [], [], []⟩).syncMap := by
    have hs : (TextComparator.compareBlocks bas bbs).syncMap = _ := hB.1
    rw [← hs]; exact h
  rcases TextComparator.cbGoA_provenance bbs bas 0 ⟨[], [], [], [], [], [], []⟩ (i, j) h'
    with habs | ⟨m, _, him, s, hfb⟩
  · exact absurd habs (by simp)
  have him' : i = m := by simpa using him
  subst him'
  obtain ⟨hjlt, hseq, hble, _, _⟩ := TextComparator.findBestMatch_spec _ _ _ _ hfb
  refine ⟨hjlt, ?_⟩
  have hsden : 0 < s.den := by
    rw [hseq]; exact TextComparator.scoreOf_den_pos _ _ _ _
  have hthr : TextComparator.similarityThreshold.val ≤ s.val :=
    (PyFloat.Frac.ble_iff (by decide) hsden).mp hble
  rw [hseq] at hthr
  unfold TextComparator.scoreOf at hthr
  have hrpos := TextComparator.ratio_den_pos
    (TextComparator.normalizeText ((bas.getD i TextComparator.dfltBlock).text))
    (TextComparator.normalizeText ((bbs.getD j TextComparator.dfltBlock).text))
  by_cases hty : (bas.getD i TextComparator.dfltBlock).sectionType =
      (bbs.getD j TextComparator.dfltBlock).sectionType
  · rw [if_pos hty] at hthr
    rw [if_pos hty]
    rw [PyFloat.Frac.val_add hrpos (by decide)] at hthr
    have h110 : (⟨1, 10⟩ : PyFloat.Frac).val = 1 / 10 := by
      norm_num [PyFloat.Frac.val]
    rw [h110] at hthr
    exact hthr
  · rw [if_neg hty] at hthr
    rw [if_neg hty]
    rw [PyFloat.Frac.val_add hrpos (by decide)] at hthr
    have h01 : (⟨0, 1⟩ : PyFloat.Frac).val = 0 := by
      norm_num [PyFloat.Frac.val]
    rw [h01] at hthr
    exact hthr

/-- Witness for the amended C9 at the one-block self-match. -/
theorem C9_threshold_amended_witness :
    (0 : Nat) < ([⟨0, (0, 0, 0, 0), ofStr "ab", none⟩] :
      List TextComparator.TBlock).length ∧
    TextComparator.similarityThreshold.val ≤
      (Difflib.ratio
          (TextComparator.normalizeText ((([⟨0, (0, 0, 0, 0), ofStr "ab", none⟩] :
            List TextComparator.TBlock).getD 0 TextComparator.dfltBlock).text))
          (TextComparator.normalizeText ((([⟨0, (0, 0, 0, 0), ofStr "ab", none⟩] :
            List TextComparator.TBlock).getD 0 TextComparator.dfltBlock).text))).val +
        (if (([⟨0, (0, 0, 0, 0), ofStr "ab", none⟩] :
            List TextComparator.TBlock).getD 0 TextComparator.dfltBlock).sectionType =
            (([⟨0, (0, 0, 0, 0), ofStr "ab", none⟩] :
            List TextComparator.TBlock).getD 0 TextComparator.dfltBlock).sectionType
          then (1 : ℚ) / 10 else 0) :=
  C9_threshold_amended [⟨0, (0, 0, 0, 0), ofStr "ab", none⟩]
    [⟨0, (0, 0, 0, 0), ofStr "ab", none⟩] 0 0 (by decide)

namespace Difflib

variable {α : Type} [DecidableEq α]

/-- The inner DP loop preserves the best-triple and row invariants. -/
theorem flmInner_good (a b : List α) (alo ahi blo bhi i : Nat) (hai : alo ≤ i)
    (hia : i < ahi) (c : α) (hc : a.get? i = some c) (old : Nat → Nat)
    (hold : FlmOld a b alo blo i old) :
    ∀ (js : List Nat) (best : Nat × Nat × Nat) (newRow : Nat → Nat),
      (∀ j ∈ js, b.get? j = some c) →
      FlmBest a b alo ahi blo bhi best →
      FlmRow a b alo blo i newRow →
      FlmBest a b alo ahi blo bhi (flmInner blo bhi i old js (best, newRow)).1 ∧
      FlmRow a b alo blo i (flmInner blo bhi i old js (best, newRow)).2 := by
  intro js
  induction js with
  | nil => intro best newRow _ hb hr; exact ⟨hb, hr⟩
  | cons j js ih =>
    intro best newRow hmem hb hr
    have hmem' : ∀ x ∈ js, b.get? x = some c :=
      fun x hx => hmem x (List.mem_cons_of_mem _ hx)
    by_cases h1 : j < blo
    · have hstep : flmInner blo bhi i old (j :: js) (best, newRow) =
          flmInner blo bhi i old js (best, newRow) := by
        simp only [flmInner, if_pos h1]
      rw [hstep]; exact ih best newRow hmem' hb hr
    · by_cases h2 : bhi ≤ j
      · have hstep : flmInner blo bhi i old (j :: js) (best, newRow) = (best, newRow) := by
          simp only [flmInner, if_neg h1, if_pos h2]
        rw [hstep]; exact ⟨hb, hr⟩
      · obtain ⟨k, hkdef⟩ : ∃ k, (if j = 0 then 0 else old (j - 1)) + 1 = k := ⟨_, rfl⟩
        have hstep : flmInner blo bhi i old (j :: js) (best, newRow) =
            flmInner blo bhi i old js
              ((if best.2.2 < k then (i + 1 - k, j + 1 - k, k) else best),
               fun m => if m = j then k else newRow m) := by
          simp only [flmInner, if_neg h1, if_neg h2]
          rw [hkdef]
        have hblo : blo ≤ j := Nat.le_of_not_lt h1
        have hbhi : j < bhi := Nat.lt_of_not_le h2
        have hkub : k ≤ (i - alo) + 1 := by
          by_cases hj0 : j = 0
          · rw [if_pos hj0] at hkdef; omega
          · rw [if_neg hj0] at hkdef
            have := (hold (j - 1)).1
            omega
        have hk1 : k ≤ i + 1 - alo := by omega
        have hk2 : k ≤ j + 1 - blo := by
          by_cases hj0 : j = 0
          · subst hj0
            rw [if_pos rfl] at hkdef
            omega
          · rw [if_neg hj0] at hkdef
            have := (hold (j - 1)).2.1
            omega
        have hkchain : ∀ d, d < k → a.get? (i - d) = b.get? (j - d) := by
          intro d hd
          cases d with
          | zero =>
            have hbj : b.get? j = some c := hmem j (List.mem_cons_self j js)
            simpa using hc.trans hbj.symm
          | succ e =>
            have hj0 : j ≠ 0 := by
              intro h; rw [if_pos h] at hkdef; omega
            rw [if_neg hj0] at hkdef
            have he : e < old (j - 1) := by omega
            have hch := (hold (j - 1)).2.2 e he
            have e1 : i - (e + 1) = i - 1 - e := by omega
            have e2 : j - (e + 1) = j - 1 - e := by omega
            rw [e1, e2]; exact hch
        have hrow' : FlmRow a b alo blo i (fun m => if m = j then k else newRow m) := by
          intro j0
          by_cases hj : j0 = j
          · subst hj
            simp only [if_pos rfl]
            exact ⟨hk1, hk2, hkchain⟩
          · simp only [if_neg hj]
            exact hr j0
        have hbest' : FlmBest a b alo ahi blo bhi
            (if best.2.2 < k then (i + 1 - k, j + 1 - k, k) else best) := by
          by_cases hlt : best.2.2 < k
          · rw [if_pos hlt]
            refine ⟨?_, ?_, ?_, ?_, ?_⟩
            · show alo ≤ i + 1 - k
              omega
            · show i + 1 - k + k ≤ ahi
              omega
            · show blo ≤ j + 1 - k
              omega
            · show j + 1 - k + k ≤ bhi
              omega
            · intro d hd
              have hd' : d < k := hd
              show a.get? (i + 1 - k + d) = b.get? (j + 1 - k + d)
              have e1 : i + 1 - k + d = i - (k - 1 - d) := by omega
              have e2 : j + 1 - k + d = j - (k - 1 - d) := by omega
              rw [e1, e2]
              exact hkchain (k - 1 - d) (by omega)
          · rw [if_neg hlt]; exact hb
        rw [hstep]
        exact ih _ _ hmem' hbest' hrow'

/-- The outer DP loop preserves the best-triple invariant. -/
theorem flmOuter_good (a b : List α) (alo ahi blo bhi : Nat) :
    ∀ (cnt i : Nat) (best : Nat × Nat × Nat) (row : Nat → Nat),
      alo ≤ i → i + cnt = ahi →
      FlmBest a b alo ahi blo bhi best →
      FlmOld a b alo blo i row →
      FlmBest a b alo ahi blo bhi (flmOuter a b blo bhi i cnt (best, row)) := by
  intro cnt
  induction cnt with
  | zero => intro i best row _ _ hb _; exact hb
  | succ n ih =>
    intro i best row hai hcnt hb hrow
    have hia : i < ahi := by omega
    cases hget : a.get? i with
    | none =>
      have hstep : flmOuter a b blo bhi i (n + 1) (best, row) =
          flmOuter a b blo bhi (i + 1) n (best, fun _ => 0) := by
        simp only [flmOuter, hget]
      rw [hstep]
      exact ih (i + 1) best _ (by omega) (by omega) hb
        (fun j => ⟨Nat.zero_le _, Nat.zero_le _, fun d hd => absurd hd (Nat.not_lt_zero d)⟩)
    | some c =>
      have hmemb : ∀ j ∈ b2j b c, b.get? j = some c := by
        intro j hj
        unfold b2j at hj
        by_cases hp : isPopular b c
        · rw [if_pos hp] at hj
          exact absurd hj (List.not_mem_nil j)
        · rw [if_neg hp] at hj
          have := List.mem_filter.mp hj
          simpa using this.2
      have hinner := flmInner_good a b alo ahi blo bhi i hai hia c hget row hrow
        (b2j b c) best (fun _ => 0) hmemb hb
        (fun j => ⟨Nat.zero_le _, Nat.zero_le _, fun d hd => absurd hd (Nat.not_lt_zero d)⟩)
      have hstep : flmOuter a b blo bhi i (n + 1) (best, row) =
          flmOuter a b blo bhi (i + 1) n
            (flmInner blo bhi i row (b2j b c) (best, fun _ => 0)) := by
        simp only [flmOuter, hget]
      rw [hstep]
      exact ih (i + 1) (flmInner blo bhi i row (b2j b c) (best, fun _ => 0)).1
        (flmInner blo bhi i row (b2j b c) (best, fun _ => 0)).2
        (by omega) (by omega) hinner.1 (fun j => hinner.2 j)

/-- The backward extension loop preserves the best-triple invariant. -/
theorem extendBack_good (a b : List α) (alo ahi blo bhi : Nat) :
    ∀ (bi bj bk : Nat), FlmBest a b alo ahi blo bhi (bi, bj, bk) →
      FlmBest a b alo ahi blo bhi (extendBack a b alo blo bi bj bk) := by
  intro bi
  induction bi with
  | zero => intro bj bk h; exact h
  | succ m ih =>
    intro bj bk h
    by_cases hcond : alo < m + 1 ∧ blo < bj ∧ a.get? m = b.get? (bj - 1)
    · have hstep : extendBack a b alo blo (m + 1) bj bk =
          extendBack a b alo blo m (bj - 1) (bk + 1) := by
        simp only [extendBack, if_pos hcond]
      rw [hstep]
      apply ih
      have h1 : alo ≤ m + 1 := h.1
      have h2 : m + 1 + bk ≤ ahi := h.2.1
      have h3 : blo ≤ bj := h.2.2.1
      have h4 : bj + bk ≤ bhi := h.2.2.2.1
      have h5 : ∀ d, d < bk → a.get? (m + 1 + d) = b.get? (bj + d) := h.2.2.2.2
      obtain ⟨hc1, hc2, hc3⟩ := hcond
      refine ⟨?_, ?_, ?_, ?_, ?_⟩
      · show alo ≤ m
        omega
      · show m + (bk + 1) ≤ ahi
        omega
      · show blo ≤ bj - 1
        omega
      · show bj - 1 + (bk + 1) ≤ bhi
        omega
      · intro d hd
        have hd' : d < bk + 1 := hd
        show a.get? (m + d) = b.get? (bj - 1 + d)
        cases d with
        | zero => simpa using hc3
        | succ e =>
          have e1 : m + (e + 1) = (m + 1) + e := by omega
          have e2 : bj - 1 + (e + 1) = bj + e := by omega
          rw [e1, e2]
          exact h5 e (by omega)
    · have hstep : extendBack a b alo blo (m + 1) bj bk = (m + 1, bj, bk) := by
        simp only [extendBack, if_neg hcond]
      rw [hstep]; exact h

/-- The forward extension loop preserves the best-triple invariant. -/
theorem extendFwdGo_good (a b : List α) (alo ahi blo bhi bi bj : Nat) :
    ∀ (fuel bk : Nat), FlmBest a b alo ahi blo bhi (bi, bj, bk) →
      FlmBest a b alo ahi blo bhi (bi, bj, extendFwdGo a b ahi bhi bi bj fuel bk) := by
  intro fuel
  induction fuel with
  | zero => intro bk h; exact h
  | succ n ih =>
    intro bk h
    by_cases hcond : bi + bk < ahi ∧ bj + bk < bhi ∧ a.get? (bi + bk) = b.get? (bj + bk)
    · have hstep : extendFwdGo a b ahi bhi bi bj (n + 1) bk =
          extendFwdGo a b ahi bhi bi bj n (bk + 1) := by
        simp only [extendFwdGo, if_pos hcond]
      rw [hstep]
      apply ih
      have h1 : alo ≤ bi := h.1
      have h2 : bi + bk ≤ ahi := h.2.1
      have h3 : blo ≤ bj := h.2.2.1
      have h4 : bj + bk ≤ bhi := h.2.2.2.1
      have h5 : ∀ d, d < bk → a.get? (bi + d) = b.get? (bj + d) := h.2.2.2.2
      refine ⟨h1, ?_, h3, ?_, ?_⟩
      · show bi + (bk + 1) ≤ ahi
        omega
      · show bj + (bk + 1) ≤ bhi
        omega
      · intro d hd
        have hd' : d < bk + 1 := hd
        show a.get? (bi + d) = b.get? (bj + d)
        by_cases hdk : d < bk
        · exact h5 d hdk
        · have hdek : d = bk := by omega
          subst hdek
          exact hcond.2.2
    · have hstep : extendFwdGo a b ahi bhi bi bj (n + 1) bk = bk := by
        simp only [extendFwdGo, if_neg hcond]
      rw [hstep]; exact h

/-- `find_longest_match` returns a genuine common run inside the region. -/
theorem findLongestMatch_good (a b : List α) (alo ahi blo bhi : Nat)
    (h1 : alo ≤ ahi) (h2 : blo ≤ bhi) :
    FlmBest a b alo ahi blo bhi (findLongestMatch a b alo ahi blo bhi) := by
  have hdp := flmOuter_good a b alo ahi blo bhi (ahi - alo) alo (alo, blo, 0)
    (fun _ => 0) le_rfl (by omega)
    ⟨le_rfl, show alo + 0 ≤ ahi by omega, le_rfl, show blo + 0 ≤ bhi by omega,
      fun d hd => absurd hd (Nat.not_lt_zero d)⟩
    (fun j => ⟨Nat.zero_le _, Nat.zero_le _, fun d hd => absurd hd (Nat.not_lt_zero d)⟩)
  have hEB := extendBack_good a b alo ahi blo bhi
    (flmOuter a b blo bhi alo (ahi - alo) ((alo, blo, 0), fun _ => 0)).1
    (flmOuter a b blo bhi alo (ahi - alo) ((alo, blo, 0), fun _ => 0)).2.1
    (flmOuter a b blo bhi alo (ahi - alo) ((alo, blo, 0), fun _ => 0)).2.2 hdp
  have hFwd := extendFwdGo_good a b alo ahi blo bhi
    (extendBack a b alo blo
      (flmOuter a b blo bhi alo (ahi - alo) ((alo, blo, 0), fun _ => 0)).1
      (flmOuter a b blo bhi alo (ahi - alo) ((alo, blo, 0), fun _ => 0)).2.1
      (flmOuter a b blo bhi alo (ahi - alo) ((alo, blo, 0), fun _ => 0)).2.2).1
    (extendBack a b alo blo
      (flmOuter a b blo bhi alo (ahi - alo) ((alo, blo, 0), fun _ => 0)).1
      (flmOuter a b blo bhi alo (ahi - alo) ((alo, blo, 0), fun _ => 0)).2.1
      (flmOuter a b blo bhi alo (ahi - alo) ((alo, blo, 0), fun _ => 0)).2.2).2.1
    (ahi - ((extendBack a b alo blo
      (flmOuter a b blo bhi alo (ahi - alo) ((alo, blo, 0), fun _ => 0)).1
      (flmOuter a b blo bhi alo (ahi - alo) ((alo, blo, 0), fun _ => 0)).2.1
      (flmOuter a b blo bhi alo (ahi - alo) ((alo, blo, 0), fun _ => 0)).2.2).1 +
      (extendBack a b alo blo
      (flmOuter a b blo bhi alo (ahi - alo) ((alo, blo, 0), fun _ => 0)).1
      (flmOuter a b blo bhi alo (ahi - alo) ((alo, blo, 0), fun _ => 0)).2.1
      (flmOuter a b blo bhi alo (ahi - alo) ((alo, blo, 0), fun _ => 0)).2.2).2.2))
    (extendBack a b alo blo
      (flmOuter a b blo bhi alo (ahi - alo) ((alo, blo, 0), fun _ => 0)).1
      (flmOuter a b blo bhi alo (ahi - alo) ((alo, blo, 0), fun _ => 0)).2.1
      (flmOuter a b blo bhi alo (ahi - alo) ((alo, blo, 0), fun _ => 0)).2.2).2.2 hEB
  exact hFwd

end Difflib

namespace Difflib

variable {α : Type} [DecidableEq α]

/-- The sizes collected from a region sum to at most the region's `a`-width. -/
theorem mba_sum_a (a b : List α) :
    ∀ (fuel alo ahi blo bhi : Nat), alo ≤ ahi → blo ≤ bhi →
      ((matchBlocksAux a b fuel alo ahi blo bhi).map (fun t => t.2.2)).sum ≤
        ahi - alo := by
  intro fuel
  induction fuel with
  | zero => intro alo ahi blo bhi _ _; simp [matchBlocksAux]
  | succ n ih =>
    intro alo ahi blo bhi hab hbb
    obtain ⟨hg1, hg2, hg3, hg4, _⟩ := findLongestMatch_good a b alo ahi blo bhi hab hbb
    by_cases hz : (findLongestMatch a b alo ahi blo bhi).2.2 = 0
    · simp [matchBlocksAux, hz]
    · have hstep : matchBlocksAux a b (n + 1) alo ahi blo bhi =
          (if alo < (findLongestMatch a b alo ahi blo bhi).1 ∧
              blo < (findLongestMatch a b alo ahi blo bhi).2.1 then
            matchBlocksAux a b n alo (findLongestMatch a b alo ahi blo bhi).1 blo
              (findLongestMatch a b alo ahi blo bhi).2.1 else []) ++
          (findLongestMatch a b alo ahi blo bhi) ::
          (if (findLongestMatch a b alo ahi blo bhi).1 +
                (findLongestMatch a b alo ahi blo bhi).2.2 < ahi ∧
              (findLongestMatch a b alo ahi blo bhi).2.1 +
                (findLongestMatch a b alo ahi blo bhi).2.2 < bhi then
            matchBlocksAux a b n
              ((findLongestMatch a b alo ahi blo bhi).1 +
                (findLongestMatch a b alo ahi blo bhi).2.2) ahi
              ((findLongestMatch a b alo ahi blo bhi).2.1 +
                (findLongestMatch a b alo ahi blo bhi).2.2) bhi else []) := by
        simp only [matchBlocksAux, if_neg hz]
      rw [hstep]
      rw [List.map_append, List.sum_append, List.map_cons, List.sum_cons]
      have hL : ((if alo < (findLongestMatch a b alo ahi blo bhi).1 ∧
            blo < (findLongestMatch a b alo ahi blo bhi).2.1 then
          matchBlocksAux a b n alo (findLongestMatch a b alo ahi blo bhi).1 blo
            (findLongestMatch a b alo ahi blo bhi).2.1 else []).map
          (fun t => t.2.2)).sum ≤ (findLongestMatch a b alo ahi blo bhi).1 - alo := by
        by_cases hgl : alo < (findLongestMatch a b alo ahi blo bhi).1 ∧
            blo < (findLongestMatch a b alo ahi blo bhi).2.1
        · rw [if_pos hgl]
          exact ih alo _ blo _ (by omega) (by omega)
        · rw [if_neg hgl]; simp
      have hR : ((if (findLongestMatch a b alo ahi blo bhi).1 +
              (findLongestMatch a b alo ahi blo bhi).2.2 < ahi ∧
            (findLongestMatch a b alo ahi blo bhi).2.1 +
              (findLongestMatch a b alo ahi blo bhi).2.2 < bhi then
          matchBlocksAux a b n
            ((findLongestMatch a b alo ahi blo bhi).1 +
              (findLongestMatch a b alo ahi blo bhi).2.2) ahi
            ((findLongestMatch a b alo ahi blo bhi).2.1 +
              (findLongestMatch a b alo ahi blo bhi).2.2) bhi else []).map
          (fun t => t.2.2)).sum ≤
          ahi - ((findLongestMatch a b alo ahi blo bhi).1 +
            (findLongestMatch a b alo ahi blo bhi).2.2) := by
        by_cases hgr : (findLongestMatch a b alo ahi blo bhi).1 +
              (findLongestMatch a b alo ahi blo bhi).2.2 < ahi ∧
            (findLongestMatch a b alo ahi blo bhi).2.1 +
              (findLongestMatch a b alo ahi blo bhi).2.2 < bhi
        · rw [if_pos hgr]
          exact ih _ ahi _ bhi (by omega) (by omega)
        · rw [if_neg hgr]; simp
      omega

/-- The sizes collected from a region sum to at most the region's `b`-width. -/
theorem mba_sum_b (a b : List α) :
    ∀ (fuel alo ahi blo bhi : Nat), alo ≤ ahi → blo ≤ bhi →
      ((matchBlocksAux a b fuel alo ahi blo bhi).map (fun t => t.2.2)).sum ≤
        bhi - blo := by
  intro fuel
  induction fuel with
  | zero => intro alo ahi blo bhi _ _; simp [matchBlocksAux]
  | succ n ih =>
    intro alo ahi blo bhi hab hbb
    obtain ⟨hg1, hg2, hg3, hg4, _⟩ := findLongestMatch_good a b alo ahi blo bhi hab hbb
    by_cases hz : (findLongestMatch a b alo ahi blo bhi).2.2 = 0
    · simp [matchBlocksAux, hz]
    · have hstep : matchBlocksAux a b (n + 1) alo ahi blo bhi =
          (if alo < (findLongestMatch a b alo ahi blo bhi).1 ∧
              blo < (findLongestMatch a b alo ahi blo bhi).2.1 then
            matchBlocksAux a b n alo (findLongestMatch a b alo ahi blo bhi).1 blo
              (findLongestMatch a b alo ahi blo bhi).2.1 else []) ++
          (findLongestMatch a b alo ahi blo bhi) ::
          (if (findLongestMatch a b alo ahi blo bhi).1 +
                (findLongestMatch a b alo ahi blo bhi).2.2 < ahi ∧
              (findLongestMatch a b alo ahi blo bhi).2.1 +
                (findLongestMatch a b alo ahi blo bhi).2.2 < bhi then
            matchBlocksAux a b n
              ((findLongestMatch a b alo ahi blo bhi).1 +
                (findLongestMatch a b alo ahi blo bhi).2.2) ahi
              ((findLongestMatch a b alo ahi blo bhi).2.1 +
                (findLongestMatch a b alo ahi blo bhi).2.2) bhi else []) := by
        simp only [matchBlocksAux, if_neg hz]
      rw [hstep]
      rw [List.map_append, List.sum_append, List.map_cons, List.sum_cons]
      have hL : ((if alo < (findLongestMatch a b alo ahi blo bhi).1 ∧
            blo < (findLongestMatch a b alo ahi blo bhi).2.1 then
          matchBlocksAux a b n alo (findLongestMatch a b alo ahi blo bhi).1 blo
            (findLongestMatch a b alo ahi blo bhi).2.1 else []).map
          (fun t => t.2.2)).sum ≤ (findLongestMatch a b alo ahi blo bhi).2.1 - blo := by
        by_cases hgl : alo < (findLongestMatch a b alo ahi blo bhi).1 ∧
            blo < (findLongestMatch a b alo ahi blo bhi).2.1
        · rw [if_pos hgl]
          exact ih alo _ blo _ (by omega) (by omega)
        · rw [if_neg hgl]; simp
      have hR : ((if (findLongestMatch a b alo ahi blo bhi).1 +
              (findLongestMatch a b alo ahi blo bhi).2.2 < ahi ∧
            (findLongestMatch a b alo ahi blo bhi).2.1 +
              (findLongestMatch a b alo ahi blo bhi).2.2 < bhi then
          matchBlocksAux a b n
            ((findLongestMatch a b alo ahi blo bhi).1 +
              (findLongestMatch a b alo ahi blo bhi).2.2) ahi
            ((findLongestMatch a b alo ahi blo bhi).2.1 +
              (findLongestMatch a b alo ahi blo bhi).2.2) bhi else []).map
          (fun t => t.2.2)).sum ≤
          bhi - ((findLongestMatch a b alo ahi blo bhi).2.1 +
            (findLongestMatch a b alo ahi blo bhi).2.2) := by
        by_cases hgr : (findLongestMatch a b alo ahi blo bhi).1 +
              (findLongestMatch a b alo ahi blo bhi).2.2 < ahi ∧
            (findLongestMatch a b alo ahi blo bhi).2.1 +
              (findLongestMatch a b alo ahi blo bhi).2.2 < bhi
        · rw [if_pos hgr]
          exact ih _ ahi _ bhi (by omega) (by omega)
        · rw [if_neg hgr]; simp
      omega

end Difflib

namespace Difflib

variable {α : Type} [DecidableEq α]

/-- If the collected sizes exhaust both sides of a region, the region is a
pointwise-equal pair of segments. -/
theorem mba_cover (a b : List α) :
    ∀ (fuel alo ahi blo bhi : Nat), alo ≤ ahi → blo ≤ bhi →
      ((matchBlocksAux a b fuel alo ahi blo bhi).map (fun t => t.2.2)).sum =
        ahi - alo →
      ((matchBlocksAux a b fuel alo ahi blo bhi).map (fun t => t.2.2)).sum =
        bhi - blo →
      ∀ d, d < ahi - alo → a.get? (alo + d) = b.get? (blo + d) := by
  intro fuel
  induction fuel with
  | zero =>
    intro alo ahi blo bhi _ _ hSa _ d hd
    simp [matchBlocksAux] at hSa
    omega
  | succ n ih =>
    intro alo ahi blo bhi hab hbb hSa hSb d hd
    obtain ⟨⟨xi, xj, xk⟩, hx⟩ : ∃ t, findLongestMatch a b alo ahi blo bhi = t := ⟨_, rfl⟩
    have hgood := findLongestMatch_good a b alo ahi blo bhi hab hbb
    rw [hx] at hgood
    have hg1 : alo ≤ xi := hgood.1
    have hg2 : xi + xk ≤ ahi := hgood.2.1
    have hg3 : blo ≤ xj := hgood.2.2.1
    have hg4 : xj + xk ≤ bhi := hgood.2.2.2.1
    have hg5 : ∀ e, e < xk → a.get? (xi + e) = b.get? (xj + e) := hgood.2.2.2.2
    by_cases hz : xk = 0
    · have hstep : matchBlocksAux a b (n + 1) alo ahi blo bhi = [] := by
        simp [matchBlocksAux, hx, hz]
      rw [hstep] at hSa
      simp at hSa
      omega
    · have hstep : matchBlocksAux a b (n + 1) alo ahi blo bhi =
          (if alo < xi ∧ blo < xj then matchBlocksAux a b n alo xi blo xj else []) ++
          (xi, xj, xk) ::
          (if xi + xk < ahi ∧ xj + xk < bhi then
            matchBlocksAux a b n (xi + xk) ahi (xj + xk) bhi else []) := by
        simp only [matchBlocksAux, hx]
        rw [if_neg hz]
      rw [hstep] at hSa hSb
      simp only [List.map_append, List.sum_append, List.map_cons, List.sum_cons] at hSa hSb
      obtain ⟨SL, hSLdef⟩ : ∃ s,
          ((if alo < xi ∧ blo < xj then matchBlocksAux a b n alo xi blo xj
            else []).map (fun t => t.2.2)).sum = s := ⟨_, rfl⟩
      obtain ⟨SR, hSRdef⟩ : ∃ s,
          ((if xi + xk < ahi ∧ xj + xk < bhi then
            matchBlocksAux a b n (xi + xk) ahi (xj + xk) bhi
            else []).map (fun t => t.2.2)).sum = s := ⟨_, rfl⟩
      rw [hSLdef, hSRdef] at hSa hSb
      have hSL1 : SL ≤ xi - alo := by
        by_cases hgl : alo < xi ∧ blo < xj
        · rw [if_pos hgl] at hSLdef
          rw [← hSLdef]
          exact mba_sum_a a b n alo xi blo xj (by omega) (by omega)
        · rw [if_neg hgl] at hSLdef
          simp at hSLdef
          omega
      have hSL2 : SL ≤ xj - blo := by
        by_cases hgl : alo < xi ∧ blo < xj
        · rw [if_pos hgl] at hSLdef
          rw [← hSLdef]
          exact mba_sum_b a b n alo xi blo xj (by omega) (by omega)
        · rw [if_neg hgl] at hSLdef
          simp at hSLdef
          omega
      have hSR1 : SR ≤ ahi - (xi + xk) := by
        by_cases hgr : xi + xk < ahi ∧ xj + xk < bhi
        · rw [if_pos hgr] at hSRdef
          rw [← hSRdef]
          exact mba_sum_a a b n (xi + xk) ahi (xj + xk) bhi (by omega) (by omega)
        · rw [if_neg hgr] at hSRdef
          simp at hSRdef
          omega
      have hSR2 : SR ≤ bhi - (xj + xk) := by
        by_cases hgr : xi + xk < ahi ∧ xj + xk < bhi
        · rw [if_pos hgr] at hSRdef
          rw [← hSRdef]
          exact mba_sum_b a b n (xi + xk) ahi (xj + xk) bhi (by omega) (by omega)
        · rw [if_neg hgr] at hSRdef
          simp at hSRdef
          omega
      have hfL1 : SL = xi - alo := by omega
      have hfL2 : SL = xj - blo := by omega
      have hfR1 : SR = ahi - (xi + xk) := by omega
      have hfR2 : SR = bhi - (xj + xk) := by omega
      have hcovL : ∀ e, e < xi - alo → a.get? (alo + e) = b.get? (blo + e) := by
        by_cases hgl : alo < xi ∧ blo < xj
        · rw [if_pos hgl] at hSLdef
          exact ih alo xi blo xj (by omega) (by omega)
            (hSLdef.trans hfL1) (hSLdef.trans hfL2)
        · intro e he
          rw [if_neg hgl] at hSLdef
          simp at hSLdef
          omega
      have hcovR : ∀ e, e < ahi - (xi + xk) →
          a.get? (xi + xk + e) = b.get? (xj + xk + e) := by
        by_cases hgr : xi + xk < ahi ∧ xj + xk < bhi
        · rw [if_pos hgr] at hSRdef
          exact ih (xi + xk) ahi (xj + xk) bhi (by omega) (by omega)
            (hSRdef.trans hfR1) (hSRdef.trans hfR2)
        · intro e he
          rw [if_neg hgr] at hSRdef
          simp at hSRdef
          omega
      by_cases hd1 : d < xi - alo
      · exact hcovL d hd1
      · by_cases hd2 : d < (xi - alo) + xk
        · have e1 : alo + d = xi + (d - (xi - alo)) := by omega
          have e2 : blo + d = xj + (d - (xi - alo)) := by omega
          rw [e1, e2]
          exact hg5 _ (by omega)
        · have e1 : alo + d = (xi + xk) + (d - (xi - alo) - xk) := by omega
          have e2 : blo + d = (xj + xk) + (d - (xi - alo) - xk) := by omega
          rw [e1, e2]
          exact hcovR _ (by omega)

end Difflib

namespace Difflib

variable {α : Type} [DecidableEq α]

/-- Merging adjacent blocks preserves the total matched size. -/
theorem nonAdjacentGo_sum :
    ∀ (l : List (Nat × Nat × Nat)) (i j k : Nat),
      ((nonAdjacentGo (i, j, k) l).map (fun t => t.2.2)).sum =
        k + (l.map (fun t => t.2.2)).sum := by
  intro l
  induction l with
  | nil =>
    intro i j k
    by_cases hk : k ≠ 0
    · simp [nonAdjacentGo, hk]
    · simp only [nonAdjacentGo, if_neg hk]
      simp
      omega
  | cons hd rest ih =>
    obtain ⟨i2, j2, k2⟩ := hd
    intro i j k
    by_cases hm : i + k = i2 ∧ j + k = j2
    · have hstep : nonAdjacentGo (i, j, k) ((i2, j2, k2) :: rest) =
          nonAdjacentGo (i, j, k + k2) rest := by
        simp only [nonAdjacentGo, if_pos hm]
      rw [hstep, ih]
      simp
      omega
    · by_cases hk : k ≠ 0
      · have hstep : nonAdjacentGo (i, j, k) ((i2, j2, k2) :: rest) =
            (i, j, k) :: nonAdjacentGo (i2, j2, k2) rest := by
          simp only [nonAdjacentGo, if_neg hm, if_pos hk]
        rw [hstep]
        simp only [List.map_cons, List.sum_cons, ih]
      · have hstep : nonAdjacentGo (i, j, k) ((i2, j2, k2) :: rest) =
            nonAdjacentGo (i2, j2, k2) rest := by
          simp only [nonAdjacentGo, if_neg hm, if_neg hk]
        rw [hstep, ih]
        simp
        omega

/-- `matchesTotal` equals the size sum of the raw (unmerged) blocks. -/
theorem matchesTotal_eq_core (a b : List α) :
    matchesTotal a b = ((matchingBlocksCore a b).map (fun t => t.2.2)).sum := by
  unfold matchesTotal getMatchingBlocks
  rw [List.map_append, List.sum_append, nonAdjacentGo_sum]
  simp

/-- `matches <= len(a)`. -/
theorem matchesTotal_le_a (a b : List α) : matchesTotal a b ≤ a.length := by
  rw [matchesTotal_eq_core]
  unfold matchingBlocksCore
  simpa using mba_sum_a a b a.length 0 a.length 0 b.length (by omega) (by omega)

/-- `matches <= len(b)`. -/
theorem matchesTotal_le_b (a b : List α) : matchesTotal a b ≤ b.length := by
  rw [matchesTotal_eq_core]
  unfold matchingBlocksCore
  simpa using mba_sum_b a b a.length 0 a.length 0 b.length (by omega) (by omega)

/-- A perfect match total forces the two sequences to be equal. -/
theorem matchesTotal_full (a b : List α)
    (h : 2 * matchesTotal a b = a.length + b.length) : a = b := by
  have h1 := matchesTotal_le_a a b
  have h2 := matchesTotal_le_b a b
  have hA : ((matchingBlocksCore a b).map (fun t => t.2.2)).sum = a.length - 0 := by
    rw [← matchesTotal_eq_core]
    omega
  have hB : ((matchingBlocksCore a b).map (fun t => t.2.2)).sum = b.length - 0 := by
    rw [← matchesTotal_eq_core]
    omega
  have hcov := mba_cover a b a.length 0 a.length 0 b.length (by omega) (by omega) hA hB
  have hlen : b.length = a.length := by omega
  apply List.ext_get?
  intro n
  by_cases hn : n < a.length
  · simpa using hcov n (by omega)
  · rw [List.get?_eq_none.mpr (by omega), List.get?_eq_none.mpr (by omega)]

/-- `ratio()` never exceeds `1.0`. -/
theorem ratio_val_le_one (a b : List α) : (ratio a b).val ≤ 1 := by
  unfold ratio calculateRatio
  by_cases h : a.length + b.length ≠ 0
  · rw [if_pos h]
    have hm : 2 * matchesTotal a b ≤ a.length + b.length := by
      have := matchesTotal_le_a a b
      have := matchesTotal_le_b a b
      omega
    show ((2 * matchesTotal a b : Nat) : Int) / ((a.length + b.length : Nat) : ℚ) ≤ 1
    rw [div_le_one (by exact_mod_cast Nat.pos_of_ne_zero h)]
    exact_mod_cast hm
  · rw [if_neg h]
    norm_num [PyFloat.Frac.val]

/-- For distinct sequences `ratio()` is strictly below `1.0`. -/
theorem ratio_val_lt_one (a b : List α) (hne : a ≠ b) : (ratio a b).val < 1 := by
  unfold ratio calculateRatio
  by_cases h : a.length + b.length ≠ 0
  · rw [if_pos h]
    have hm : 2 * matchesTotal a b ≤ a.length + b.length := by
      have := matchesTotal_le_a a b
      have := matchesTotal_le_b a b
      omega
    have hm' : 2 * matchesTotal a b ≠ a.length + b.length :=
      fun hc => hne (matchesTotal_full a b hc)
    show ((2 * matchesTotal a b : Nat) : Int) / ((a.length + b.length : Nat) : ℚ) < 1
    rw [div_lt_one (by exact_mod_cast Nat.pos_of_ne_zero h)]
    exact_mod_cast by omega
  · exfalso
    apply hne
    have ha : a.length = 0 := by omega
    have hb : b.length = 0 := by omega
    rw [List.length_eq_zero.mp ha, List.length_eq_zero.mp hb]

end Difflib

namespace Difflib

variable {α : Type} [DecidableEq α]

/-- The self-comparison cell condition is symmetric. -/
theorem selfCond_symm (a : List α) (i j : Nat) : selfCond a i j = selfCond a j i := by
  unfold selfCond
  cases hgi : a.get? i with
  | none =>
    cases hgj : a.get? j with
    | none => rfl
    | some cj => rfl
  | some ci =>
    cases hgj : a.get? j with
    | none => rfl
    | some cj =>
      by_cases hc : ci = cj
      · subst hc; rfl
      · simp [hc, Ne.symm hc]

/-- A hit in row `i` forces the diagonal cell of row `i` to be a hit. -/
theorem selfCond_diag (a : List α) (i j : Nat) (h : selfCond a i j = true) :
    selfCond a i i = true := by
  unfold selfCond at h ⊢
  cases hgi : a.get? i with
  | none =>
    rw [hgi] at h
    cases hgj : a.get? j with
    | none => rw [hgj] at h; simp at h
    | some cj => rw [hgj] at h; simp at h
  | some ci =>
    rw [hgi] at h
    cases hgj : a.get? j with
    | none => rw [hgj] at h; simp at h
    | some cj =>
      rw [hgj] at h
      simp only [Bool.and_eq_true, decide_eq_true_eq] at h
      simp [h.2]

/-- A hit is within bounds on the column side. -/
theorem selfCond_lt (a : List α) (i j : Nat) (h : selfCond a i j = true) :
    j < a.length := by
  unfold selfCond at h
  cases hgi : a.get? i with
  | none =>
    rw [hgi] at h
    cases hgj : a.get? j with
    | none => rw [hgj] at h; simp at h
    | some cj => rw [hgj] at h; simp at h
  | some ci =>
    rw [hgi] at h
    cases hgj : a.get? j with
    | none => rw [hgj] at h; simp at h
    | some cj =>
      by_contra hn
      rw [List.get?_eq_none.mpr (by omega)] at hgj
      exact absurd hgj (by simp)

end Difflib

namespace Difflib

variable {α : Type} [DecidableEq α]

/-- A missed cell stores `0`. -/
theorem cellv_of_miss (a : List α) (i j : Nat) (h : ¬ selfCond a i j = true) :
    cellv a i j = 0 := by
  cases i with
  | zero => simp only [cellv]; rw [if_neg h]
  | succ m => simp only [cellv]; rw [if_neg h]

/-- A chain through cell `(i, j)` has length at most `i + 1`. -/
theorem cellv_le_succ (a : List α) : ∀ (i j : Nat), cellv a i j ≤ i + 1 := by
  intro i
  induction i with
  | zero =>
    intro j
    by_cases h : selfCond a 0 j = true
    · simp only [cellv]; rw [if_pos h]
    · rw [cellv_of_miss a 0 j h]; omega
  | succ m ih =>
    intro j
    by_cases h : selfCond a (m + 1) j = true
    · cases j with
      | zero => simp only [cellv]; rw [if_pos h]; omega
      | succ j' =>
        have hv : cellv a (m + 1) (j' + 1) = cellv a m j' + 1 := by
          simp only [cellv]; rw [if_pos h]
        rw [hv]
        exact Nat.succ_le_succ (ih j')
    · rw [cellv_of_miss a (m + 1) j h]; omega

/-- Within a row, no cell exceeds the diagonal cell. -/
theorem cellv_le_diag (a : List α) : ∀ (i j : Nat), cellv a i j ≤ cellv a i i := by
  intro i
  induction i with
  | zero =>
    intro j
    by_cases h : selfCond a 0 j = true
    · have hd := selfCond_diag a 0 j h
      simp only [cellv]
      rw [if_pos h, if_pos hd]
    · rw [cellv_of_miss a 0 j h]; omega
  | succ m ih =>
    intro j
    by_cases h : selfCond a (m + 1) j = true
    · have hd := selfCond_diag a (m + 1) j h
      have hdd : cellv a (m + 1) (m + 1) = cellv a m m + 1 := by
        simp only [cellv]; rw [if_pos hd]
      rw [hdd]
      cases j with
      | zero =>
        have hv : cellv a (m + 1) 0 = 1 := by
          simp only [cellv]; rw [if_pos h]
        rw [hv]; omega
      | succ j' =>
        have hv : cellv a (m + 1) (j' + 1) = cellv a m j' + 1 := by
          simp only [cellv]; rw [if_pos h]
        rw [hv]
        exact Nat.succ_le_succ (ih j')
    · rw [cellv_of_miss a (m + 1) j h]; omega

/-- The chain table is symmetric for a self comparison. -/
theorem cellv_symm (a : List α) : ∀ (i j : Nat), cellv a i j = cellv a j i := by
  intro i
  induction i with
  | zero =>
    intro j
    cases j with
    | zero => rfl
    | succ j' =>
      simp only [cellv, selfCond_symm a 0 (j' + 1)]
  | succ m ih =>
    intro j
    cases j with
    | zero =>
      simp only [cellv, selfCond_symm a (m + 1) 0]
    | succ j' =>
      simp only [cellv, selfCond_symm a (m + 1) (j' + 1), ih j']

end Difflib

namespace Difflib

variable {α : Type} [DecidableEq α]

/-- `b2j` membership for a self comparison is exactly the cell condition. -/
theorem b2j_self_mem (a : List α) (i : Nat) (c : α) (hc : a.get? i = some c)
    (j : Nat) : j ∈ b2j a c ↔ selfCond a i j = true := by
  unfold b2j
  by_cases hp : isPopular a c
  · rw [if_pos hp]
    simp only [List.not_mem_nil, false_iff]
    intro h
    unfold selfCond at h
    rw [hc] at h
    cases hgj : a.get? j with
    | none => rw [hgj] at h; simp at h
    | some cj =>
      rw [hgj] at h
      simp only [Bool.and_eq_true, decide_eq_true_eq, Bool.not_eq_eq_eq_not,
        Bool.not_true] at h
      rw [h.2] at hp
      exact absurd hp (by simp)
  · rw [if_neg hp]
    rw [List.mem_filter, List.mem_range]
    unfold selfCond
    rw [hc]
    cases hgj : a.get? j with
    | none =>
      constructor
      · rintro ⟨hjl, hjc⟩
        simp at hjc
      · intro h
        simp at h
    | some cj =>
      constructor
      · rintro ⟨hjl, hjc⟩
        simp only [decide_eq_true_eq, Option.some.injEq] at hjc
        simp only [Bool.and_eq_true, decide_eq_true_eq]
        exact ⟨hjc.symm, by simpa using hp⟩
      · intro h
        simp only [Bool.and_eq_true, decide_eq_true_eq] at h
        have hjl : j < a.length := by
          by_contra hn
          rw [List.get?_eq_none.mpr (by omega)] at hgj
          exact absurd hgj (by simp)
        exact ⟨hjl, by simp [h.1]⟩

end Difflib

namespace Difflib

variable {α : Type} [DecidableEq α]

/-- The `k` computed by the inner loop at a hit cell equals the chain-table
value of that cell. -/
theorem cellv_step (a : List α) (i j : Nat) (hsc : selfCond a i j = true)
    (old : Nat → Nat) (hold : ∀ x, old x = prevRowFun a i x) :
    (if j = 0 then 0 else old (j - 1)) + 1 = cellv a i j := by
  cases i with
  | zero =>
    have h0 : cellv a 0 j = 1 := by
      simp only [cellv]; rw [if_pos hsc]
    rw [h0]
    by_cases hj0 : j = 0
    · rw [if_pos hj0]
    · rw [if_neg hj0, hold (j - 1)]
      rfl
  | succ i' =>
    cases j with
    | zero =>
      have h0 : cellv a (i' + 1) 0 = 1 := by
        simp only [cellv]; rw [if_pos hsc]
      rw [h0, if_pos rfl]
    | succ j' =>
      have h0 : cellv a (i' + 1) (j' + 1) = cellv a i' j' + 1 := by
        simp only [cellv]; rw [if_pos hsc]
      rw [h0, if_neg (Nat.succ_ne_zero j'), hold (j' + 1 - 1)]
      simp [prevRowFun]

/-- Processing one row of the self-comparison DP keeps the best triple on the
diagonal: every off-diagonal candidate is dominated either by the diagonal
cell of its own row (already passed when scanning left to right) or, via
symmetry of the chain table, by the diagonal of an earlier row. -/
theorem flmInner_self (a : List α) (n i : Nat) (hn : n = a.length) (hi : i < n)
    (old : Nat → Nat) (hold : ∀ j, old j = prevRowFun a i j) :
    ∀ (js : List Nat) (best : Nat × Nat × Nat) (newRow : Nat → Nat),
      (∀ j ∈ js, selfCond a i j = true) →
      js.Pairwise (· < ·) →
      (∀ j, j ∈ js ∨ newRow j = cellv a i j) →
      (∃ d s, best = (d, d, s) ∧ d + s ≤ n) →
      (∀ m, m < i → cellv a m m ≤ best.2.2) →
      (i ∈ js ∨ cellv a i i ≤ best.2.2) →
      (∃ d s, (flmInner 0 n i old js (best, newRow)).1 = (d, d, s) ∧ d + s ≤ n) ∧
      (∀ m, m < i + 1 → cellv a m m ≤ (flmInner 0 n i old js (best, newRow)).1.2.2) ∧
      (∀ j, (flmInner 0 n i old js (best, newRow)).2 j = cellv a i j) := by
  intro js
  induction js with
  | nil =>
    intro best newRow _ _ hnew hbest ho2 hdiag
    refine ⟨hbest, ?_, ?_⟩
    · intro m hm
      by_cases hmi : m < i
      · exact ho2 m hmi
      · have hmi' : m = i := by omega
        subst hmi'
        rcases hdiag with hin | hle
        · exact absurd hin (List.not_mem_nil m)
        · exact hle
    · intro j
      rcases hnew j with hin | heq
      · exact absurd hin (List.not_mem_nil j)
      · exact heq
  | cons j js ih =>
    intro best newRow hsub hsort hnew hbest ho2 hdiag
    obtain ⟨D, S, hbeq, hDS⟩ := hbest
    subst hbeq
    have hscj : selfCond a i j = true := hsub j (List.mem_cons_self j js)
    have hjn : j < n := by rw [hn]; exact selfCond_lt a i j hscj
    obtain ⟨hjlt, hsort'⟩ := List.pairwise_cons.mp hsort
    have hsub' : ∀ x ∈ js, selfCond a i x = true :=
      fun x hx => hsub x (List.mem_cons_of_mem _ hx)
    obtain ⟨k, hkdef⟩ : ∃ k, (if j = 0 then 0 else old (j - 1)) + 1 = k := ⟨_, rfl⟩
    have hstep : flmInner 0 n i old (j :: js) ((D, D, S), newRow) =
        flmInner 0 n i old js
          ((if (D, D, S).2.2 < k then (i + 1 - k, j + 1 - k, k) else (D, D, S)),
           fun m => if m = j then k else newRow m) := by
      simp only [flmInner, if_neg (Nat.not_lt_zero j), if_neg (show ¬ n ≤ j by omega)]
      rw [hkdef]
    have hk : k = cellv a i j := by
      rw [← hkdef]
      exact cellv_step a i j hscj old hold
    have hnew' : ∀ j0, j0 ∈ js ∨ (fun m => if m = j then k else newRow m) j0 = cellv a i j0 := by
      intro j0
      by_cases hj0 : j0 = j
      · subst hj0
        right
        simp only [if_pos rfl]
        exact hk
      · rcases hnew j0 with hin | heq
        · rcases List.mem_cons.mp hin with h0 | h0
          · exact absurd h0 hj0
          · exact Or.inl h0
        · right
          simp only [if_neg hj0]
          exact heq
    by_cases hlt : S < k
    · have hlt' : (D, D, S).2.2 < k := hlt
      rw [hstep, if_pos hlt']
      have hji : j = i := by
        rcases Nat.lt_trichotomy j i with h2 | h2 | h2
        · exfalso
          have e1 : cellv a i j = cellv a j i := cellv_symm a i j
          have e2 : cellv a j i ≤ cellv a j j := cellv_le_diag a j i
          have e3 : cellv a j j ≤ S := ho2 j h2
          omega
        · exact h2
        · exfalso
          have hnin : ¬ i ∈ j :: js := by
            intro hin
            rcases List.mem_cons.mp hin with h0 | h0
            · omega
            · have := hjlt i h0; omega
          rcases hdiag with hin | hle
          · exact hnin hin
          · have e2 : cellv a i j ≤ cellv a i i := cellv_le_diag a i j
            omega
      subst hji
      have hkj : k ≤ j + 1 := hk ▸ cellv_le_succ a j j
      apply ih
      · exact hsub'
      · exact hsort'
      · exact hnew'
      · exact ⟨j + 1 - k, k, rfl, by omega⟩
      · intro m hm
        have := ho2 m hm
        show cellv a m m ≤ k
        omega
      · right
        show cellv a j j ≤ k
        omega
    · have hlt' : ¬ (D, D, S).2.2 < k := hlt
      rw [hstep, if_neg hlt']
      apply ih
      · exact hsub'
      · exact hsort'
      · exact hnew'
      · exact ⟨D, S, rfl, hDS⟩
      · exact ho2
      · rcases hdiag with hin | hle
        · rcases List.mem_cons.mp hin with h0 | h0
          · right
            have hcell : k = cellv a i i := by rw [hk, ← h0]
            show cellv a i i ≤ S
            omega
          · exact Or.inl h0
        · exact Or.inr hle
end Difflib

namespace Difflib

variable {α : Type} [DecidableEq α]

/-- The whole self-comparison DP returns a diagonal best triple. -/
theorem flmOuter_self (a : List α) (n : Nat) (hn : n = a.length) :
    ∀ (cnt i : Nat) (best : Nat × Nat × Nat) (row : Nat → Nat),
      i + cnt = n →
      (∀ j, row j = prevRowFun a i j) →
      (∃ d s, best = (d, d, s) ∧ d + s ≤ n) →
      (∀ m, m < i → cellv a m m ≤ best.2.2) →
      ∃ d s, flmOuter a a 0 n i cnt (best, row) = (d, d, s) ∧ d + s ≤ n := by
  intro cnt
  induction cnt with
  | zero => intro i best row _ _ hb _; exact hb
  | succ m ih =>
    intro i best row hcnt hrow hb ho2
    have hi : i < n := by omega
    have hil : i < a.length := by omega
    obtain ⟨c, hget⟩ : ∃ c, a.get? i = some c :=
      ⟨a.get ⟨i, hil⟩, List.get?_eq_get hil⟩
    have hsub : ∀ j ∈ b2j a c, selfCond a i j = true :=
      fun j hj => (b2j_self_mem a i c hget j).mp hj
    have hsort : (b2j a c).Pairwise (· < ·) := by
      unfold b2j
      by_cases hp : isPopular a c
      · rw [if_pos hp]; exact List.Pairwise.nil
      · rw [if_neg hp]
        exact (List.pairwise_lt_range _).filter _
    have hnew0 : ∀ j, j ∈ b2j a c ∨ (fun _ => (0 : Nat)) j = cellv a i j := by
      intro j
      by_cases hj : j ∈ b2j a c
      · exact Or.inl hj
      · right
        have hsc : ¬ selfCond a i j = true :=
          fun hsc => hj ((b2j_self_mem a i c hget j).mpr hsc)
        rw [cellv_of_miss a i j hsc]
    have hdiag0 : i ∈ b2j a c ∨ cellv a i i ≤ best.2.2 := by
      by_cases hsc : selfCond a i i = true
      · exact Or.inl ((b2j_self_mem a i c hget i).mpr hsc)
      · right
        rw [cellv_of_miss a i i hsc]
        exact Nat.zero_le _
    have hinner := flmInner_self a n i hn hi row hrow (b2j a c) best (fun _ => 0)
      hsub hsort hnew0 hb ho2 hdiag0
    have hstep : flmOuter a a 0 n i (m + 1) (best, row) =
        flmOuter a a 0 n (i + 1) m
          (flmInner 0 n i row (b2j a c) (best, fun _ => 0)) := by
      simp only [flmOuter, hget]
    rw [hstep]
    exact ih (i + 1) (flmInner 0 n i row (b2j a c) (best, fun _ => 0)).1
      (flmInner 0 n i row (b2j a c) (best, fun _ => 0)).2
      (by omega) (fun j => hinner.2.2 j) hinner.1
      (fun m' hm' => hinner.2.1 m' hm')

/-- On equal sequences the backward extension walks a diagonal best all the
way to the start of the region. -/
theorem extendBack_self (a : List α) : ∀ (d s : Nat),
    extendBack a a 0 0 d d s = (0, 0, d + s) := by
  intro d
  induction d with
  | zero =>
    intro s
    rw [Nat.zero_add]
    rfl
  | succ m ih =>
    intro s
    have hcond : 0 < m + 1 ∧ 0 < m + 1 ∧ a.get? m = a.get? (m + 1 - 1) :=
      ⟨Nat.succ_pos m, Nat.succ_pos m, rfl⟩
    have hstep : extendBack a a 0 0 (m + 1) (m + 1) s =
        extendBack a a 0 0 m (m + 1 - 1) (s + 1) := by
      simp only [extendBack, if_pos hcond]
    rw [hstep]
    have he : extendBack a a 0 0 m (m + 1 - 1) (s + 1) = (0, 0, m + (s + 1)) := ih (s + 1)
    rw [he]
    have he2 : m + (s + 1) = m + 1 + s := by omega
    rw [he2]

/-- On equal sequences the forward extension from the origin reaches the full
length. -/
theorem extendFwdGo_self (a : List α) (n : Nat) :
    ∀ (fuel size : Nat), size + fuel = n → extendFwdGo a a n n 0 0 fuel size = n := by
  intro fuel
  induction fuel with
  | zero =>
    intro size h
    show size = n
    omega
  | succ m ih =>
    intro size h
    have hcond : 0 + size < n ∧ 0 + size < n ∧ a.get? (0 + size) = a.get? (0 + size) :=
      ⟨by omega, by omega, rfl⟩
    have hstep : extendFwdGo a a n n 0 0 (m + 1) size =
        extendFwdGo a a n n 0 0 m (size + 1) := by
      show (if 0 + size < n ∧ 0 + size < n ∧ a.get? (0 + size) = a.get? (0 + size) then
          extendFwdGo a a n n 0 0 m (size + 1) else size) =
        extendFwdGo a a n n 0 0 m (size + 1)
      rw [if_pos hcond]
    rw [hstep]
    exact ih (size + 1) (by omega)

/-- `find_longest_match` on a full self comparison returns the whole range. -/
theorem findLongestMatch_self (a : List α) :
    findLongestMatch a a 0 a.length 0 a.length = (0, 0, a.length) := by
  obtain ⟨d, s, hdp, hds⟩ := flmOuter_self a a.length rfl (a.length - 0) 0 (0, 0, 0)
    (fun _ => 0) (by omega) (fun j => rfl) ⟨0, 0, rfl, by omega⟩
    (fun m hm => absurd hm (by omega))
  simp only [findLongestMatch, hdp, extendBack_self, extendFwd]
  rw [extendFwdGo_self a a.length (a.length - (0 + (d + s))) (d + s) (by omega)]

/-- The raw matching blocks of a self comparison: the single full-range block. -/
theorem matchingBlocksCore_self (a : List α) :
    matchingBlocksCore a a = if a.length = 0 then [] else [(0, 0, a.length)] := by
  unfold matchingBlocksCore
  cases hlen : a.length with
  | zero => simp [matchBlocksAux]
  | succ m =>
    rw [if_neg (Nat.succ_ne_zero m)]
    have hx : findLongestMatch a a 0 (m + 1) 0 (m + 1) = (0, 0, m + 1) := by
      have h0 := findLongestMatch_self a
      rw [hlen] at h0
      exact h0
    simp [matchBlocksAux, hx]

/-- A sequence matches itself completely. -/
theorem matchesTotal_self (a : List α) : matchesTotal a a = a.length := by
  rw [matchesTotal_eq_core, matchingBlocksCore_self]
  by_cases h : a.length = 0
  · rw [if_pos h]; simp [h]
  · rw [if_neg h]; simp

/-- `ratio()` of a sequence with itself is `1.0`. -/
theorem ratio_val_self (a : List α) : (ratio a a).val = 1 := by
  unfold ratio calculateRatio
  rw [matchesTotal_self]
  by_cases h : a.length + a.length ≠ 0
  · rw [if_pos h]
    simp only [PyFloat.Frac.val]
    rw [div_eq_one_iff_eq (by exact_mod_cast h)]
    push_cast
    ring
  · rw [if_neg h]
    norm_num [PyFloat.Frac.val]

end Difflib

namespace TextComparator

/-- If one candidate index strictly dominates every other score, the
candidate loop returns exactly that index with its score. -/
theorem fbmGo_argmax (bs : List TBlock) (tnorm : List Char)
    (ttype : Option (List Char)) (i : Nat) (hi : i < bs.length)
    (hne : ∀ b ∈ bs, ¬ (normalizeText b.text).isEmpty = true)
    (hmax : ∀ j, j < bs.length → j ≠ i →
      (scoreOf tnorm ttype bs j).val < (scoreOf tnorm ttype bs i).val) :
    ∀ (rest : List TBlock) (t : Nat) (best : Option (Nat × PyFloat.Frac)),
      rest = bs.drop t →
      ((best = none ∧ t ≤ i) ∨
        (∃ bj bsc, best = some (bj, bsc) ∧ t ≤ i ∧ 0 < bsc.den ∧
          bsc.val < (scoreOf tnorm ttype bs i).val) ∨
        (i < t ∧ best = some (i, scoreOf tnorm ttype bs i))) →
      fbmGo tnorm ttype rest t best = some (i, scoreOf tnorm ttype bs i) := by
  intro rest
  induction rest with
  | nil =>
    intro t best hdrop hinv
    have hlen : bs.length ≤ t := by
      by_contra hcon
      have h0 := congrArg List.length hdrop
      rw [List.length_drop] at h0
      simp at h0
      omega
    rcases hinv with ⟨_, hti⟩ | ⟨bj, bsc, _, hti, _, _⟩ | ⟨hti, hbest⟩
    · omega
    · omega
    · simp only [fbmGo]
      exact hbest
  | cons blk rest' ih =>
    intro t best hdrop hinv
    have ht : t < bs.length := by
      by_contra hcon
      rw [List.drop_eq_nil_of_le (by omega)] at hdrop
      exact List.noConfusion hdrop
    have hblk : bs.getD t dfltBlock = blk := by
      have h1 : bs[t]? = some blk := by
        rw [← List.head?_drop, ← hdrop]
        rfl
      rw [List.getD_eq_getElem?_getD, h1]
      rfl
    have hdrop' : rest' = bs.drop (t + 1) := by
      have hdd : bs.drop (t + 1) = (bs.drop t).drop 1 := by rw [List.drop_drop]
      rw [hdd, ← hdrop]
      rfl
    have hmem : blk ∈ bs := by
      rw [← hblk, List.getD_eq_getElem?_getD, List.getElem?_eq_getElem ht]
      exact List.getElem_mem ht
    have hempty : ¬ (normalizeText blk.text).isEmpty = true := hne blk hmem
    have hscore : (Difflib.ratio tnorm (normalizeText blk.text)).add
        (if ttype = blk.sectionType then ⟨1, 10⟩ else ⟨0, 1⟩) =
        scoreOf tnorm ttype bs t := by
      rw [scoreOf, hblk]
    rcases hinv with ⟨hbn, hti⟩ | ⟨bj, bsc, hbs, hti, hden, hval⟩ | ⟨hti, hbs⟩
    · subst hbn
      simp only [fbmGo]
      rw [if_neg hempty]
      by_cases hti' : t = i
      · subst hti'
        apply ih (t + 1) _ hdrop'
        right; right
        refine ⟨by omega, ?_⟩
        rw [hscore]
      · apply ih (t + 1) _ hdrop'
        right; left
        refine ⟨t, _, rfl, by omega, ?_, ?_⟩
        · rw [hscore]
          exact scoreOf_den_pos tnorm ttype bs t
        · rw [hscore]
          exact hmax t ht hti'
    · subst hbs
      simp only [fbmGo]
      rw [if_neg hempty]
      by_cases hti' : t = i
      · subst hti'
        have hblt : bsc.blt ((Difflib.ratio tnorm (normalizeText blk.text)).add
            (if ttype = blk.sectionType then ⟨1, 10⟩ else ⟨0, 1⟩)) = true := by
          rw [hscore]
          exact (PyFloat.Frac.blt_iff hden (scoreOf_den_pos tnorm ttype bs t)).mpr hval
        rw [if_pos hblt]
        apply ih (t + 1) _ hdrop'
        right; right
        refine ⟨by omega, ?_⟩
        rw [hscore]
      · by_cases hblt : bsc.blt ((Difflib.ratio tnorm (normalizeText blk.text)).add
            (if ttype = blk.sectionType then ⟨1, 10⟩ else ⟨0, 1⟩)) = true
        · rw [if_pos hblt]
          apply ih (t + 1) _ hdrop'
          right; left
          refine ⟨t, _, rfl, by omega, ?_, ?_⟩
          · rw [hscore]
            exact scoreOf_den_pos tnorm ttype bs t
          · rw [hscore]
            exact hmax t ht hti'
        · rw [if_neg hblt]
          apply ih (t + 1) _ hdrop'
          right; left
          exact ⟨bj, bsc, rfl, by omega, hden, hval⟩
    · subst hbs
      simp only [fbmGo]
      rw [if_neg hempty]
      have hblt : (scoreOf tnorm ttype bs i).blt
          ((Difflib.ratio tnorm (normalizeText blk.text)).add
            (if ttype = blk.sectionType then ⟨1, 10⟩ else ⟨0, 1⟩)) = false := by
        rw [hscore]
        have hlt := hmax t ht (by omega)
        have hiff := PyFloat.Frac.blt_iff (scoreOf_den_pos tnorm ttype bs i)
          (scoreOf_den_pos tnorm ttype bs t)
        cases hbb : (scoreOf tnorm ttype bs i).blt (scoreOf tnorm ttype bs t) with
        | false => rfl
        | true => exact absurd (hiff.mp hbb) (by linarith)
      rw [if_neg (by simp [hblt])]
      apply ih (t + 1) _ hdrop'
      right; right
      exact ⟨by omega, rfl⟩

end TextComparator

namespace TextComparator

/-- With non-empty, pairwise-distinct normalized texts, `find_best_match` of a
block against its own list returns the block's own index: the self score is
`1.0 + 0.1` (full ratio plus the always-equal section-type bonus) and strictly
dominates every other candidate. -/
theorem findBestMatch_self (bs : List TBlock)
    (hne : ∀ b ∈ bs, normalizeText b.text ≠ [])
    (hnd : (bs.map (fun b => normalizeText b.text)).Nodup)
    (i : Nat) (hi : i < bs.length) :
    findBestMatch (bs.getD i dfltBlock) bs =
      some (i, scoreOf (normalizeText (bs.getD i dfltBlock).text)
        (bs.getD i dfltBlock).sectionType bs i) := by
  have hgetD : ∀ j (hj : j < bs.length), bs.getD j dfltBlock = bs.get ⟨j, hj⟩ := by
    intro j hj
    rw [List.getD_eq_getElem?_getD, List.getElem?_eq_getElem hj]
    rfl
  have hmemi : bs.getD i dfltBlock ∈ bs := by
    rw [hgetD i hi]
    exact List.get_mem bs i hi
  have htne : normalizeText (bs.getD i dfltBlock).text ≠ [] := hne _ hmemi
  have hdist : ∀ j, j < bs.length → j ≠ i →
      normalizeText ((bs.getD i dfltBlock).text) ≠
        normalizeText ((bs.getD j dfltBlock).text) := by
    intro j hj hji hc
    rw [hgetD i hi, hgetD j hj] at hc
    simp only [List.get_eq_getElem] at hc
    have hj' : j < (bs.map (fun b => normalizeText b.text)).length := by simpa
    have hi' : i < (bs.map (fun b => normalizeText b.text)).length := by simpa
    have hinj := List.nodup_iff_injective_get.mp hnd
    have hgg : (bs.map (fun b => normalizeText b.text)).get ⟨i, hi'⟩ =
        (bs.map (fun b => normalizeText b.text)).get ⟨j, hj'⟩ := by
      simp only [List.get_eq_getElem, List.getElem_map]
      exact hc
    have := hinj hgg
    simp only [Fin.mk.injEq] at this
    exact hji this.symm
  have hvali : (scoreOf (normalizeText (bs.getD i dfltBlock).text)
      (bs.getD i dfltBlock).sectionType bs i).val = 1 + 1 / 10 := by
    unfold scoreOf
    rw [if_pos rfl]
    rw [PyFloat.Frac.val_add (ratio_den_pos _ _) (by norm_num)]
    rw [Difflib.ratio_val_self]
    norm_num [PyFloat.Frac.val]
  have hmax : ∀ j, j < bs.length → j ≠ i →
      (scoreOf (normalizeText (bs.getD i dfltBlock).text)
        (bs.getD i dfltBlock).sectionType bs j).val <
      (scoreOf (normalizeText (bs.getD i dfltBlock).text)
        (bs.getD i dfltBlock).sectionType bs i).val := by
    intro j hj hji
    rw [hvali]
    unfold scoreOf
    have hrlt : (Difflib.ratio (normalizeText (bs.getD i dfltBlock).text)
        (normalizeText ((bs.getD j dfltBlock).text))).val < 1 :=
      Difflib.ratio_val_lt_one _ _ (hdist j hj hji)
    by_cases hbt : (bs.getD i dfltBlock).sectionType = (bs.getD j dfltBlock).sectionType
    · rw [if_pos hbt]
      rw [PyFloat.Frac.val_add (ratio_den_pos _ _) (by norm_num)]
      have hb10 : ((⟨1, 10⟩ : PyFloat.Frac)).val = 1 / 10 := by
        norm_num [PyFloat.Frac.val]
      rw [hb10]
      linarith
    · rw [if_neg hbt]
      rw [PyFloat.Frac.val_add (ratio_den_pos _ _) (by norm_num)]
      have hb0 : ((⟨0, 1⟩ : PyFloat.Frac)).val = 0 := by
        norm_num [PyFloat.Frac.val]
      rw [hb0]
      linarith
  unfold findBestMatch
  rw [if_neg (fun hc => htne (List.isEmpty_iff.mp hc))]
  have hargmax := fbmGo_argmax bs (normalizeText (bs.getD i dfltBlock).text)
    (bs.getD i dfltBlock).sectionType i hi
    (fun b hb hc => hne b hb (List.isEmpty_iff.mp hc)) hmax bs 0 none
    (List.drop_zero bs).symm (Or.inl ⟨rfl, Nat.zero_le i⟩)
  rw [hargmax]
  have hble : similarityThreshold.ble (scoreOf (normalizeText (bs.getD i dfltBlock).text)
      (bs.getD i dfltBlock).sectionType bs i) = true := by
    apply (PyFloat.Frac.ble_iff (by norm_num [similarityThreshold])
      (scoreOf_den_pos _ _ _ _)).mpr
    rw [hvali]
    norm_num [similarityThreshold, PyFloat.Frac.val]
  show (if similarityThreshold.ble (scoreOf (normalizeText (bs.getD i dfltBlock).text)
      (bs.getD i dfltBlock).sectionType bs i) = true then
    some (i, scoreOf (normalizeText (bs.getD i dfltBlock).text)
      (bs.getD i dfltBlock).sectionType bs i) else none) =
    some (i, scoreOf (normalizeText (bs.getD i dfltBlock).text)
      (bs.getD i dfltBlock).sectionType bs i)
  rw [if_pos hble]

end TextComparator

namespace TextComparator

/-- `compare_word_level` of a text with itself reports no change. -/
theorem compareWordLevel_self (x : List Char) :
    compareWordLevel x x = ⟨false, [], []⟩ := by
  unfold compareWordLevel
  simp

/-- The B-side loop is the identity when every scanned index is claimed. -/
theorem cbGoB_all : ∀ (rest : List TBlock) (j : Nat) (st : CBState),
    (∀ m, j ≤ m → m < j + rest.length → st.matchedB.contains m = true) →
    cbGoB rest j st = st := by
  intro rest
  induction rest with
  | nil => intro j st _; rfl
  | cons b rest' ih =>
    intro j st hall
    have hc : st.matchedB.contains j = true :=
      hall j le_rfl (by simp only [List.length_cons]; omega)
    simp only [cbGoB]
    rw [if_pos hc]
    exact ih (j + 1) st
      (fun m hm1 hm2 => hall m (by omega)
        (by simp only [List.length_cons] at hm2 ⊢; omega))

/-- The A-side loop of a self comparison builds the identity sync map and
claims every index, recording no diff entries. -/
theorem cbGoA_self (bs : List TBlock)
    (hne : ∀ b ∈ bs, normalizeText b.text ≠ [])
    (hnd : (bs.map (fun b => normalizeText b.text)).Nodup) :
    ∀ (rest : List TBlock) (t : Nat) (st : CBState),
      rest = bs.drop t → t ≤ bs.length →
      st.syncMap = (List.range t).map (fun m => (m, m)) →
      st.matchedB = List.range t →
      st.modified = [] → st.deleted = [] → st.added = [] →
      (cbGoA bs rest t st).syncMap = (List.range bs.length).map (fun m => (m, m)) ∧
      (cbGoA bs rest t st).matchedB = List.range bs.length ∧
      (cbGoA bs rest t st).modified = [] ∧
      (cbGoA bs rest t st).deleted = [] ∧
      (cbGoA bs rest t st).added = [] := by
  intro rest
  induction rest with
  | nil =>
    intro t st hdrop ht hsy hmb hmod hdel hadd
    have hge : bs.length ≤ t := by
      by_contra hcon
      have h0 := congrArg List.length hdrop
      rw [List.length_drop] at h0
      simp at h0
      omega
    have hteq : t = bs.length := by omega
    subst hteq
    exact ⟨hsy, hmb, hmod, hdel, hadd⟩
  | cons b rest' ih =>
    intro t st hdrop ht hsy hmb hmod hdel hadd
    have htlt : t < bs.length := by
      by_contra hcon
      rw [List.drop_eq_nil_of_le (by omega)] at hdrop
      exact List.noConfusion hdrop
    have hblk : bs.getD t dfltBlock = b := by
      have h1 : bs[t]? = some b := by
        rw [← List.head?_drop, ← hdrop]
        rfl
      rw [List.getD_eq_getElem?_getD, h1]
      rfl
    have hdrop' : rest' = bs.drop (t + 1) := by
      have hdd : bs.drop (t + 1) = (bs.drop t).drop 1 := by rw [List.drop_drop]
      rw [hdd, ← hdrop]
      rfl
    have hfb : findBestMatch b bs =
        some (t, scoreOf (normalizeText b.text) b.sectionType bs t) := by
      have h0 := findBestMatch_self bs hne hnd t htlt
      rw [hblk] at h0
      exact h0
    have hcont : ¬ st.matchedB.contains t = true := by
      rw [hmb]
      simp
    have hwd : compareWordLevel b.text ((bs.getD t ⟨0, (0, 0, 0, 0), [], none⟩).text) =
        ⟨false, [], []⟩ := by
      have hb2 : bs.getD t ⟨0, (0, 0, 0, 0), [], none⟩ = b := hblk
      rw [hb2]
      exact compareWordLevel_self b.text
    have hstep : cbStep bs b t st =
        { st with matchedB := st.matchedB ++ [t], syncMap := st.syncMap ++ [(t, t)] } := by
      simp only [cbStep, hfb]
      rw [if_neg hcont]
      rw [hwd]
      rfl
    have hsy' : (cbStep bs b t st).syncMap = (List.range (t + 1)).map (fun m => (m, m)) := by
      rw [hstep]
      show st.syncMap ++ [(t, t)] = _
      rw [hsy, List.range_succ, List.map_append]
      rfl
    have hmb' : (cbStep bs b t st).matchedB = List.range (t + 1) := by
      rw [hstep]
      show st.matchedB ++ [t] = _
      rw [hmb, List.range_succ]
    have hmod' : (cbStep bs b t st).modified = [] := by rw [hstep]; exact hmod
    have hdel' : (cbStep bs b t st).deleted = [] := by rw [hstep]; exact hdel
    have hadd' : (cbStep bs b t st).added = [] := by rw [hstep]; exact hadd
    exact ih (t + 1) (cbStep bs b t st) hdrop' (by omega) hsy' hmb' hmod' hdel' hadd'

end TextComparator

/-- C1: comparing a document with itself yields no modified, deleted or added
blocks and an identity sync map, provided every block's normalized text is
non-empty and the blocks' normalized texts are pairwise distinct (without
these provisos the claim fails; see the counterexample). -/
theorem C1_self_compare_amended (bs : List TextComparator.TBlock)
    (hne : ∀ b ∈ bs, TextComparator.normalizeText b.text ≠ [])
    (hnd : (bs.map (fun b => TextComparator.normalizeText b.text)).Nodup) :
    (TextComparator.compareBlocks bs bs).modified = [] ∧
    (TextComparator.compareBlocks bs bs).deleted = [] ∧
    (TextComparator.compareBlocks bs bs).added = [] ∧
    (TextComparator.compareBlocks bs bs).syncMap =
      (List.range bs.length).map (fun i => (i, i)) := by
  have hA := TextComparator.cbGoA_self bs hne hnd bs 0 ⟨[], [], [], [], [], [], []⟩
    (List.drop_zero bs).symm (Nat.zero_le _) (by simp) (by simp) rfl rfl rfl
  have hB : TextComparator.cbGoB bs 0
      (TextComparator.cbGoA bs bs 0 ⟨[], [], [], [], [], [], []⟩) =
      TextComparator.cbGoA bs bs 0 ⟨[], [], [], [], [], [], []⟩ := by
    apply TextComparator.cbGoB_all
    intro m hm1 hm2
    rw [hA.2.1]
    simp
    omega
  have hCB : TextComparator.compareBlocks bs bs =
      TextComparator.cbGoA bs bs 0 ⟨[], [], [], [], [], [], []⟩ := hB
  rw [hCB]
  exact ⟨hA.2.2.1, hA.2.2.2.1, hA.2.2.2.2, hA.1⟩

/-- Witness for the amended C1 on a two-block document. -/
theorem C1_self_compare_amended_witness :
    (TextComparator.compareBlocks
      [⟨0, (0, 0, 0, 0), ofStr "ab", none⟩, ⟨0, (0, 0, 0, 0), ofStr "cd", none⟩]
      [⟨0, (0, 0, 0, 0), ofStr "ab", none⟩, ⟨0, (0, 0, 0, 0), ofStr "cd", none⟩]).modified
        = [] ∧
    (TextComparator.compareBlocks
      [⟨0, (0, 0, 0, 0), ofStr "ab", none⟩, ⟨0, (0, 0, 0, 0), ofStr "cd", none⟩]
      [⟨0, (0, 0, 0, 0), ofStr "ab", none⟩, ⟨0, (0, 0, 0, 0), ofStr "cd", none⟩]).deleted
        = [] ∧
    (TextComparator.compareBlocks
      [⟨0, (0, 0, 0, 0), ofStr "ab", none⟩, ⟨0, (0, 0, 0, 0), ofStr "cd", none⟩]
      [⟨0, (0, 0, 0, 0), ofStr "ab", none⟩, ⟨0, (0, 0, 0, 0), ofStr "cd", none⟩]).added
        = [] ∧
    (TextComparator.compareBlocks
      [⟨0, (0, 0, 0, 0), ofStr "ab", none⟩, ⟨0, (0, 0, 0, 0), ofStr "cd", none⟩]
      [⟨0, (0, 0, 0, 0), ofStr "ab", none⟩, ⟨0, (0, 0, 0, 0), ofStr "cd", none⟩]).syncMap =
      (List.range ([⟨0, (0, 0, 0, 0), ofStr "ab", none⟩,
        ⟨0, (0, 0, 0, 0), ofStr "cd", none⟩] :
          List TextComparator.TBlock).length).map (fun i => (i, i)) :=
  C1_self_compare_amended
    [⟨0, (0, 0, 0, 0), ofStr "ab", none⟩, ⟨0, (0, 0, 0, 0), ofStr "cd", none⟩]
    (by decide) (by decide)
